import Mathlib

/-!
# Logging-System: collector normalisation and server store

A shallow embedding of the two Go programs of the repository:

* `log-collector/cmd/collector/main.go`: `severityCodeToLevel`, `parseCategory`,
  `extract`, `atoiSafe` and the four regular expressions `reSeverity`, `reHost`,
  `reUser`, `reWinUser`;
* `log-server/cmd/server/main.go`: `fileStore` with `Append`, `All`, `Count`, `GroupBy`,
  the recovery `loadExisting` and the handlers `ingest` and `logs`.

Go strings are lists of runes (`List Char`) inside the helpers and `String` in the
records. The clock read by `extract` is an explicit argument. The case tables of the
Go `unicode` package are a parameter (`CaseTables`). The operating system calls made by
`Append` are resolved by an explicit outcome argument and an explicit disk. The JSON
encoder and decoder are parameters as well; the HTTP exchange of `forward` is an explicit
argument. The call `sort.Slice` is a parameter of the handler `logs`; the sort that the Go
library runs there, the pattern-defeating quicksort of its `sort` package, is embedded
too (`sortSlice`) and shown to be such a sort (`goSort`).
-/

namespace LogSys

/-! ## Runes, case mapping, substring search -/

/-- The rune maps `unicode.ToLower` and `unicode.ToUpper` of the Go standard library.
The library tables are not part of the repository, so they are a parameter; the only
facts used are that on ASCII runes they are the ASCII case maps. -/
structure CaseTables where
  ToLower : Char → Char
  ToUpper : Char → Char
  lower_ascii : ∀ c : Char, c.toNat < 128 → ToLower c = c.toLower
  upper_ascii : ∀ c : Char, c.toNat < 128 → ToUpper c = c.toUpper

/-- The tables restricted to their ASCII part (what Go computes on ASCII-only text). -/
def asciiTables : CaseTables where
  ToLower := Char.toLower
  ToUpper := Char.toUpper
  lower_ascii := fun _ _ => rfl
  upper_ascii := fun _ _ => rfl

/-- Model of `strings.ToLower`: `unicode.ToLower` applied rune by rune. -/
def ToLower (T : CaseTables) (s : List Char) : List Char := s.map T.ToLower

/-- Model of `strings.ToUpper`: `unicode.ToUpper` applied rune by rune. -/
def ToUpper (T : CaseTables) (s : List Char) : List Char := s.map T.ToUpper

/-- Match a literal at the head of the text; the result is the text after it. -/
def dropLit : List Char → List Char → Option (List Char)
  | [], s => some s
  | _ :: _, [] => none
  | a :: as, c :: cs => if a = c then dropLit as cs else none

/-- Leftmost search: try the anchored matcher `m` at position 0, 1, 2, ... of the text
(the empty remainder included) and return the first success. This is the search order of
the `Find` family of the Go `regexp` package. -/
def leftmost {α : Type} (m : List Char → Option α) : List Char → Option α
  | [] => m []
  | c :: cs =>
    match m (c :: cs) with
    | some x => some x
    | none => leftmost m cs

/-- Model of `strings.Contains(s, substr)`. -/
def Contains (s substr : List Char) : Bool := (leftmost (dropLit substr) s).isSome

/-- The class `\d` of Go regular expressions: the ASCII digits. -/
def isDigit (c : Char) : Bool := decide ('0' ≤ c) && decide (c ≤ '9')

/-- The natural number denoted by a string of decimal digits. -/
def decimalValue (ds : List Char) : Nat := ds.foldl (fun n c => n * 10 + (c.toNat - 48)) 0

/-- The class `\s` of Go regular expressions: tab, newline, form feed, carriage return, space. -/
def isSpace (c : Char) : Bool :=
  c == '\t' || c == '\n' || c == Char.ofNat 12 || c == '\r' || c == ' '

/-- The class `[A-Za-z0-9._-]` of the host and user patterns. -/
def isTokenChar (c : Char) : Bool :=
  (decide ('A' ≤ c) && decide (c ≤ 'Z')) || (decide ('a' ≤ c) && decide (c ≤ 'z')) ||
    (decide ('0' ≤ c) && decide (c ≤ '9')) || c == '.' || c == '_' || c == '-'

/-! ## The four regular expressions

Each definition returns the text of capture group 1 of the leftmost match, or `none`
when `FindStringSubmatch` returns nil. A match has exactly one group, so the test
`len(m) == 2` of the source holds exactly when there is a match. In every pattern the
classes that follow one another are disjoint, so the greedy repetition can only succeed
with the maximal run: `takeWhile` and `dropWhile` compute it. -/

/-- Anchored pattern `<(\d+)>`. -/
def reSeverityAt (s : List Char) : Option (List Char) :=
  match dropLit ['<'] s with
  | none => none
  | some r =>
    let ds := r.takeWhile isDigit
    match ds, r.dropWhile isDigit with
    | _ :: _, c :: _ => if c = '>' then some ds else none
    | _, _ => none

/-- Pattern `^<(\d+)>`: the anchor `^` allows a match at position 0 only. -/
def reSeverity (s : List Char) : Option (List Char) := reSeverityAt s

/-- Anchored pattern `>\s*([A-Za-z0-9._-]+)\s+`. -/
def reHostAt (s : List Char) : Option (List Char) :=
  match dropLit ['>'] s with
  | none => none
  | some r =>
    let r1 := r.dropWhile isSpace
    let tok := r1.takeWhile isTokenChar
    match tok, r1.dropWhile isTokenChar with
    | _ :: _, c :: _ => if isSpace c then some tok else none
    | _, _ => none

/-- Pattern `reHost`, searched leftmost. -/
def reHost (s : List Char) : Option (List Char) := leftmost reHostAt s

/-- Anchored pattern `user\s+([A-Za-z0-9._-]+)`. -/
def reUserAt (s : List Char) : Option (List Char) :=
  match dropLit "user".data s with
  | none => none
  | some r =>
    match r.takeWhile isSpace, (r.dropWhile isSpace).takeWhile isTokenChar with
    | _ :: _, c :: tok => some (c :: tok)
    | _, _ => none

/-- Pattern `reUser`, searched leftmost. -/
def reUser (s : List Char) : Option (List Char) := leftmost reUserAt s

/-- Anchored pattern `Account Name:\s*([A-Za-z0-9._-]+)`. -/
def reWinUserAt (s : List Char) : Option (List Char) :=
  match dropLit "Account Name:".data s with
  | none => none
  | some r =>
    match (r.dropWhile isSpace).takeWhile isTokenChar with
    | c :: tok => some (c :: tok)
    | [] => none

/-- Pattern `reWinUser`, searched leftmost. -/
def reWinUser (s : List Char) : Option (List Char) := leftmost reWinUserAt s

/-! ## Collector: severity, category, extraction -/

/-- Record type `outgoing` of the collector. An unset string field is the empty string.
`Timestamp` is an instant, counted from the zero value of `time.Time`. -/
structure outgoing where
  Timestamp : Int
  EventCategory : String
  EventSource : String
  Username : String
  Hostname : String
  Severity : String
  Service : String
  RawMessage : String
  IsBlacklisted : Bool
deriving DecidableEq, Repr

/-- The map `blacklistedUsers`, as its list of entries. -/
def blacklistedUsers : List (String × Bool) :=
  [("root", true), ("Administrator", true), ("baduser", true)]

/-- Indexing a Go `map[string]bool`: the zero value `false` for an absent key. -/
def mapGetBool (m : List (String × Bool)) (k : String) : Bool :=
  match m with
  | [] => false
  | (k1, v) :: rest => if k1 = k then v else mapGetBool rest k

/-- Function `severityCodeToLevel`. -/
def severityCodeToLevel (code : Int) : String :=
  if code ≥ 0 ∧ code < 30 then "ERROR"
  else if code ≥ 30 ∧ code < 60 then "WARN"
  else "INFO"

/-- Wrap-around of the 64-bit Go `int` (two-complement arithmetic modulo `2 ^ 64`). -/
def wrapInt64 (x : Int) : Int := (x + 2 ^ 63) % 2 ^ 64 - 2 ^ 63

/-- Function `atoiSafe`: the loop over the runes of `s`, accumulating in an `int`. -/
def atoiSafe (s : List Char) : Int :=
  s.foldl (fun n ch =>
    if '0' ≤ ch ∧ ch ≤ '9' then wrapInt64 (n * 10 + ((ch.toNat : Int) - 48)) else n) 0

/-- Function `parseCategory`. -/
def parseCategory (T : CaseTables) (msg : List Char) : String × String :=
  let lower := ToLower T msg
  if Contains lower "login".data && Contains lower "success".data then
    ("login.audit", "linux")
  else if Contains lower "login".data then
    ("login.audit", "linux")
  else if Contains lower "logout".data || Contains lower "session terminated".data then
    ("logout.audit", "linux")
  else if Contains lower "security-auditing".data then
    ("windows.login", "windows")
  else if Contains lower "event log".data || Contains lower "application".data then
    ("windows.event", "windows")
  else if Contains lower "sudo".data || Contains lower "pam_unix".data then
    ("syslog", "linux")
  else
    ("unknown", "unknown")

/-- The `switch src` block of `extract` that derives the service hint. -/
def serviceHint (T : CaseTables) (cat src : String) : String :=
  if src = "linux" then
    if Contains (ToLower T cat.data) "login".data then "linux_login"
    else if Contains (ToLower T cat.data) "logout".data then "linux_logout"
    else "linux_syslog"
  else if src = "windows" then
    if Contains (ToLower T cat.data) "login".data then "windows_login"
    else "windows_event"
  else ""

/-- Function `extract`. The argument `now` is the value of `time.Now().UTC()`. -/
def extract (T : CaseTables) (now : Int) (msg : String) : outgoing :=
  let severity :=
    match reSeverity msg.data with
    | some d => severityCodeToLevel (atoiSafe d)
    | none => ""
  let hostname :=
    match reHost msg.data with
    | some h => String.mk h
    | none => ""
  let username :=
    match reUser msg.data with
    | some u => String.mk u
    | none =>
      match reWinUser msg.data with
      | some u => String.mk u
      | none => ""
  let cs := parseCategory T msg.data
  { Timestamp := now
    EventCategory := cs.1
    EventSource := cs.2
    Username := username
    Hostname := hostname
    Severity := severity
    Service := serviceHint T cs.1 cs.2
    RawMessage := msg
    IsBlacklisted := mapGetBool blacklistedUsers username }

/-! ## Server: the file store

The mutex of `fileStore` is left out: the operations below are the sequential bodies
that run while the lock is held. Counters are natural numbers: a counter never exceeds
the length of the cache, which a Go slice keeps below `2 ^ 63`. -/

/-- Record type `LogRecord` of the server, with the fields of `outgoing`. `Timestamp` is an
instant, counted from the zero value of `time.Time` (so `IsZero` is `Timestamp = 0`). -/
structure LogRecord where
  Timestamp : Int
  EventCategory : String
  EventSource : String
  Username : String
  Hostname : String
  Severity : String
  Service : String
  RawMessage : String
  IsBlacklisted : Bool
deriving DecidableEq, Repr

/-- A Go `map[string]int`, as the list of its entries. -/
abbrev CountMap := List (String × Nat)

/-- Indexing `m[k]` of a `map[string]int`: zero for an absent key. -/
def mapGet : CountMap → String → Nat
  | [], _ => 0
  | (k1, v) :: rest, k => if k1 = k then v else mapGet rest k

/-- The statement `m[k]++` on a `map[string]int`. -/
def mapIncr : CountMap → String → CountMap
  | [], k => [(k, 1)]
  | (k1, v) :: rest, k => if k1 = k then (k1, v + 1) :: rest else (k1, v) :: mapIncr rest k

/-- The sum of the values of a `map[string]int`. -/
def mapTotal (m : CountMap) : Nat := (m.map Prod.snd).sum

/-- Lookup `m[key]` with the `ok` flag in a `map[string]map[string]int`. -/
def countsGet : List (String × CountMap) → String → Option CountMap
  | [], _ => none
  | (k1, v) :: rest, k => if k1 = k then some v else countsGet rest k

/-- Replace the inner map stored under `key` (the effect of updating it in place). -/
def countsSet : List (String × CountMap) → String → CountMap → List (String × CountMap)
  | [], k, v => [(k, v)]
  | (k1, v1) :: rest, k, v => if k1 = k then (k1, v) :: rest else (k1, v1) :: countsSet rest k v

/-- Type `fileStore`, without its mutex. -/
structure fileStore where
  path : String
  cache : List LogRecord
  counts : List (String × CountMap)

/-- The files of the disk: the content of each path that exists. -/
abbrev Disk := String → Option (List Char)

/-- Write `content` as the new content of `path`. -/
def Disk.put (d : Disk) (path : String) (content : List Char) : Disk :=
  fun q => if q = path then some content else d q

/-- What the operating system does during one call of `Append`: whether `os.OpenFile`
fails, and whether `f.Write` fails (`some k`: it fails after `k` bytes reached the file). -/
structure SysOutcome where
  openFails : Bool
  writeFails : Option Nat
deriving DecidableEq, Repr

/-- The errors `Append` can return. -/
inductive StoreError where
  | openFailed
  | marshalFailed
  | writeFailed
deriving DecidableEq, Repr

/-- How a call ends: `nil` error, a non-nil error, or a run-time panic (an assignment
into a nil inner map, which a store made by `newFileStore` never has). -/
inductive Outcome where
  | ok
  | error (e : StoreError)
  | panicked
deriving DecidableEq, Repr

/-- Function `newFileStore`. The directory made by `os.MkdirAll` holds no file content. -/
def newFileStore (path : String) : fileStore :=
  { path := path, cache := [], counts := [("event.category", []), ("severity", [])] }

/-- Method `fileStore.Append`. `Marshal` is `json.Marshal` on a `LogRecord` (`none` when
it returns an error); `sys` resolves the two system calls. The result is the outcome,
the store after the call and the disk after the call. -/
def Append (T : CaseTables) (Marshal : LogRecord → Option (List Char)) (sys : SysOutcome)
    (disk : Disk) (fs : fileStore) (rec : LogRecord) : Outcome × fileStore × Disk :=
  if sys.openFails then (Outcome.error StoreError.openFailed, fs, disk)
  else
    -- O_CREATE|O_WRONLY|O_APPEND: the file exists from here on
    let old := (disk fs.path).getD []
    let disk1 := disk.put fs.path old
    match Marshal rec with
    | none => (Outcome.error StoreError.marshalFailed, fs, disk1)
    | some b =>
      let line := b ++ ['\n']
      match sys.writeFails with
      | some k => (Outcome.error StoreError.writeFailed, fs, disk.put fs.path (old ++ line.take k))
      | none =>
        let disk2 := disk.put fs.path (old ++ line)
        let fs1 : fileStore := { fs with cache := fs.cache ++ [rec] }
        match countsGet fs1.counts "event.category" with
        | none => (Outcome.panicked, fs1, disk2)
        | some mc =>
          let fs2 : fileStore :=
            { fs1 with counts := countsSet fs1.counts "event.category" (mapIncr mc rec.EventCategory) }
          match countsGet fs2.counts "severity" with
          | none => (Outcome.panicked, fs2, disk2)
          | some ms =>
            let key := String.mk (ToUpper T rec.Severity.data)
            let fs3 : fileStore :=
              { fs2 with counts := countsSet fs2.counts "severity" (mapIncr ms key) }
            (Outcome.ok, fs3, disk2)

/-- Method `fileStore.All`: a copy of the cache (its error result is always nil). -/
def All (fs : fileStore) : List LogRecord := fs.cache

/-- Method `fileStore.Count`. -/
def Count (fs : fileStore) : Nat := fs.cache.length

/-- Method `fileStore.GroupBy`: a copy of the inner map under `key`, empty when absent. -/
def GroupBy (fs : fileStore) (key : String) : CountMap :=
  match countsGet fs.counts key with
  | some m => m
  | none => []

/-- A run of `Append` calls, one after another, each with its own system outcome;
the result lists the outcome of every call. -/
def appendAll (T : CaseTables) (Marshal : LogRecord → Option (List Char)) :
    Disk → fileStore → List (LogRecord × SysOutcome) → List Outcome × fileStore × Disk
  | disk, fs, [] => ([], fs, disk)
  | disk, fs, (rec, sys) :: rest =>
    let r := Append T Marshal sys disk fs rec
    let t := appendAll T Marshal r.2.2 r.2.1 rest
    (r.1 :: t.1, t.2.1, t.2.2)

/-- A sample encoder, used to run the store on concrete inputs; the theorems about the
store hold for every encoder. It refuses the records with a negative timestamp. -/
def sampleMarshal (rec : LogRecord) : Option (List Char) :=
  if rec.Timestamp < 0 then none else some rec.RawMessage.data

/-- The disk without any file. -/
def emptyDisk : Disk := fun _ => none

/-- A record of the shape the collector forwards; the record of the storage test. -/
def sampleRecord : LogRecord :=
  { Timestamp := 1, EventCategory := "login.audit", EventSource := "", Username := "",
    Hostname := "", Severity := "INFO", Service := "", RawMessage := "x",
    IsBlacklisted := false }

/-- Three records for running the store on a concrete input. -/
def sampleRecords : List LogRecord :=
  [ sampleRecord,
    { Timestamp := 2, EventCategory := "syslog", EventSource := "linux", Username := "root",
      Hostname := "web-01", Severity := "info", Service := "linux_syslog", RawMessage := "y",
      IsBlacklisted := true },
    { Timestamp := 3, EventCategory := "login.audit", EventSource := "linux", Username := "",
      Hostname := "", Severity := "", Service := "linux_login", RawMessage := "z",
      IsBlacklisted := false } ]

/-! ## Collector: forwarding -/

/-- What happens to the HTTP exchange made by `forward`: `http.NewRequest` fails, or
`client.Do` fails, or the server answers with a status code. -/
inductive Exchange where
  | requestFails
  | sendFails
  | response (StatusCode : Int)
deriving DecidableEq, Repr

/-- The non-nil errors `forward` can return. -/
inductive ForwardError where
  | request
  | send
deriving DecidableEq, Repr

/-- Function `forward`; `none` is the nil error. After `client.Do` has succeeded the
variable `err` is nil, and it is `err` that the status test returns. -/
def forward (_serverURL : String) (_rec : outgoing) (x : Exchange) : Option ForwardError :=
  match x with
  | Exchange.requestFails => some ForwardError.request
  | Exchange.sendFails => some ForwardError.send
  | Exchange.response StatusCode =>
    let err : Option ForwardError := none
    if StatusCode ≥ 300 then err else none

/-! ## Server: recovery

`loadExisting` reads the backing file through a `json.Decoder` while `Append` writes to
the same path. The decoder asks the file for more bytes whenever its buffer runs out, the
file only grows, and everything runs in one goroutine; so what the decoder sees is the
current content of the file from its read position on. The loop has no bound of its
own: the model takes a fuel argument and returns `none` when the fuel runs out. Read
errors in the middle of the file are not modelled. -/

/-- The whitespace that `encoding/json` skips: space, tab, carriage return, newline. -/
def isJsonSpace (c : Char) : Bool := c == ' ' || c == '\t' || c == '\r' || c == '\n'

/-- Method `Decoder.More` on the unread input: there is a next non-space character and it
is neither `]` nor the closing brace. -/
def More (input : List Char) : Bool :=
  match input.dropWhile isJsonSpace with
  | [] => false
  | c :: _ => c != ']' && c != '\x7d'

/-- The non-nil errors `loadExisting` can return. -/
inductive LoadError where
  | openFailed
  | decodeFailed
deriving DecidableEq, Repr

/-- How `loadExisting` ends: nil error, non-nil error, or the panic of an `Append`. -/
inductive LoadOutcome where
  | ok
  | error (e : LoadError)
  | panicked
deriving DecidableEq, Repr

/-- The loop `for dec.More()` of `loadExisting`. `Decode` is `Decoder.Decode` into a
`LogRecord` on the unread input: the record and the number of characters read, or `none`
for an error. `pos` is the read position in the file at `path`, `i` counts the calls of
`Append`, and `sysAt i` resolves the system calls of call `i`. The error of `Append` is
dropped, as in the source. -/
def replay (T : CaseTables) (Marshal : LogRecord → Option (List Char))
    (Decode : List Char → Option (LogRecord × Nat)) (sysAt : Nat → SysOutcome) (path : String) :
    Nat → Nat → Nat → Disk → fileStore → Option (LoadOutcome × fileStore × Disk)
  | 0, _, _, _, _ => none
  | fuel + 1, i, pos, disk, fs =>
    let input := ((disk path).getD []).drop pos
    if More input then
      match Decode input with
      | none => some (LoadOutcome.error LoadError.decodeFailed, fs, disk)
      | some (rec, n) =>
        let r := Append T Marshal (sysAt i) disk fs rec
        if r.1 = Outcome.panicked then some (LoadOutcome.panicked, r.2.1, r.2.2)
        else replay T Marshal Decode sysAt path fuel (i + 1) (pos + n) r.2.2 r.2.1
    else some (LoadOutcome.ok, fs, disk)

/-- Function `loadExisting`. `readFails` says that `os.Open` fails with an error other
than `ErrNotExist`; that error is returned. A missing file gives the nil error. -/
def loadExisting (T : CaseTables) (Marshal : LogRecord → Option (List Char))
    (Decode : List Char → Option (LogRecord × Nat)) (readFails : Bool)
    (sysAt : Nat → SysOutcome) (fuel : Nat) (path : String) (disk : Disk) (fs : fileStore) :
    Option (LoadOutcome × fileStore × Disk) :=
  if readFails then some (LoadOutcome.error LoadError.openFailed, fs, disk)
  else
    match disk path with
    | none => some (LoadOutcome.ok, fs, disk)
    | some _ => replay T Marshal Decode sysAt path fuel 0 0 disk fs

/-! ## Server: the handlers -/

/-- What a handler sends back: a status code, or the panic of an `Append`. -/
inductive Reply where
  | status (code : Nat)
  | panicked
deriving DecidableEq, Repr

/-- Handler `api.ingest` on the request body. `now` is `time.Now().UTC()`. The result is
the reply, the store and the disk after the request. -/
def ingest (T : CaseTables) (Marshal : LogRecord → Option (List Char))
    (Decode : List Char → Option (LogRecord × Nat)) (sys : SysOutcome) (now : Int)
    (disk : Disk) (fs : fileStore) (body : List Char) : Reply × fileStore × Disk :=
  match Decode body with
  | none => (Reply.status 400, fs, disk)
  | some (p, _) =>
    let record : LogRecord := if p.Timestamp = 0 then { p with Timestamp := now } else p
    if record.RawMessage = "" then (Reply.status 400, fs, disk)
    else
      let r := Append T Marshal sys disk fs record
      match r.1 with
      | Outcome.ok => (Reply.status 202, r.2.1, r.2.2)
      | Outcome.error _ => (Reply.status 500, r.2.1, r.2.2)
      | Outcome.panicked => (Reply.panicked, r.2.1, r.2.2)

/-- Function `unicode.IsSpace`: the code points with the Unicode property White_Space. -/
def isUnicodeSpace (c : Char) : Bool :=
  let n := c.toNat
  decide ((9 ≤ n ∧ n ≤ 13) ∨ n = 32 ∨ n = 0x85 ∨ n = 0xA0 ∨ n = 0x1680 ∨
    (0x2000 ≤ n ∧ n ≤ 0x200A) ∨ n = 0x2028 ∨ n = 0x2029 ∨ n = 0x202F ∨ n = 0x205F ∨
    n = 0x3000)

/-- Function `strings.TrimSpace`. -/
def TrimSpace (s : List Char) : List Char :=
  ((s.dropWhile isUnicodeSpace).reverse.dropWhile isUnicodeSpace).reverse

/-- Function `strconv.ParseBool`; `none` is its error. -/
def ParseBool (s : String) : Option Bool :=
  if s = "1" ∨ s = "t" ∨ s = "T" ∨ s = "TRUE" ∨ s = "true" ∨ s = "True" then some true
  else if s = "0" ∨ s = "f" ∨ s = "F" ∨ s = "FALSE" ∨ s = "false" ∨ s = "False" then some false
  else none

/-- Function `strconv.Atoi` for the 64-bit `int`: an optional sign, then one or more
decimal digits whose value fits the type; `none` is its error. -/
def Atoi (s : List Char) : Option Int :=
  let neg := s.head? = some '-'
  let ds := if s.head? = some '-' ∨ s.head? = some '+' then s.tail else s
  if ds = [] ∨ ds.all isDigit = false then none
  else if neg then
    if decimalValue ds ≤ 2 ^ 63 then some (-(decimalValue ds : Int)) else none
  else
    if decimalValue ds < 2 ^ 63 then some (decimalValue ds : Int) else none

/-- The query values read by `api.logs` with `q.Get`: the empty string when absent. -/
structure Query where
  level : String
  service : String
  username : String
  isBlacklisted : String
  limit : String
  sort : String
deriving DecidableEq, Repr

/-- Function `parseBoolQuery` on the value of its key: the pointer result (`none` is
nil) and whether the error result is non-nil. -/
def parseBoolQuery (v : String) : Option Bool × Bool :=
  if v ≠ "" then
    match ParseBool v with
    | some b => (some b, false)
    | none => (some false, true)
  else (none, false)

/-- The call `sort.Slice(filtered, less)` of `api.logs`, where `less` compares the
timestamps with `Before`. The `sort` package is not part of the repository: the call is a
parameter, held to what the package documents (the slice is rearranged into increasing
order of `less`; the sort is not guaranteed to be stable). The sort of the Go library
itself is `goSort`, below. -/
structure SliceSort where
  byTimestamp : List LogRecord → List LogRecord
  perm : ∀ l, (byTimestamp l).Perm l
  sorted : ∀ l, (byTimestamp l).Pairwise (fun a b => a.Timestamp ≤ b.Timestamp)

/-- The limit computed by `api.logs` from the value of `limit`. -/
def queryLimit (s : String) : Int :=
  if s ≠ "" then
    match Atoi s.data with
    | some v => if v > 0 then v else 0
    | none => 0
  else 0

/-- The body of the filter loop of `api.logs`: `false` where the loop says `continue`. -/
def keepRecord (T : CaseTables) (level service username : List Char) (isBlkPtr : Option Bool)
    (r : LogRecord) : Bool :=
  if level ≠ [] ∧ ToUpper T r.Severity.data ≠ level then false
  else if service ≠ [] ∧ r.Service.data ≠ service then false
  else if username ≠ [] ∧ r.Username.data ≠ username then false
  else
    match isBlkPtr with
    | some b => if r.IsBlacklisted ≠ b then false else true
    | none => true

/-- The `switch sortKey` of `api.logs`. -/
def sortStep (S : SliceSort) (sortKey : String) (filtered : List LogRecord) : List LogRecord :=
  if sortKey = "timestamp" then S.byTimestamp filtered else filtered

/-- The truncation `filtered[:limit]` of `api.logs`. -/
def limitStep (limit : Int) (filtered : List LogRecord) : List LogRecord :=
  if limit > 0 ∧ limit < (filtered.length : Int) then filtered.take limit.toNat else filtered

/-- What `api.logs` answers: status 400, or the encoded list of records. -/
inductive LogsReply where
  | badRequest
  | records (out : List LogRecord)
deriving DecidableEq, Repr

/-- Handler `api.logs`. -/
def logs (T : CaseTables) (S : SliceSort) (fs : fileStore) (q : Query) : LogsReply :=
  let level := TrimSpace (ToUpper T q.level.data)
  let service := TrimSpace q.service.data
  let username := TrimSpace q.username.data
  let isBlk := parseBoolQuery q.isBlacklisted
  if isBlk.2 then LogsReply.badRequest
  else
    let limit := queryLimit q.limit
    let recs := All fs
    let filtered := recs.filter (keepRecord T level service username isBlk.1)
    LogsReply.records (limitStep limit (sortStep S q.sort filtered))

/-- The order of the timestamps, as a relation on records. -/
def tsLE (a b : LogRecord) : Prop := a.Timestamp ≤ b.Timestamp

instance : DecidableRel tsLE := fun a b => inferInstanceAs (Decidable (a.Timestamp ≤ b.Timestamp))

instance : IsTotal LogRecord tsLE := ⟨fun a b => Int.le_total a.Timestamp b.Timestamp⟩

instance : IsTrans LogRecord tsLE := ⟨fun _ _ _ h1 h2 => Int.le_trans h1 h2⟩

/-- A sort that meets the contract and keeps ties in their order: insertion sort. -/
def stableSort : SliceSort where
  byTimestamp := fun l => l.insertionSort tsLE
  perm := fun l => List.perm_insertionSort tsLE l
  sorted := fun l => List.sorted_insertionSort tsLE l

/-- The opening of a sample line, up to the message: an opening brace, the key
`raw.message` in quotes, a colon and an opening quote. -/
def lineOpen : List Char := "\x7b\"raw.message\":\"".data

/-- The closing of a sample line: a closing quote and a closing brace. -/
def lineClose : List Char := "\"\x7d".data

/-- The zero value of `LogRecord`. -/
def zeroRecord : LogRecord :=
  { Timestamp := 0, EventCategory := "", EventSource := "", Username := "", Hostname := "",
    Severity := "", Service := "", RawMessage := "", IsBlacklisted := false }

/-- A sample encoder for running the recovery on concrete inputs: the JSON object that
holds the field `raw.message` alone. -/
def sampleJsonMarshal (rec : LogRecord) : Option (List Char) :=
  some (lineOpen ++ (rec.RawMessage.data ++ lineClose))

/-- A sample decoder for the lines of `sampleJsonMarshal`: it skips the whitespace,
reads one such object and leaves the other fields at their zero value; anything else
is an error. -/
def sampleJsonDecode (input : List Char) : Option (LogRecord × Nat) :=
  match dropLit lineOpen (input.dropWhile isJsonSpace) with
  | none => none
  | some r =>
    match dropLit lineClose (r.dropWhile (fun c => c != '\"')) with
    | none => none
    | some _ =>
      some ({ zeroRecord with RawMessage := String.mk (r.takeWhile (fun c => c != '\"')) },
        (input.takeWhile isJsonSpace).length + lineOpen.length +
          (r.takeWhile (fun c => c != '\"')).length + lineClose.length)

/-- Every call of `Append` succeeds. -/
def allSucceed : Nat → SysOutcome := fun _ => SysOutcome.mk false none

/-- The first call of `Append` succeeds and every later write fails at once. -/
def firstSucceeds : Nat → SysOutcome :=
  fun i => if i = 0 then SysOutcome.mk false none else SysOutcome.mk false (some 0)

/-- The disk whose only file is `path`, with the given content. -/
def diskWith (path : String) (content : List Char) : Disk := emptyDisk.put path content

/-- The store after the given records have been appended, each with success, to a fresh
store on an empty disk. -/
def storeWith (recs : List LogRecord) : fileStore :=
  (appendAll asciiTables sampleJsonMarshal emptyDisk (newFileStore "data/logs.jsonl")
    (recs.map fun r => (r, SysOutcome.mk false none))).2.1

/-- The query without any value. -/
def emptyQuery : Query :=
  { level := "", service := "", username := "", isBlacklisted := "", limit := "", sort := "" }

/-! ## The call `sort.Slice`

The handler sorts with `sort.Slice(filtered, less)`, where `less(i, j)` is
`filtered[i].Timestamp.Before(filtered[j].Timestamp)`. Since Go 1.19 the `sort` package
runs a pattern-defeating quicksort, `pdqsort_func`; the definitions below follow its
source function by function, on the slice as a list. Every loop that counts is a
recursion on the number of rounds it can still make. The pseudo-random generator
`xorshift.Next` of `breakPatterns_func` is a parameter: it only chooses which elements are
exchanged there. -/

/-- The element `data[i]` (the zero record outside the slice, where Go would panic). -/
def recAt (data : List LogRecord) (i : Nat) : LogRecord := data.getD i zeroRecord

/-- The comparison `less(i, j)` of the handler: the timestamp of `data[i]` is before the
timestamp of `data[j]`. -/
def Less (data : List LogRecord) (i j : Nat) : Bool :=
  decide ((recAt data i).Timestamp < (recAt data j).Timestamp)

/-- The exchange `data.Swap(i, j)`. -/
def Swap (data : List LogRecord) (i j : Nat) : List LogRecord :=
  (data.set i (recAt data j)).set j (recAt data i)

/-- The inner loop of `insertionSort_func`: `for j := i; j > a && Less(j, j-1); j--`. -/
def insertDown (a : Nat) : Nat → List LogRecord → List LogRecord
  | 0, data => data
  | j + 1, data =>
    if j + 1 > a ∧ Less data (j + 1) j = true then insertDown a j (Swap data (j + 1) j)
    else data

/-- The outer loop of `insertionSort_func`, with `n` rounds left from index `i`. -/
def insertFrom (a : Nat) : Nat → Nat → List LogRecord → List LogRecord
  | 0, _, data => data
  | n + 1, i, data => insertFrom a n (i + 1) (insertDown a i data)

/-- Function `insertionSort_func` on `data[a:b]`. -/
def insertionSort_func (data : List LogRecord) (a b : Nat) : List LogRecord :=
  insertFrom a (b - (a + 1)) (a + 1) data

/-- The loop of `siftDown_func`, with at most `n` rounds left from `root`. -/
def siftLoop (hi first : Nat) : Nat → Nat → List LogRecord → List LogRecord
  | 0, _, data => data
  | n + 1, root, data =>
    if 2 * root + 1 ≥ hi then data
    else
      let child :=
        if 2 * root + 2 < hi ∧ Less data (first + (2 * root + 1)) (first + (2 * root + 2)) = true
        then 2 * root + 2 else 2 * root + 1
      if Less data (first + root) (first + child) = true then
        siftLoop hi first n child (Swap data (first + root) (first + child))
      else data

/-- Function `siftDown_func`; the root grows in every round, so `hi - lo` rounds are
enough. -/
def siftDown_func (data : List LogRecord) (lo hi first : Nat) : List LogRecord :=
  siftLoop hi first (hi - lo) lo data

/-- The first loop of `heapSort_func`: `siftDown_func` for `i` from `n - 1` down to 0. -/
def heapBuild (hi first : Nat) : Nat → List LogRecord → List LogRecord
  | 0, data => data
  | i + 1, data => heapBuild hi first i (siftDown_func data i hi first)

/-- The second loop of `heapSort_func`: for `i` from `n - 1` down to 0, exchange the
first element with element `i` and sift down in the first `i` elements. -/
def heapPop (first : Nat) : Nat → List LogRecord → List LogRecord
  | 0, data => data
  | i + 1, data => heapPop first i (siftDown_func (Swap data first (first + i)) 0 i first)

/-- Function `heapSort_func` on `data[a:b]`. -/
def heapSort_func (data : List LogRecord) (a b : Nat) : List LogRecord :=
  heapPop a (b - a) (heapBuild (b - a) a ((b - a - 1) / 2 + 1) data)


/-- Function `order2_func`: the two indices in the order of their elements, and the count
of swaps. -/
def order2_func (data : List LogRecord) (a b swaps : Nat) : Nat × Nat × Nat :=
  if Less data b a = true then (b, a, swaps + 1) else (a, b, swaps)

/-- Function `median_func`: the index of the median of three elements, and the count of
swaps. -/
def median_func (data : List LogRecord) (a b c swaps : Nat) : Nat × Nat :=
  let r1 := order2_func data a b swaps
  let r2 := order2_func data r1.2.1 c r1.2.2
  let r3 := order2_func data r1.1 r2.1 r2.2.2
  (r3.2.1, r3.2.2)

/-- Function `medianAdjacent_func`. -/
def medianAdjacent_func (data : List LogRecord) (a swaps : Nat) : Nat × Nat :=
  median_func data (a - 1) a (a + 1) swaps

/-- Type `sortedHint`. -/
inductive sortedHint where
  | unknownHint
  | increasingHint
  | decreasingHint
deriving DecidableEq, Repr

/-- Function `choosePivot_func`: the pivot index and the hint. -/
def choosePivot_func (data : List LogRecord) (a b : Nat) : Nat × sortedHint :=
  let l := b - a
  let i := a + l / 4 * 1
  let j := a + l / 4 * 2
  let k := a + l / 4 * 3
  let r :=
    if l ≥ 8 then
      if l ≥ 50 then
        let ri := medianAdjacent_func data i 0
        let rj := medianAdjacent_func data j ri.2
        let rk := medianAdjacent_func data k rj.2
        median_func data ri.1 rj.1 rk.1 rk.2
      else median_func data i j k 0
    else (j, 0)
  if r.2 = 0 then (r.1, sortedHint.increasingHint)
  else if r.2 = 12 then (r.1, sortedHint.decreasingHint)
  else (r.1, sortedHint.unknownHint)

/-- The loop of `reverseRange_func`, with at most `n` rounds left. -/
def reverseLoop : Nat → Nat → Nat → List LogRecord → List LogRecord
  | 0, _, _, data => data
  | n + 1, i, j, data => if i < j then reverseLoop n (i + 1) (j - 1) (Swap data i j) else data

/-- Function `reverseRange_func` on `data[a:b]`. -/
def reverseRange_func (data : List LogRecord) (a b : Nat) : List LogRecord :=
  reverseLoop (b - a) a (b - 1) data

/-- The scan `for i < b && !Less(i, i-1) { i++ }` of `partialInsertionSort_func`. -/
def scanSorted (data : List LogRecord) (b : Nat) : Nat → Nat → Nat
  | 0, i => i
  | n + 1, i => if i < b ∧ Less data i (i - 1) = false then scanSorted data b n (i + 1) else i

/-- The loop `for j := i - 1; j >= 1; j--` of `partialInsertionSort_func`, from `j`. -/
def shiftLeft : Nat → List LogRecord → List LogRecord
  | 0, data => data
  | j + 1, data => if Less data (j + 1) j = false then data else shiftLeft j (Swap data (j + 1) j)

/-- The loop `for j := i + 1; j < b; j++` of `partialInsertionSort_func`, from `j`. -/
def shiftRight (b : Nat) : Nat → Nat → List LogRecord → List LogRecord
  | 0, _, data => data
  | n + 1, j, data =>
    if j < b then
      if Less data j (j - 1) = false then data else shiftRight b n (j + 1) (Swap data j (j - 1))
    else data

/-- The loop `for j := 0; j < maxSteps; j++` of `partialInsertionSort_func`, with `s`
rounds left and the scan index `i`. -/
def partialSteps (a b : Nat) : Nat → Nat → List LogRecord → Bool × List LogRecord
  | 0, _, data => (false, data)
  | s + 1, i, data =>
    let i1 := scanSorted data b (b - i) i
    if i1 = b then (true, data)
    else if b - a < 50 then (false, data)
    else
      let d1 := Swap data i1 (i1 - 1)
      let d2 := if i1 - a ≥ 2 then shiftLeft (i1 - 1) d1 else d1
      let d3 := if b - i1 ≥ 2 then shiftRight b (b - (i1 + 1)) (i1 + 1) d2 else d2
      partialSteps a b s i1 d3

/-- Function `partialInsertionSort_func` on `data[a:b]`, with `maxSteps = 5` and
`shortestShifting = 50`. -/
def partialInsertionSort_func (data : List LogRecord) (a b : Nat) : Bool × List LogRecord :=
  partialSteps a b 5 (a + 1) data

/-- Function `bits.Len`: the number of bits of `n`. -/
def bitsLen : Nat → Nat → Nat
  | 0, _ => 0
  | f + 1, n => if n = 0 then 0 else bitsLen f (n / 2) + 1

/-- Function `nextPowerOfTwo`: `1 << bits.Len(length)`. -/
def nextPowerOfTwo (length : Nat) : Nat := 2 ^ bitsLen length length

/-- The loop of `breakPatterns_func`, with `n` rounds left, at round `i`; `random` is the
state of the generator. -/
def breakLoop (Next : Nat → Nat) (a length modulus idx : Nat) :
    Nat → Nat → Nat → List LogRecord → List LogRecord
  | 0, _, _, data => data
  | n + 1, i, random, data =>
    let r := Next random
    let other := if r % modulus ≥ length then r % modulus - length else r % modulus
    breakLoop Next a length modulus idx n (i + 1) r (Swap data (idx - 1 + i) (a + other))

/-- Function `breakPatterns_func` on `data[a:b]`. -/
def breakPatterns_func (Next : Nat → Nat) (data : List LogRecord) (a b : Nat) :
    List LogRecord :=
  let length := b - a
  if length ≥ 8 then
    breakLoop Next a length (nextPowerOfTwo length) (a + length / 4 * 2 - 1) 3 0 length data
  else data

/-- The scan `for i <= j && Less(i, a) { i++ }` of `partition_func`. -/
def scanLess (data : List LogRecord) (a j : Nat) : Nat → Nat → Nat
  | 0, i => i
  | n + 1, i => if i ≤ j ∧ Less data i a = true then scanLess data a j n (i + 1) else i

/-- The scan `for i <= j && !Less(j, a) { j-- }` of `partition_func`. -/
def scanNotLess (data : List LogRecord) (a i : Nat) : Nat → Nat → Nat
  | 0, j => j
  | n + 1, j => if i ≤ j ∧ Less data j a = false then scanNotLess data a i n (j - 1) else j

/-- The loop `for { ... }` of `partition_func`, with at most `n` rounds left; the result is
the slice and the final `j`. -/
def partitionLoop (a : Nat) : Nat → Nat → Nat → List LogRecord → List LogRecord × Nat
  | 0, _, j, data => (data, j)
  | n + 1, i, j, data =>
    let i1 := scanLess data a j (j + 1 - i) i
    let j1 := scanNotLess data a i1 (j + 1 - i1) j
    if i1 > j1 then (data, j1)
    else partitionLoop a n (i1 + 1) (j1 - 1) (Swap data i1 j1)

/-- Function `partition_func` on `data[a:b]`: the slice, the new pivot index and whether
the slice was already partitioned. -/
def partition_func (data : List LogRecord) (a b pivot : Nat) : List LogRecord × Nat × Bool :=
  let d0 := Swap data a pivot
  let i := scanLess d0 a (b - 1) (b - 1 + 1 - (a + 1)) (a + 1)
  let j := scanNotLess d0 a i (b - 1 + 1 - i) (b - 1)
  if i > j then (Swap d0 j a, j, true)
  else
    let r := partitionLoop a (b - a) (i + 1) (j - 1) (Swap d0 i j)
    (Swap r.1 r.2 a, r.2, false)

/-- The scan `for i <= j && !Less(a, i) { i++ }` of `partitionEqual_func`. -/
def scanNotGreater (data : List LogRecord) (a j : Nat) : Nat → Nat → Nat
  | 0, i => i
  | n + 1, i => if i ≤ j ∧ Less data a i = false then scanNotGreater data a j n (i + 1) else i

/-- The scan `for i <= j && Less(a, j) { j-- }` of `partitionEqual_func`. -/
def scanGreater (data : List LogRecord) (a i : Nat) : Nat → Nat → Nat
  | 0, j => j
  | n + 1, j => if i ≤ j ∧ Less data a j = true then scanGreater data a i n (j - 1) else j

/-- The loop of `partitionEqual_func`, with at most `n` rounds left; the result is the
slice and the final `i`. -/
def partitionEqualLoop (a : Nat) : Nat → Nat → Nat → List LogRecord → List LogRecord × Nat
  | 0, i, _, data => (data, i)
  | n + 1, i, j, data =>
    let i1 := scanNotGreater data a j (j + 1 - i) i
    let j1 := scanGreater data a i1 (j + 1 - i1) j
    if i1 > j1 then (data, i1)
    else partitionEqualLoop a n (i1 + 1) (j1 - 1) (Swap data i1 j1)

/-- Function `partitionEqual_func` on `data[a:b]`: the slice and the new start. -/
def partitionEqual_func (data : List LogRecord) (a b pivot : Nat) : List LogRecord × Nat :=
  partitionEqualLoop a (b - a + 1) (a + 1) (b - 1) (Swap data a pivot)

/-- Function `pdqsort_func` on `data[a:b]`: one round of its loop, with the local
variables `wasBalanced` and `wasPartitioned`; a recursive call starts with both true.
`none` means that the fuel has run out. -/
def pdqsort_func (Next : Nat → Nat) :
    Nat → List LogRecord → Nat → Nat → Nat → Bool → Bool → Option (List LogRecord)
  | 0, _, _, _, _, _, _ => none
  | fuel + 1, data, a, b, limit, wasBalanced, wasPartitioned =>
    if b - a ≤ 12 then some (insertionSort_func data a b)
    else if limit = 0 then some (heapSort_func data a b)
    else
      let data1 := if wasBalanced then data else breakPatterns_func Next data a b
      let limit1 := if wasBalanced then limit else limit - 1
      let ph := choosePivot_func data1 a b
      let data2 :=
        if ph.2 = sortedHint.decreasingHint then reverseRange_func data1 a b else data1
      let pivot := if ph.2 = sortedHint.decreasingHint then (b - 1) - (ph.1 - a) else ph.1
      let hint :=
        if ph.2 = sortedHint.decreasingHint then sortedHint.increasingHint else ph.2
      let pr :=
        if wasBalanced ∧ wasPartitioned ∧ hint = sortedHint.increasingHint then
          partialInsertionSort_func data2 a b
        else (false, data2)
      if pr.1 then some pr.2
      else if a > 0 ∧ Less pr.2 (a - 1) pivot = false then
        let pe := partitionEqual_func pr.2 a b pivot
        pdqsort_func Next fuel pe.1 pe.2 b limit1 wasBalanced wasPartitioned
      else
        let pt := partition_func pr.2 a b pivot
        let mid := pt.2.1
        let leftLen := mid - a
        let rightLen := b - mid
        let balanceThreshold := (b - a) / 8
        if leftLen < rightLen then
          match pdqsort_func Next fuel pt.1 a mid limit1 true true with
          | none => none
          | some data5 =>
            pdqsort_func Next fuel data5 (mid + 1) b limit1 (decide (leftLen ≥ balanceThreshold))
              pt.2.2
        else
          match pdqsort_func Next fuel pt.1 (mid + 1) b limit1 true true with
          | none => none
          | some data5 =>
            pdqsort_func Next fuel data5 a mid limit1 (decide (rightLen ≥ balanceThreshold))
              pt.2.2

/-- Function `sort.Slice` with the comparison of the handler: `pdqsort_func` on the whole
slice with the limit `bits.Len(length)`. The ranges of the nested calls shrink, so the
fuel `length + 1` does not run out. -/
def sortSlice (Next : Nat → Nat) (data : List LogRecord) : Option (List LogRecord) :=
  pdqsort_func Next (data.length + 1) data 0 data.length (bitsLen data.length data.length)
    true true

/-- The call `sort.Slice` of the Go library as the sort of `api.logs`; `h` is the proof
that the call returns on every slice, with a rearrangement of it in ascending timestamp
order, so `getD` never takes its default. -/
def goSort (Next : Nat → Nat)
    (h : ∀ l, ∃ out, sortSlice Next l = some out ∧ out.Perm l ∧
      out.Pairwise (fun a b => a.Timestamp ≤ b.Timestamp)) : SliceSort where
  byTimestamp := fun l => (sortSlice Next l).getD l
  perm := fun l => by
    obtain ⟨out, e, p, _⟩ := h l
    show ((sortSlice Next l).getD l).Perm l
    rw [e]
    exact p
  sorted := fun l => by
    obtain ⟨out, e, _, s⟩ := h l
    show ((sortSlice Next l).getD l).Pairwise (fun a b => a.Timestamp ≤ b.Timestamp)
    rw [e]
    exact s

/-- A record with timestamp 5 and the given message. -/
def tied (s : String) : LogRecord := { zeroRecord with Timestamp := 5, RawMessage := s }

/-- Thirteen records: twelve with the same timestamp, then one with an earlier
timestamp. -/
def thirteenRecords : List LogRecord :=
  [tied "r0", tied "r1", tied "r2", tied "r3", tied "r4", tied "r5", tied "r6", tied "r7",
    tied "r8", tied "r9", tied "r10", tied "r11",
    { zeroRecord with Timestamp := 0, RawMessage := "early" }]

/-! ## Specification-side definitions

These follow the wording of the specification and are what the code is compared with. -/

/-- The ordered first-match chain of the classifier, over the lower-cased message. -/
def categoryChain (lower : List Char) : String × String × String :=
  if Contains lower "login".data then ("login.audit", "linux", "linux_login")
  else if Contains lower "logout".data || Contains lower "session terminated".data then
    ("logout.audit", "linux", "linux_logout")
  else if Contains lower "security-auditing".data then
    ("windows.login", "windows", "windows_login")
  else if Contains lower "event log".data || Contains lower "application".data then
    ("windows.event", "windows", "windows_event")
  else if Contains lower "sudo".data || Contains lower "pam_unix".data then
    ("syslog", "linux", "linux_syslog")
  else ("unknown", "unknown", "")

/-- Some match of the anchored pattern `m` starts at a position inside `p`, in the
text `p ++ rest`. -/
def startsWithin {α : Type} (m : List Char → Option α) : List Char → List Char → Bool
  | [], _ => false
  | c :: cs, rest => (m (c :: cs ++ rest)).isSome || startsWithin m cs rest

/-- An occurrence in the text `m`, after the part `p`, of the literal `lit` followed by
the whitespace `ws` (at least `minWs` characters) and the non-empty token `tok`. -/
def IsOccurrence (lit : List Char) (minWs : Nat) (m p ws tok rest : List Char) : Prop :=
  m = p ++ (lit ++ (ws ++ (tok ++ rest))) ∧ minWs ≤ ws.length ∧ (∀ c ∈ ws, isSpace c = true) ∧
    tok ≠ [] ∧ (∀ c ∈ tok, isTokenChar c = true)

/-- The occurrence after `p` is the leftmost one, and its token is maximal: the token
cannot be extended by the character that follows it. -/
def IsLeftmostMaximal (lit : List Char) (minWs : Nat) (m p ws tok rest : List Char) : Prop :=
  IsOccurrence lit minWs m p ws tok rest ∧
    (∀ c ∈ rest.head?, isTokenChar c = false) ∧
    (∀ p1 ws1 tok1 rest1, IsOccurrence lit minWs m p1 ws1 tok1 rest1 → p.length ≤ p1.length)

/-- The text has some occurrence of the pattern. -/
def HasOccurrence (lit : List Char) (minWs : Nat) (m : List Char) : Prop :=
  ∃ p ws tok rest, IsOccurrence lit minWs m p ws tok rest

/-- The list the handler `api.logs` has built when it comes to the limit: the records
that pass the filter, sorted if the query asks for it. -/
def beforeLimit (T : CaseTables) (S : SliceSort) (fs : fileStore) (q : Query) : List LogRecord :=
  sortStep S q.sort ((All fs).filter (keepRecord T (TrimSpace (ToUpper T q.level.data))
    (TrimSpace q.service.data) (TrimSpace q.username.data) (parseBoolQuery q.isBlacklisted).1))

/-- The text is a number: an optional sign followed by one or more decimal digits. -/
def isNumeral (s : List Char) : Bool :=
  let ds := if s.head? = some '-' ∨ s.head? = some '+' then s.tail else s
  !ds.isEmpty && ds.all isDigit

/-- A record satisfies the constraints of the query as the claim words them, on the
query values as they are: severity equal to the level ignoring case, service, username
and blacklist flag equal; an empty value restricts nothing. -/
def satisfiesQuery (T : CaseTables) (q : Query) (flag : Option Bool) (r : LogRecord) : Prop :=
  (q.level = "" ∨ ToUpper T r.Severity.data = ToUpper T q.level.data) ∧
  (q.service = "" ∨ r.Service = q.service) ∧
  (q.username = "" ∨ r.Username = q.username) ∧
  (flag = none ∨ flag = some r.IsBlacklisted)

/-- The constraints as the handler applies them: each query value is first trimmed of the
whitespace around it, and a value that is empty after trimming restricts nothing. -/
def satisfiesTrimmed (T : CaseTables) (q : Query) (flag : Option Bool) (r : LogRecord) : Prop :=
  (TrimSpace (ToUpper T q.level.data) = [] ∨
    ToUpper T r.Severity.data = TrimSpace (ToUpper T q.level.data)) ∧
  (TrimSpace q.service.data = [] ∨ r.Service.data = TrimSpace q.service.data) ∧
  (TrimSpace q.username.data = [] ∨ r.Username.data = TrimSpace q.username.data) ∧
  (flag = none ∨ flag = some r.IsBlacklisted)

instance (T : CaseTables) (q : Query) (flag : Option Bool) (r : LogRecord) :
    Decidable (satisfiesQuery T q flag r) :=
  inferInstanceAs (Decidable (_ ∧ _ ∧ _ ∧ _))

instance (T : CaseTables) (q : Query) (flag : Option Bool) (r : LogRecord) :
    Decidable (satisfiesTrimmed T q flag r) :=
  inferInstanceAs (Decidable (_ ∧ _ ∧ _ ∧ _))

/-- The content of a backing file that holds the lines of the given records, as `Append`
writes them: the encoding of each record followed by a newline. -/
def fileOf (M : LogRecord → Option (List Char)) : List LogRecord → List Char
  | [] => []
  | r :: rs => (M r).getD [] ++ '\n' :: fileOf M rs

/-- The decoder reads back what the encoder writes for the record `r`: wherever the
encoding stands in the input, after any whitespace, `More` reports a value and `Decode`
returns `r` and has read the whitespace and the encoding. -/
def ReadsBack (M : LogRecord → Option (List Char)) (D : List Char → Option (LogRecord × Nat))
    (r : LogRecord) : Prop :=
  ∃ b, M r = some b ∧ ∀ ws rest, (∀ c ∈ ws, isJsonSpace c = true) →
    More (ws ++ (b ++ rest)) = true ∧ D (ws ++ (b ++ rest)) = some (r, ws.length + b.length)

/-! ### Sorting

What the part `data[a:b]` of a slice is held to, and the states of the loops of the
sort. -/

/-- The timestamp of `data[i]`. -/
def key (data : List LogRecord) (i : Nat) : Int := (recAt data i).Timestamp

/-- The part `data[a:b]` is in ascending timestamp order. -/
def SortedOn (data : List LogRecord) (a b : Nat) : Prop :=
  ∀ i j, a ≤ i → i ≤ j → j < b → key data i ≤ key data j

/-- The slice `data1` rearranges `data` inside `data[a:b]`: same length, a permutation,
equal outside the part, and every element of the part comes from the part. -/
def Rearr (data data1 : List LogRecord) (a b : Nat) : Prop :=
  data1.length = data.length ∧ data1.Perm data ∧
  (∀ k, (k < a ∨ b ≤ k) → recAt data1 k = recAt data k) ∧
  (∀ k, a ≤ k → k < b → ∃ k1, a ≤ k1 ∧ k1 < b ∧ recAt data1 k = recAt data k1)

/-- The state of the loop of `partition_func`: the pivot is at `a`, the elements before `i`
are smaller than it and the elements after `j` are not. -/
def PartInv (d0 data : List LogRecord) (a b i j : Nat) : Prop :=
  a + 1 ≤ i ∧ i ≤ j + 1 ∧ j + 1 ≤ b ∧ b ≤ data.length ∧
  (∀ k, a + 1 ≤ k → k < i → key data k < key data a) ∧
  (∀ k, j < k → k < b → key data a ≤ key data k) ∧
  Rearr d0 data (a + 1) b

/-- The state of the loop of `partitionEqual_func`: the pivot is at `a`, the elements before
`i` are not greater than it and the elements after `j` are greater. -/
def PartEqInv (d0 data : List LogRecord) (a b i j : Nat) : Prop :=
  a + 1 ≤ i ∧ i ≤ j + 1 ∧ j + 1 ≤ b ∧ b ≤ data.length ∧
  (∀ k, a + 1 ≤ k → k < i → key data k ≤ key data a) ∧
  (∀ k, j < k → k < b → key data a < key data k) ∧
  Rearr d0 data (a + 1) b

/-- The element before `data[a:b]`, when there is one, is not greater than any element of
the part. -/
def LowerB (data : List LogRecord) (a b : Nat) : Prop :=
  0 < a → ∀ k, a ≤ k → k < b → key data (a - 1) ≤ key data k

/-- In the heap of `hi` elements that starts at index `first`, every element whose parent
is at position `lo` or later is not greater than its parent. -/
def HeapOn (data : List LogRecord) (first lo hi : Nat) : Prop :=
  ∀ c, 0 < c → c < hi → lo ≤ (c - 1) / 2 →
    key data (first + c) ≤ key data (first + (c - 1) / 2)

/-- The element at `mid` separates `data[a:b]`: no element before it is greater and no
element after it is smaller. -/
def PivotAt (data : List LogRecord) (a mid b : Nat) : Prop :=
  (∀ k, a ≤ k → k < mid → key data k ≤ key data mid) ∧
  (∀ k, mid < k → k < b → key data mid ≤ key data k)

/-- Records with equal timestamps are in the same order in `out` as in `data`: for every
timestamp, the records of `out` that carry it are those of `data`, in the same order. -/
def TiesInOrder (data out : List LogRecord) : Prop :=
  ∀ t : Int, out.filter (fun r => decide (r.Timestamp = t))
    = data.filter (fun r => decide (r.Timestamp = t))

/-! ## Auxiliary lemmas -/

theorem ToLower_ascii (T : CaseTables) (s : List Char) (h : ∀ c ∈ s, c.toNat < 128) :
    ToLower T s = s.map Char.toLower := by
  unfold ToLower
  exact List.map_congr_left fun c hc => T.lower_ascii c (h c hc)

theorem serviceHint_values (T : CaseTables) :
    serviceHint T "login.audit" "linux" = "linux_login" ∧
    serviceHint T "logout.audit" "linux" = "linux_logout" ∧
    serviceHint T "windows.login" "windows" = "windows_login" ∧
    serviceHint T "windows.event" "windows" = "windows_event" ∧
    serviceHint T "syslog" "linux" = "linux_syslog" ∧
    serviceHint T "unknown" "unknown" = "" := by
  refine ⟨?_, ?_, ?_, ?_, ?_, ?_⟩ <;>
  · unfold serviceHint
    rw [ToLower_ascii T _ (by decide)]
    decide!

theorem extract_triple (T : CaseTables) (now : Int) (m : String) :
    ((extract T now m).EventCategory, (extract T now m).EventSource, (extract T now m).Service)
      = categoryChain (ToLower T m.data) := by
  obtain ⟨h1, h2, h3, h4, h5, h6⟩ := serviceHint_values T
  simp only [extract, parseCategory, categoryChain]
  by_cases c1 : Contains (ToLower T m.data) "login".data = true
  · by_cases c0 : Contains (ToLower T m.data) "success".data = true
    · simp [c1, c0, h1]
    · simp [c1, c0, h1]
  · by_cases c2 : (Contains (ToLower T m.data) "logout".data ||
        Contains (ToLower T m.data) "session terminated".data) = true
    · simp only [c1, c2]; simp [h2]
    · by_cases c3 : Contains (ToLower T m.data) "security-auditing".data = true
      · simp only [c1, c2, c3]; simp [h3]
      · by_cases c4 : (Contains (ToLower T m.data) "event log".data ||
            Contains (ToLower T m.data) "application".data) = true
        · simp only [c1, c2, c3, c4]; simp [h4]
        · by_cases c5 : (Contains (ToLower T m.data) "sudo".data ||
              Contains (ToLower T m.data) "pam_unix".data) = true
          · simp only [c1, c2, c3, c4, c5]; simp [h5]
          · simp only [c1, c2, c3, c4, c5]; simp [h6]

theorem categoryChain_cases (lower : List Char) :
    categoryChain lower = ("login.audit", "linux", "linux_login") ∨
    categoryChain lower = ("logout.audit", "linux", "linux_logout") ∨
    categoryChain lower = ("windows.login", "windows", "windows_login") ∨
    categoryChain lower = ("windows.event", "windows", "windows_event") ∨
    categoryChain lower = ("syslog", "linux", "linux_syslog") ∨
    categoryChain lower = ("unknown", "unknown", "") := by
  unfold categoryChain
  split_ifs <;> simp

theorem leftmost_head {α : Type} (m : List Char → Option α) (s : List Char) (x : α)
    (h : m s = some x) : leftmost m s = some x := by
  cases s with
  | nil => simpa [leftmost] using h
  | cons c cs => simp [leftmost, h]

theorem leftmost_skip {α : Type} (m : List Char → Option α) (p rest : List Char)
    (h : startsWithin m p rest = false) : leftmost m (p ++ rest) = leftmost m rest := by
  induction p with
  | nil => rfl
  | cons c cs ih =>
    simp only [startsWithin, Bool.or_eq_false_iff] at h
    obtain ⟨h1, h2⟩ := h
    have h3 : m (c :: (cs ++ rest)) = none := by
      cases hm : m (c :: (cs ++ rest)) with
      | none => rfl
      | some x => simp [hm] at h1
    rw [List.cons_append, leftmost, h3]
    exact ih h2

theorem leftmost_eq_none {α : Type} (m : List Char → Option α) (s : List Char)
    (h : ∀ p t, s = p ++ t → m t = none) : leftmost m s = none := by
  induction s with
  | nil => simpa [leftmost] using h [] [] rfl
  | cons c cs ih =>
    have h0 : m (c :: cs) = none := h [] (c :: cs) rfl
    simp only [leftmost, h0]
    exact ih fun p t hpt => h (c :: p) t (by simp [hpt])

theorem startsWithin_true {α : Type} (m : List Char → Option α) (p rest : List Char)
    (h : startsWithin m p rest = true) :
    ∃ p1 p2, p = p1 ++ p2 ∧ p2 ≠ [] ∧ (m (p2 ++ rest)).isSome = true := by
  induction p with
  | nil => simp [startsWithin] at h
  | cons c cs ih =>
    simp only [startsWithin, Bool.or_eq_true] at h
    rcases h with h | h
    · exact ⟨[], c :: cs, rfl, by simp, by simpa using h⟩
    · obtain ⟨p1, p2, e, hne, hs⟩ := ih h
      exact ⟨c :: p1, p2, by simp [e], hne, hs⟩

theorem dropLit_append (lit b : List Char) : dropLit lit (lit ++ b) = some b := by
  induction lit with
  | nil => cases b <;> rfl
  | cons a as ih => simp [dropLit, ih]

theorem dropLit_some (lit s r : List Char) (h : dropLit lit s = some r) : s = lit ++ r := by
  induction lit generalizing s with
  | nil =>
    cases s <;> simp [dropLit] at h <;> simp [h]
  | cons a as ih =>
    cases s with
    | nil => simp [dropLit] at h
    | cons c cs =>
      simp only [dropLit] at h
      split_ifs at h with hac
      rw [hac, ih cs h]
      rfl

theorem Contains_mid (a sub b : List Char) : Contains (a ++ (sub ++ b)) sub = true := by
  unfold Contains
  induction a with
  | nil => simp [leftmost_head _ _ _ (dropLit_append sub b)]
  | cons c cs ih =>
    simp only [List.cons_append, leftmost]
    cases dropLit sub (c :: (cs ++ (sub ++ b))) with
    | none => exact ih
    | some x => rfl

theorem isSpace_not_token (c : Char) (h : isSpace c = true) : isTokenChar c = false := by
  simp only [isSpace, Bool.or_eq_true, beq_iff_eq] at h
  rcases h with (((h | h) | h) | h) | h <;> subst h <;> decide

theorem isToken_not_space (c : Char) (h : isTokenChar c = true) : isSpace c = false := by
  cases hs : isSpace c with
  | false => rfl
  | true => rw [isSpace_not_token c hs] at h; cases h

theorem takeWhile_nil_of_head {p : Char → Bool} (rest : List Char)
    (h : ∀ c ∈ rest.head?, p c = false) : rest.takeWhile p = [] := by
  cases rest with
  | nil => rfl
  | cons c cs =>
    have hc : p c = false := h c (by simp)
    simp [List.takeWhile_cons, hc]

theorem dropWhile_self_of_head {p : Char → Bool} (rest : List Char)
    (h : ∀ c ∈ rest.head?, p c = false) : rest.dropWhile p = rest := by
  cases rest with
  | nil => rfl
  | cons c cs =>
    have hc : p c = false := h c (by simp)
    simp [List.dropWhile_cons, hc]

theorem head_token_not_space (tok rest : List Char) (hne : tok ≠ [])
    (htok : ∀ c ∈ tok, isTokenChar c = true) :
    ∀ c ∈ (tok ++ rest).head?, isSpace c = false := by
  cases tok with
  | nil => exact absurd rfl hne
  | cons a as =>
    intro c hc
    simp only [List.cons_append, List.head?_cons, Option.mem_def, Option.some.injEq] at hc
    subst hc
    exact isToken_not_space a (htok a (by simp))

/-- After a whitespace run and a token, the classes split the text as expected. -/
theorem split_ws_token (ws tok rest : List Char) (hws : ∀ c ∈ ws, isSpace c = true)
    (hne : tok ≠ []) (htok : ∀ c ∈ tok, isTokenChar c = true) :
    (ws ++ (tok ++ rest)).takeWhile isSpace = ws ∧
    (ws ++ (tok ++ rest)).dropWhile isSpace = tok ++ rest ∧
    (tok ++ rest).takeWhile isTokenChar = tok ++ rest.takeWhile isTokenChar ∧
    (tok ++ rest).dropWhile isTokenChar = rest.dropWhile isTokenChar := by
  have hh := head_token_not_space tok rest hne htok
  refine ⟨?_, ?_, ?_, ?_⟩
  · rw [List.takeWhile_append_of_pos hws, takeWhile_nil_of_head _ hh, List.append_nil]
  · rw [List.dropWhile_append_of_pos hws, dropWhile_self_of_head _ hh]
  · exact List.takeWhile_append_of_pos htok
  · exact List.dropWhile_append_of_pos htok

theorem head_dropWhile_token (l : List Char) :
    ∀ c ∈ (l.dropWhile isTokenChar).head?, isTokenChar c = false := by
  intro c hc
  have h := List.head?_dropWhile_not isTokenChar l
  rw [Option.mem_def] at hc
  rw [hc] at h
  exact h

theorem reUserAt_occ (ws tok rest : List Char) (hk : 1 ≤ ws.length)
    (hws : ∀ c ∈ ws, isSpace c = true) (hne : tok ≠ [])
    (htok : ∀ c ∈ tok, isTokenChar c = true) :
    reUserAt ("user".data ++ (ws ++ (tok ++ rest))) = some (tok ++ rest.takeWhile isTokenChar) := by
  obtain ⟨e1, e2, e3, -⟩ := split_ws_token ws tok rest hws hne htok
  unfold reUserAt
  rw [dropLit_append]
  simp only [e1, e2, e3]
  cases ws with
  | nil => simp at hk
  | cons w ws1 =>
    cases tok with
    | nil => exact absurd rfl hne
    | cons a as => rfl

theorem reWinUserAt_occ (ws tok rest : List Char) (_hk : 0 ≤ ws.length)
    (hws : ∀ c ∈ ws, isSpace c = true) (hne : tok ≠ [])
    (htok : ∀ c ∈ tok, isTokenChar c = true) :
    reWinUserAt ("Account Name:".data ++ (ws ++ (tok ++ rest)))
      = some (tok ++ rest.takeWhile isTokenChar) := by
  obtain ⟨-, e2, e3, -⟩ := split_ws_token ws tok rest hws hne htok
  unfold reWinUserAt
  rw [dropLit_append]
  simp only [e2, e3]
  cases tok with
  | nil => exact absurd rfl hne
  | cons a as => rfl

theorem reUserAt_some (s t : List Char) (h : reUserAt s = some t) :
    ∃ ws rest, IsOccurrence "user".data 1 s [] ws t rest ∧
      ∀ c ∈ rest.head?, isTokenChar c = false := by
  unfold reUserAt at h
  cases hd : dropLit "user".data s with
  | none => simp [hd] at h
  | some r =>
    simp only [hd] at h
    have hs := dropLit_some _ _ _ hd
    cases hw : r.takeWhile isSpace with
    | nil => simp [hw] at h
    | cons w ws1 =>
      cases ht : (r.dropWhile isSpace).takeWhile isTokenChar with
      | nil => simp [hw, ht] at h
      | cons a as =>
        simp only [hw, ht, Option.some.injEq] at h
        refine ⟨r.takeWhile isSpace, (r.dropWhile isSpace).dropWhile isTokenChar,
          ⟨?_, ?_, ?_, ?_, ?_⟩, head_dropWhile_token _⟩
        · rw [← h, ← ht, List.takeWhile_append_dropWhile, List.takeWhile_append_dropWhile, hs]
          rfl
        · rw [hw]; simp
        · intro c hc; exact List.mem_takeWhile_imp hc
        · rw [← h]; simp
        · intro c hc; rw [← h, ← ht] at hc; exact List.mem_takeWhile_imp hc

theorem reWinUserAt_some (s t : List Char) (h : reWinUserAt s = some t) :
    ∃ ws rest, IsOccurrence "Account Name:".data 0 s [] ws t rest ∧
      ∀ c ∈ rest.head?, isTokenChar c = false := by
  unfold reWinUserAt at h
  cases hd : dropLit "Account Name:".data s with
  | none => simp [hd] at h
  | some r =>
    simp only [hd] at h
    have hs := dropLit_some _ _ _ hd
    cases ht : (r.dropWhile isSpace).takeWhile isTokenChar with
    | nil => simp [ht] at h
    | cons a as =>
      simp only [ht, Option.some.injEq] at h
      refine ⟨r.takeWhile isSpace, (r.dropWhile isSpace).dropWhile isTokenChar,
        ⟨?_, ?_, ?_, ?_, ?_⟩, head_dropWhile_token _⟩
      · rw [← h, ← ht, List.takeWhile_append_dropWhile, List.takeWhile_append_dropWhile, hs]
        rfl
      · exact Nat.zero_le _
      · intro c hc; exact List.mem_takeWhile_imp hc
      · rw [← h]; simp
      · intro c hc; rw [← h, ← ht] at hc; exact List.mem_takeWhile_imp hc

/-- The leftmost search returns the token of the leftmost maximal occurrence. -/
theorem leftmost_of_occurrence (mAt : List Char → Option (List Char)) (lit : List Char) (k : Nat)
    (hA : ∀ ws tok rest, k ≤ ws.length → (∀ c ∈ ws, isSpace c = true) → tok ≠ [] →
      (∀ c ∈ tok, isTokenChar c = true) →
      mAt (lit ++ (ws ++ (tok ++ rest))) = some (tok ++ rest.takeWhile isTokenChar))
    (hB : ∀ s t, mAt s = some t → ∃ ws rest, IsOccurrence lit k s [] ws t rest ∧
      ∀ c ∈ rest.head?, isTokenChar c = false)
    (m p ws tok rest : List Char) (h : IsLeftmostMaximal lit k m p ws tok rest) :
    leftmost mAt m = some tok := by
  obtain ⟨⟨hm, hk, hws, hne, htok⟩, hmax, hleft⟩ := h
  have hskip : startsWithin mAt p (lit ++ (ws ++ (tok ++ rest))) = false := by
    cases hsw : startsWithin mAt p (lit ++ (ws ++ (tok ++ rest))) with
    | false => rfl
    | true =>
      exfalso
      obtain ⟨p1, p2, e, hp2, hsome⟩ := startsWithin_true _ _ _ hsw
      obtain ⟨t, ht⟩ := Option.isSome_iff_exists.mp hsome
      obtain ⟨ws1, rest1, ⟨ho, h2, h3, h4, h5⟩, -⟩ := hB _ _ ht
      have hocc : IsOccurrence lit k m p1 ws1 t rest1 := by
        refine ⟨?_, h2, h3, h4, h5⟩
        rw [hm, e, List.append_assoc, ho]
        rfl
      have hlen := hleft p1 ws1 t rest1 hocc
      have hp2len : 0 < p2.length := List.length_pos.mpr hp2
      rw [e, List.length_append] at hlen
      omega
  rw [hm, leftmost_skip _ _ _ hskip]
  apply leftmost_head
  rw [hA ws tok rest hk hws hne htok, takeWhile_nil_of_head rest hmax, List.append_nil]

/-- Without any occurrence the leftmost search finds nothing. -/
theorem leftmost_of_no_occurrence (mAt : List Char → Option (List Char)) (lit : List Char)
    (k : Nat) (hB : ∀ s t, mAt s = some t → ∃ ws rest, IsOccurrence lit k s [] ws t rest ∧
      ∀ c ∈ rest.head?, isTokenChar c = false)
    (m : List Char) (h : ¬ HasOccurrence lit k m) : leftmost mAt m = none := by
  apply leftmost_eq_none
  intro p t hpt
  cases hm : mAt t with
  | none => rfl
  | some x =>
    exfalso
    obtain ⟨ws, rest, ⟨ho, h2, h3, h4, h5⟩, -⟩ := hB _ _ hm
    exact h ⟨p, ws, x, rest, by rw [hpt, ho]; rfl, h2, h3, h4, h5⟩

theorem startsWithin_of_split {α : Type} (m : List Char → Option α) (p1 p2 rest : List Char)
    (hne : p2 ≠ []) (h : (m (p2 ++ rest)).isSome = true) :
    startsWithin m (p1 ++ p2) rest = true := by
  induction p1 with
  | nil =>
    cases p2 with
    | nil => exact absurd rfl hne
    | cons c cs =>
      simp only [List.nil_append, startsWithin, Bool.or_eq_true]
      exact Or.inl h
  | cons c cs ih =>
    simp only [List.cons_append, startsWithin, Bool.or_eq_true]
    exact Or.inr ih

theorem leftmost_isSome_of_suffix {α : Type} (m : List Char → Option α) (p s : List Char)
    (h : (m s).isSome = true) : (leftmost m (p ++ s)).isSome = true := by
  induction p with
  | nil =>
    obtain ⟨x, hx⟩ := Option.isSome_iff_exists.mp h
    rw [List.nil_append, leftmost_head m s x hx]
    rfl
  | cons c cs ih =>
    rw [List.cons_append, leftmost]
    cases m (c :: (cs ++ s)) with
    | none => exact ih
    | some x => rfl

/-- An occurrence makes the leftmost search succeed. -/
theorem leftmost_isSome_of_occurrence (mAt : List Char → Option (List Char)) (lit : List Char)
    (k : Nat)
    (hA : ∀ ws tok rest, k ≤ ws.length → (∀ c ∈ ws, isSpace c = true) → tok ≠ [] →
      (∀ c ∈ tok, isTokenChar c = true) →
      mAt (lit ++ (ws ++ (tok ++ rest))) = some (tok ++ rest.takeWhile isTokenChar))
    (m : List Char) (h : HasOccurrence lit k m) : (leftmost mAt m).isSome = true := by
  obtain ⟨p, ws, tok, rest, hm, hk, hws, hne, htok⟩ := h
  rw [hm]
  apply leftmost_isSome_of_suffix
  rw [hA ws tok rest hk hws hne htok]
  rfl

/-- A decidable criterion for the leftmost maximal occurrence: no match of the anchored
pattern starts before it. -/
theorem isLeftmostMaximal_of_search (mAt : List Char → Option (List Char)) (lit : List Char)
    (k : Nat)
    (hA : ∀ ws tok rest, k ≤ ws.length → (∀ c ∈ ws, isSpace c = true) → tok ≠ [] →
      (∀ c ∈ tok, isTokenChar c = true) →
      mAt (lit ++ (ws ++ (tok ++ rest))) = some (tok ++ rest.takeWhile isTokenChar))
    (m p ws tok rest : List Char) (hocc : IsOccurrence lit k m p ws tok rest)
    (hmax : ∀ c ∈ rest.head?, isTokenChar c = false)
    (hsw : startsWithin mAt p (lit ++ (ws ++ (tok ++ rest))) = false) :
    IsLeftmostMaximal lit k m p ws tok rest := by
  refine ⟨hocc, hmax, ?_⟩
  intro p1 ws1 tok1 rest1 h1
  by_contra hlt
  obtain ⟨hm, -⟩ := hocc
  obtain ⟨hm1, hk1, hws1, hne1, htok1⟩ := h1
  rw [hm] at hm1
  rcases List.append_eq_append_iff.mp hm1 with ⟨a, e1, -⟩ | ⟨c, e1, e2⟩
  · rw [e1, List.length_append] at hlt
    omega
  · have hc : c ≠ [] := by
      intro hc
      rw [e1, hc, List.append_nil] at hlt
      omega
    have hs : (mAt (c ++ (lit ++ (ws ++ (tok ++ rest))))).isSome = true := by
      rw [← e2, hA ws1 tok1 rest1 hk1 hws1 hne1 htok1]
      rfl
    rw [e1, startsWithin_of_split mAt p1 c _ hc hs] at hsw
    cases hsw

theorem leftmost_some {α : Type} (m : List Char → Option α) (s : List Char) (x : α)
    (h : leftmost m s = some x) :
    ∃ p t, s = p ++ t ∧ m t = some x ∧ startsWithin m p t = false := by
  induction s with
  | nil => exact ⟨[], [], rfl, by simpa [leftmost] using h, rfl⟩
  | cons c cs ih =>
    rw [leftmost] at h
    cases hm : m (c :: cs) with
    | some y =>
      rw [hm] at h
      exact ⟨[], c :: cs, rfl, hm.trans h, rfl⟩
    | none =>
      rw [hm] at h
      obtain ⟨p, t, e, hx, hsw⟩ := ih h
      refine ⟨c :: p, t, by rw [e]; rfl, hx, ?_⟩
      rw [e] at hm
      have hm1 : m (c :: p ++ t) = none := hm
      simp only [startsWithin, hm1, Option.isSome_none, Bool.false_or]
      exact hsw

/-- A successful leftmost search returns the token of a leftmost maximal occurrence. -/
theorem occurrence_of_leftmost (mAt : List Char → Option (List Char)) (lit : List Char) (k : Nat)
    (hA : ∀ ws tok rest, k ≤ ws.length → (∀ c ∈ ws, isSpace c = true) → tok ≠ [] →
      (∀ c ∈ tok, isTokenChar c = true) →
      mAt (lit ++ (ws ++ (tok ++ rest))) = some (tok ++ rest.takeWhile isTokenChar))
    (hB : ∀ s t, mAt s = some t → ∃ ws rest, IsOccurrence lit k s [] ws t rest ∧
      ∀ c ∈ rest.head?, isTokenChar c = false)
    (m tok : List Char) (h : leftmost mAt m = some tok) :
    ∃ p ws rest, IsLeftmostMaximal lit k m p ws tok rest := by
  obtain ⟨p, t, e, hx, hsw⟩ := leftmost_some mAt m tok h
  obtain ⟨ws, rest, ⟨ho, h2, h3, h4, h5⟩, hmax⟩ := hB _ _ hx
  rw [List.nil_append] at ho
  rw [ho] at e hsw
  exact ⟨p, ws, rest, isLeftmostMaximal_of_search mAt lit k hA m p ws tok rest
    ⟨e, h2, h3, h4, h5⟩ hmax hsw⟩

/-- When the text has an occurrence, it has a leftmost maximal one, and the leftmost
search returns its token. -/
theorem leftmost_spec (mAt : List Char → Option (List Char)) (lit : List Char) (k : Nat)
    (hA : ∀ ws tok rest, k ≤ ws.length → (∀ c ∈ ws, isSpace c = true) → tok ≠ [] →
      (∀ c ∈ tok, isTokenChar c = true) →
      mAt (lit ++ (ws ++ (tok ++ rest))) = some (tok ++ rest.takeWhile isTokenChar))
    (hB : ∀ s t, mAt s = some t → ∃ ws rest, IsOccurrence lit k s [] ws t rest ∧
      ∀ c ∈ rest.head?, isTokenChar c = false)
    (m : List Char) (h : HasOccurrence lit k m) :
    ∃ p ws tok rest, IsLeftmostMaximal lit k m p ws tok rest ∧ leftmost mAt m = some tok := by
  obtain ⟨tok, ht⟩ := Option.isSome_iff_exists.mp (leftmost_isSome_of_occurrence mAt lit k hA m h)
  obtain ⟨p, ws, rest, hl⟩ := occurrence_of_leftmost mAt lit k hA hB m tok ht
  exact ⟨p, ws, tok, rest, hl, ht⟩

theorem mapGet_mapIncr (m : CountMap) (k k1 : String) :
    mapGet (mapIncr m k) k1 = mapGet m k1 + (if k = k1 then 1 else 0) := by
  induction m with
  | nil => simp [mapIncr, mapGet]
  | cons e rest ih =>
    obtain ⟨a, v⟩ := e
    by_cases hak : a = k
    · by_cases hk1 : a = k1
      · have : k = k1 := hak ▸ hk1
        simp [mapIncr, mapGet, hak, this]
      · have : ¬ k = k1 := fun e => hk1 (hak ▸ e)
        simp [mapIncr, mapGet, hak, this]
    · by_cases hk1 : a = k1
      · subst hk1
        have : ¬ k = a := fun e => hak e.symm
        simp [mapIncr, mapGet, hak, this]
      · simp [mapIncr, mapGet, hak, hk1, ih]

theorem mapTotal_mapIncr (m : CountMap) (k : String) :
    mapTotal (mapIncr m k) = mapTotal m + 1 := by
  induction m with
  | nil => simp [mapIncr, mapTotal]
  | cons e rest ih =>
    obtain ⟨a, v⟩ := e
    unfold mapTotal at ih ⊢
    by_cases hak : a = k
    · simp [mapIncr, hak]; omega
    · simp [mapIncr, hak, ih]; omega

theorem mem_keys_mapIncr (m : CountMap) (k x : String)
    (h : x ∈ (mapIncr m k).map Prod.fst) : x = k ∨ x ∈ m.map Prod.fst := by
  induction m with
  | nil => simp [mapIncr] at h; exact Or.inl h
  | cons e rest ih =>
    obtain ⟨a, v⟩ := e
    by_cases hak : a = k
    · simp only [mapIncr, hak, if_true, List.map_cons, List.mem_cons] at h ⊢
      rcases h with h | h
      · exact Or.inl h
      · exact Or.inr (Or.inr h)
    · simp only [mapIncr, hak, if_false, List.map_cons, List.mem_cons] at h ⊢
      rcases h with h | h
      · exact Or.inr (Or.inl h)
      · rcases ih h with h | h
        · exact Or.inl h
        · exact Or.inr (Or.inr h)

theorem nodup_keys_mapIncr (m : CountMap) (k : String) (h : (m.map Prod.fst).Nodup) :
    ((mapIncr m k).map Prod.fst).Nodup := by
  induction m with
  | nil => simp [mapIncr]
  | cons e rest ih =>
    obtain ⟨a, v⟩ := e
    simp only [List.map_cons, List.nodup_cons] at h
    by_cases hak : a = k
    · simp only [mapIncr, hak, if_true, List.map_cons, List.nodup_cons]
      exact ⟨hak ▸ h.1, h.2⟩
    · simp only [mapIncr, hak, if_false, List.map_cons, List.nodup_cons]
      refine ⟨?_, ih h.2⟩
      intro hmem
      rcases mem_keys_mapIncr rest k a hmem with h1 | h1
      · exact hak h1
      · exact h.1 h1

theorem countsGet_countsSet (cs : List (String × CountMap)) (k k1 : String) (v : CountMap) :
    countsGet (countsSet cs k v) k1 = if k = k1 then some v else countsGet cs k1 := by
  induction cs with
  | nil => simp [countsSet, countsGet]
  | cons e rest ih =>
    obtain ⟨a, w⟩ := e
    by_cases hak : a = k
    · by_cases hk1 : a = k1
      · have : k = k1 := hak ▸ hk1
        simp [countsSet, countsGet, hak, this]
      · have : ¬ k = k1 := fun e => hk1 (hak ▸ e)
        simp [countsSet, countsGet, hak, this]
    · by_cases hk1 : a = k1
      · subst hk1
        have : ¬ k = a := fun e => hak e.symm
        simp [countsSet, countsGet, hak, this]
      · simp [countsSet, countsGet, hak, hk1, ih]

/-- The store after a call of `Append` that returned a nil error. -/
theorem Append_ok_store (T : CaseTables) (M : LogRecord → Option (List Char)) (sys : SysOutcome)
    (disk : Disk) (fs : fileStore) (rec : LogRecord) (mc ms : CountMap)
    (h1 : countsGet fs.counts "event.category" = some mc)
    (h2 : countsGet fs.counts "severity" = some ms)
    (hok : (Append T M sys disk fs rec).1 = Outcome.ok) :
    (Append T M sys disk fs rec).2.1.cache = fs.cache ++ [rec] ∧
    countsGet (Append T M sys disk fs rec).2.1.counts "event.category"
      = some (mapIncr mc rec.EventCategory) ∧
    countsGet (Append T M sys disk fs rec).2.1.counts "severity"
      = some (mapIncr ms (String.mk (ToUpper T rec.Severity.data))) := by
  have hne : ¬ ("event.category" = "severity") := by decide
  have hne2 : ¬ ("severity" = "event.category") := by decide
  unfold Append at hok ⊢
  cases ho : sys.openFails with
  | true => simp [ho] at hok
  | false =>
    cases hm : M rec with
    | none => simp [ho, hm] at hok
    | some b =>
      cases hw : sys.writeFails with
      | some k => simp [ho, hm, hw] at hok
      | none =>
        simp [ho, hm, hw, h1, h2, countsGet_countsSet, hne, hne2]

/-- The state reached by a run of successful `Append` calls, from any store that has
both inner maps. -/
theorem appendAll_ok_state (T : CaseTables) (M : LogRecord → Option (List Char))
    (steps : List (LogRecord × SysOutcome)) :
    ∀ (disk : Disk) (fs : fileStore) (mc ms : CountMap),
      countsGet fs.counts "event.category" = some mc →
      countsGet fs.counts "severity" = some ms →
      (∀ o ∈ (appendAll T M disk fs steps).1, o = Outcome.ok) →
      (appendAll T M disk fs steps).2.1.cache = fs.cache ++ steps.map Prod.fst ∧
      ∃ mc1 ms1,
        countsGet (appendAll T M disk fs steps).2.1.counts "event.category" = some mc1 ∧
        countsGet (appendAll T M disk fs steps).2.1.counts "severity" = some ms1 ∧
        (∀ k, mapGet mc1 k = mapGet mc k +
          (steps.map Prod.fst).countP (fun r => decide (r.EventCategory = k))) ∧
        (∀ k, mapGet ms1 k = mapGet ms k +
          (steps.map Prod.fst).countP
            (fun r => decide (String.mk (ToUpper T r.Severity.data) = k))) ∧
        mapTotal mc1 = mapTotal mc + steps.length ∧
        mapTotal ms1 = mapTotal ms + steps.length ∧
        ((mc.map Prod.fst).Nodup → (mc1.map Prod.fst).Nodup) ∧
        ((ms.map Prod.fst).Nodup → (ms1.map Prod.fst).Nodup) := by
  induction steps with
  | nil =>
    intro disk fs mc ms h1 h2 _
    exact ⟨by simp [appendAll], mc, ms, h1, h2, by simp, by simp, by simp, by simp,
      fun h => h, fun h => h⟩
  | cons st rest ih =>
    obtain ⟨rec, sys⟩ := st
    intro disk fs mc ms h1 h2 hok
    simp only [appendAll, List.mem_cons, forall_eq_or_imp] at hok ⊢
    obtain ⟨hok1, hok2⟩ := hok
    obtain ⟨a1, a2, a3⟩ := Append_ok_store T M sys disk fs rec mc ms h1 h2 hok1
    obtain ⟨b1, mc1, ms1, b2, b3, b4, b5, b6, b7, b8, b9⟩ := ih _ _ _ _ a2 a3 hok2
    refine ⟨?_, mc1, ms1, b2, b3, ?_, ?_, ?_, ?_, ?_, ?_⟩
    · rw [b1, a1]; simp
    · intro k
      rw [b4 k, mapGet_mapIncr, List.map_cons, List.countP_cons]
      by_cases hk : rec.EventCategory = k
      · simp [hk]; omega
      · simp [hk]
    · intro k
      rw [b5 k, mapGet_mapIncr, List.map_cons, List.countP_cons]
      by_cases hk : String.mk (ToUpper T rec.Severity.data) = k
      · simp [hk]; omega
      · simp [hk]
    · rw [b6, mapTotal_mapIncr, List.length_cons]; omega
    · rw [b7, mapTotal_mapIncr, List.length_cons]; omega
    · exact fun h => b8 (nodup_keys_mapIncr _ _ h)
    · exact fun h => b9 (nodup_keys_mapIncr _ _ h)

theorem isDigit_bounds (c : Char) (h : isDigit c = true) :
    ('0' ≤ c ∧ c ≤ '9') ∧ 48 ≤ c.toNat ∧ c.toNat ≤ 57 := by
  simp only [isDigit, Bool.and_eq_true, decide_eq_true_eq] at h
  refine ⟨h, ?_, ?_⟩
  · have := h.1
    rw [Char.le_def] at this
    exact this
  · have := h.2
    rw [Char.le_def] at this
    exact this

theorem wrapInt64_id (x : Int) (h0 : 0 ≤ x) (h1 : x < 2 ^ 63) : wrapInt64 x = x := by
  unfold wrapInt64
  omega

/-- On a digit string whose value fits the 64-bit `int`, `atoiSafe` is the decimal value. -/
theorem atoiSafe_in_range (ds : List Char) (hd : ∀ c ∈ ds, isDigit c = true)
    (hv : decimalValue ds < 2 ^ 63) : atoiSafe ds = (decimalValue ds : Int) := by
  induction ds using List.reverseRecOn with
  | nil => rfl
  | append_singleton l a ih =>
    obtain ⟨hle, hlo, hhi⟩ := isDigit_bounds a (hd a (by simp))
    have hval : decimalValue (l ++ [a]) = decimalValue l * 10 + (a.toNat - 48) := by
      simp [decimalValue, List.foldl_append]
    have hat : atoiSafe (l ++ [a]) = wrapInt64 (atoiSafe l * 10 + ((a.toNat : Int) - 48)) := by
      simp [atoiSafe, List.foldl_append, hle]
    rw [hval] at hv
    have hl : decimalValue l < 2 ^ 63 := by omega
    rw [hat, ih (fun c hc => hd c (by simp [hc])) hl, hval]
    rw [wrapInt64_id] <;> omega

theorem reSeverity_marker (ds rest : List Char) (hne : ds ≠ [])
    (hd : ∀ c ∈ ds, isDigit c = true) :
    reSeverity ('<' :: (ds ++ '>' :: rest)) = some ds := by
  have hgt : isDigit '>' = false := by decide
  have e1 : (ds ++ '>' :: rest).takeWhile isDigit = ds := by
    rw [List.takeWhile_append_of_pos hd]
    simp [List.takeWhile_cons, hgt]
  have e2 : (ds ++ '>' :: rest).dropWhile isDigit = '>' :: rest := by
    rw [List.dropWhile_append_of_pos hd]
    simp [List.dropWhile_cons, hgt]
  unfold reSeverity reSeverityAt
  simp only [dropLit, if_true, e1, e2]
  cases ds with
  | nil => exact absurd rfl hne
  | cons a as => simp

/-- The part of the severity contract that the code meets: when the number `N` of the
marker is below `2 ^ 63`, the severity is the bucket of `N`. -/
theorem extract_severity_in_range (T : CaseTables) (now : Int) (d r : String)
    (hne : d.data ≠ []) (hd : ∀ c ∈ d.data, isDigit c = true)
    (hv : decimalValue d.data < 2 ^ 63) :
    (extract T now ("<" ++ d ++ ">" ++ r)).Severity
      = (if decimalValue d.data < 30 then "ERROR"
         else if decimalValue d.data < 60 then "WARN" else "INFO") := by
  have e : ("<" ++ d ++ ">" ++ r).data = '<' :: (d.data ++ '>' :: r.data) := by
    simp [String.data_append]
  show (match reSeverity ("<" ++ d ++ ">" ++ r).data with
    | some x => severityCodeToLevel (atoiSafe x)
    | none => "") = _
  rw [e, reSeverity_marker _ _ hne hd]
  simp only [atoiSafe_in_range _ hd hv, severityCodeToLevel]
  by_cases h1 : decimalValue d.data < 30
  · have : (decimalValue d.data : Int) < 30 := by exact_mod_cast h1
    simp [h1, this]
  · by_cases h2 : decimalValue d.data < 60
    · have a1 : ¬ (decimalValue d.data : Int) < 30 := by exact_mod_cast h1
      have a2 : (decimalValue d.data : Int) < 60 := by exact_mod_cast h2
      have a3 : (30 : Int) ≤ decimalValue d.data := by omega
      simp [h1, h2, a1, a2, a3]
    · have a1 : ¬ (decimalValue d.data : Int) < 30 := by exact_mod_cast h1
      have a2 : ¬ (decimalValue d.data : Int) < 60 := by exact_mod_cast h2
      simp [h1, h2, a1, a2]

theorem extract_Username (T : CaseTables) (now : Int) (m : String) :
    (extract T now m).Username =
      match reUser m.data with
      | some u => String.mk u
      | none =>
        match reWinUser m.data with
        | some u => String.mk u
        | none => "" := rfl

theorem extract_IsBlacklisted (T : CaseTables) (now : Int) (m : String) :
    (extract T now m).IsBlacklisted = mapGetBool blacklistedUsers (extract T now m).Username := rfl

theorem blacklisted_iff (u : String) :
    mapGetBool blacklistedUsers u = true ↔ u = "root" ∨ u = "Administrator" ∨ u = "baduser" := by
  simp only [blacklistedUsers, mapGetBool]
  constructor
  · intro h
    split_ifs at h with h1 h2 h3
    · exact Or.inl h1.symm
    · exact Or.inr (Or.inl h2.symm)
    · exact Or.inr (Or.inr h3.symm)
  · rintro (h | h | h) <;> subst h <;> decide

theorem parseCategory_windows_login (T : CaseTables) (s : List Char)
    (h1 : Contains (ToLower T s) "login".data = false)
    (h2 : Contains (ToLower T s) "logout".data = false)
    (h3 : Contains (ToLower T s) "session terminated".data = false)
    (h4 : Contains (ToLower T s) "security-auditing".data = true) :
    parseCategory T s = ("windows.login", "windows") := by
  simp [parseCategory, h1, h2, h3, h4]

theorem extract_category (T : CaseTables) (now : Int) (m : String) :
    (extract T now m).EventCategory = (parseCategory T m.data).1 ∧
    (extract T now m).EventSource = (parseCategory T m.data).2 := ⟨rfl, rfl⟩

theorem reHostAt_ne (c : Char) (s : List Char) (h : c ≠ '>') : reHostAt (c :: s) = none := by
  have h2 : ¬ ('>' = c) := fun e => h e.symm
  simp [reHostAt, dropLit, h2]

theorem startsWithin_reHostAt_digits (d rest : List Char) (hd : ∀ c ∈ d, isDigit c = true) :
    startsWithin reHostAt d rest = false := by
  induction d with
  | nil => rfl
  | cons c cs ih =>
    have hc : c ≠ '>' := by
      intro e
      have := hd c (by simp)
      rw [e] at this
      revert this
      decide
    simp only [startsWithin, List.cons_append, reHostAt_ne c _ hc, Option.isSome_none,
      Bool.false_or]
    exact ih fun x hx => hd x (by simp [hx])

theorem logs_eq (T : CaseTables) (S : SliceSort) (fs : fileStore) (q : Query) :
    logs T S fs q = if (parseBoolQuery q.isBlacklisted).2 = true then LogsReply.badRequest
      else LogsReply.records (limitStep (queryLimit q.limit) (beforeLimit T S fs q)) := rfl

theorem head_digit_not_sign (ds : List Char) (hne : ds ≠ []) (hd : ∀ c ∈ ds, isDigit c = true) :
    ¬ (ds.head? = some '-' ∨ ds.head? = some '+') := by
  cases ds with
  | nil => exact absurd rfl hne
  | cons a as =>
    have ha := hd a (by simp)
    simp only [List.head?_cons, Option.some.injEq]
    rintro (h | h) <;> rw [h] at ha <;> revert ha <;> decide

theorem all_isDigit (ds : List Char) (hd : ∀ c ∈ ds, isDigit c = true) :
    ds.all isDigit = true := by
  simpa [List.all_eq_true] using hd

theorem Atoi_digits (ds : List Char) (hne : ds ≠ []) (hd : ∀ c ∈ ds, isDigit c = true) :
    Atoi ds = if decimalValue ds < 2 ^ 63 then some (decimalValue ds : Int) else none := by
  have hs := head_digit_not_sign ds hne hd
  have hm : ¬ ds.head? = some '-' := fun h => hs (Or.inl h)
  have hp : ¬ ds.head? = some '+' := fun h => hs (Or.inr h)
  unfold Atoi
  simp only [hm, hp, or_self, if_false, all_isDigit ds hd]
  simp [hne]

theorem Atoi_plus (ds : List Char) (hne : ds ≠ []) (hd : ∀ c ∈ ds, isDigit c = true) :
    Atoi ('+' :: ds) = if decimalValue ds < 2 ^ 63 then some (decimalValue ds : Int) else none := by
  have hm : ¬ ('+' = '-') := by decide
  unfold Atoi
  simp only [List.head?_cons, Option.some.injEq, hm, or_true, false_or, if_true, List.tail_cons,
    all_isDigit ds hd]
  simp [hne]

theorem Atoi_minus (ds : List Char) (v : Int) (h : Atoi ('-' :: ds) = some v) : v ≤ 0 := by
  simp only [Atoi, List.head?_cons, true_or, if_true, List.tail_cons] at h
  split_ifs at h
  simp only [Option.some.injEq] at h
  omega

theorem Atoi_not_numeral (s : List Char) (h : isNumeral s = false) : Atoi s = none := by
  unfold isNumeral at h
  unfold Atoi
  simp only [Bool.and_eq_false_iff, Bool.not_eq_false', List.isEmpty_iff] at h
  simp only [ite_eq_left_iff]
  intro hn
  exact absurd h hn

theorem keepRecord_iff (T : CaseTables) (level service username : List Char)
    (flag : Option Bool) (r : LogRecord) :
    keepRecord T level service username flag r = true ↔
      (level = [] ∨ ToUpper T r.Severity.data = level) ∧
      (service = [] ∨ r.Service.data = service) ∧
      (username = [] ∨ r.Username.data = username) ∧
      (flag = none ∨ flag = some r.IsBlacklisted) := by
  unfold keepRecord
  by_cases h1 : level ≠ [] ∧ ToUpper T r.Severity.data ≠ level
  · rw [if_pos h1]
    simp only [Bool.false_eq_true, false_iff, not_and]
    intro h
    rcases h with h | h
    · exact absurd h h1.1
    · exact absurd h h1.2
  · rw [if_neg h1]
    have e1 : level = [] ∨ ToUpper T r.Severity.data = level := by
      by_contra hc
      exact h1 ⟨fun h => hc (Or.inl h), fun h => hc (Or.inr h)⟩
    by_cases h2 : service ≠ [] ∧ r.Service.data ≠ service
    · rw [if_pos h2]
      simp only [Bool.false_eq_true, false_iff, not_and]
      intro _ h
      rcases h with h | h
      · exact absurd h h2.1
      · exact absurd h h2.2
    · rw [if_neg h2]
      have e2 : service = [] ∨ r.Service.data = service := by
        by_contra hc
        exact h2 ⟨fun h => hc (Or.inl h), fun h => hc (Or.inr h)⟩
      by_cases h3 : username ≠ [] ∧ r.Username.data ≠ username
      · rw [if_pos h3]
        simp only [Bool.false_eq_true, false_iff, not_and]
        intro _ _ h
        rcases h with h | h
        · exact absurd h h3.1
        · exact absurd h h3.2
      · rw [if_neg h3]
        have e3 : username = [] ∨ r.Username.data = username := by
          by_contra hc
          exact h3 ⟨fun h => hc (Or.inl h), fun h => hc (Or.inr h)⟩
        cases flag with
        | none => simp [e1, e2, e3]
        | some b =>
          by_cases hb : r.IsBlacklisted = b
          · simp [e1, e2, e3, hb]
          · have hb2 : ¬ b = r.IsBlacklisted := fun e => hb e.symm
            simp [e1, e2, e3, hb, hb2]

theorem limitStep_sublist (limit : Int) (l : List LogRecord) : (limitStep limit l).Sublist l := by
  unfold limitStep
  split_ifs
  · exact List.take_sublist _ _
  · exact List.Sublist.refl l

/-- The effect of a call of `Append` whose file operations and encoding all succeed: the
record joins the cache and its line joins the file, also when the index update panics. -/
theorem Append_written (T : CaseTables) (M : LogRecord → Option (List Char)) (sys : SysOutcome)
    (disk : Disk) (fs : fileStore) (rec : LogRecord) (b : List Char)
    (ho : sys.openFails = false) (hm : M rec = some b) (hw : sys.writeFails = none) :
    (Append T M sys disk fs rec).2.1.cache = fs.cache ++ [rec] ∧
    (Append T M sys disk fs rec).2.2
      = disk.put fs.path ((disk fs.path).getD [] ++ (b ++ ['\n'])) := by
  unfold Append
  simp only [ho, hm, hw, Bool.false_eq_true, if_false]
  cases h1 : countsGet fs.counts "event.category" with
  | none => simp
  | some mc =>
    simp only []
    cases h2 : countsGet (countsSet fs.counts "event.category" (mapIncr mc rec.EventCategory))
      "severity" with
    | none => simp
    | some ms => simp

/-- A call of `Append` keeps the path, extends the cache at most, and either leaves the
disk alone or extends the file of the store. -/
theorem Append_monotone (T : CaseTables) (M : LogRecord → Option (List Char)) (sys : SysOutcome)
    (disk : Disk) (fs : fileStore) (rec : LogRecord) :
    (Append T M sys disk fs rec).2.1.path = fs.path ∧
    fs.cache <+: (Append T M sys disk fs rec).2.1.cache ∧
    ((Append T M sys disk fs rec).2.2 = disk ∨
      ∃ extra, (Append T M sys disk fs rec).2.2
        = disk.put fs.path ((disk fs.path).getD [] ++ extra)) := by
  unfold Append
  cases ho : sys.openFails with
  | true => simp
  | false =>
    cases hm : M rec with
    | none =>
      simp only [Bool.false_eq_true, if_false, List.prefix_rfl, true_and]
      exact Or.inr ⟨[], by simp⟩
    | some b =>
      cases hw : sys.writeFails with
      | some k =>
        simp only [Bool.false_eq_true, if_false, List.prefix_rfl, true_and]
        exact Or.inr ⟨_, rfl⟩
      | none =>
        simp only [Bool.false_eq_true, if_false]
        cases h1 : countsGet fs.counts "event.category" with
        | none =>
          simp only [List.prefix_append, true_and]
          exact Or.inr ⟨_, rfl⟩
        | some mc =>
          simp only []
          cases h2 : countsGet (countsSet fs.counts "event.category"
            (mapIncr mc rec.EventCategory)) "severity" with
          | none =>
            simp only [List.prefix_append, true_and]
            exact Or.inr ⟨_, rfl⟩
          | some ms =>
            simp only [List.prefix_append, true_and]
            exact Or.inr ⟨_, rfl⟩

theorem Append_file_grows (T : CaseTables) (M : LogRecord → Option (List Char))
    (sys : SysOutcome) (disk : Disk) (fs : fileStore) (rec : LogRecord) (c : List Char)
    (hc : disk fs.path = some c) :
    ∃ e, (Append T M sys disk fs rec).2.2 fs.path = some (c ++ e) := by
  rcases (Append_monotone T M sys disk fs rec).2.2 with h | ⟨extra, h⟩
  · exact ⟨[], by rw [h, hc, List.append_nil]⟩
  · exact ⟨extra, by rw [h]; simp [Disk.put, hc]⟩

/-- The replay loop extends the cache and the file at most. -/
theorem replay_monotone (T : CaseTables) (M : LogRecord → Option (List Char))
    (D : List Char → Option (LogRecord × Nat)) (sysAt : Nat → SysOutcome) (path : String)
    (fuel : Nat) :
    ∀ (i pos : Nat) (disk : Disk) (fs : fileStore) (res : LoadOutcome × fileStore × Disk),
      fs.path = path → replay T M D sysAt path fuel i pos disk fs = some res →
      fs.cache <+: res.2.1.cache ∧
      ∀ c, disk path = some c → ∃ e, res.2.2 path = some (c ++ e) := by
  induction fuel with
  | zero =>
    intro i pos disk fs res _ h
    simp [replay] at h
  | succ fuel ih =>
    intro i pos disk fs res hp h
    unfold replay at h
    simp only [] at h
    split_ifs at h with hmore
    · cases hd : D (List.drop pos ((disk path).getD [])) with
      | none =>
        rw [hd] at h
        simp only [Option.some.injEq] at h
        subst h
        exact ⟨List.prefix_rfl, fun c hc => ⟨[], by simp [hc]⟩⟩
      | some v =>
        obtain ⟨rec, n⟩ := v
        rw [hd] at h
        simp only [] at h
        obtain ⟨a1, a2, -⟩ := Append_monotone T M (sysAt i) disk fs rec
        have a3 : ∀ c, disk path = some c →
            ∃ e, (Append T M (sysAt i) disk fs rec).2.2 path = some (c ++ e) := by
          intro c hc
          rw [← hp] at hc ⊢
          exact Append_file_grows T M (sysAt i) disk fs rec c hc
        split_ifs at h with hpanic
        · simp only [Option.some.injEq] at h
          subst h
          exact ⟨a2, a3⟩
        · obtain ⟨b1, b2⟩ := ih _ _ _ _ res (a1.trans hp) h
          refine ⟨a2.trans b1, ?_⟩
          intro c hc
          obtain ⟨e1, he1⟩ := a3 c hc
          obtain ⟨e2, he2⟩ := b2 _ he1
          exact ⟨e1 ++ e2, by rw [he2, List.append_assoc]⟩
    · simp only [Option.some.injEq] at h
      subst h
      exact ⟨List.prefix_rfl, fun c hc => ⟨[], by simp [hc]⟩⟩

/-- Recovery of a file whose first value decodes, on a fresh store of the same path, when
the first call of `Append` succeeds: whenever `loadExisting` returns, the record is in
the cache and its line has been written once more at the end of the file. -/
theorem loadExisting_first_step (T : CaseTables) (M : LogRecord → Option (List Char))
    (D : List Char → Option (LogRecord × Nat)) (sysAt : Nat → SysOutcome) (path : String)
    (content : List Char) (rec : LogRecord) (n : Nat) (b : List Char)
    (hmore : More content = true) (hdec : D content = some (rec, n)) (hM : M rec = some b)
    (h0 : sysAt 0 = SysOutcome.mk false none) (fuel : Nat)
    (res : LoadOutcome × fileStore × Disk)
    (h : loadExisting T M D false sysAt fuel path (diskWith path content) (newFileStore path)
      = some res) :
    [rec] <+: res.2.1.cache ∧ ∃ e, res.2.2 path = some (content ++ (b ++ ['\n']) ++ e) := by
  have hd : diskWith path content path = some content := by
    simp [diskWith, Disk.put]
  unfold loadExisting at h
  rw [hd] at h
  simp only [Bool.false_eq_true, if_false] at h
  cases fuel with
  | zero => simp [replay] at h
  | succ fuel =>
    unfold replay at h
    simp only [hd, Option.getD_some, List.drop_zero, hmore, if_true, hdec] at h
    obtain ⟨w1, w2⟩ := Append_written T M (sysAt 0) (diskWith path content) (newFileStore path)
      rec b (by rw [h0]) hM (by rw [h0])
    have hp : (newFileStore path).path = path := rfl
    have w3 : (Append T M (sysAt 0) (diskWith path content) (newFileStore path) rec).2.2 path
        = some (content ++ (b ++ ['\n'])) := by
      rw [w2, hp, hd]
      simp [Disk.put]
    have w4 : (Append T M (sysAt 0) (diskWith path content) (newFileStore path) rec).2.1.cache
        = [rec] := by
      rw [w1]; rfl
    split_ifs at h with hpanic
    · simp only [Option.some.injEq] at h
      subst h
      exact ⟨by rw [w4], ⟨[], by rw [w3, List.append_nil]⟩⟩
    · obtain ⟨b1, b2⟩ := replay_monotone T M D sysAt path fuel _ _ _ _ res
        ((Append_monotone T M (sysAt 0) (diskWith path content) (newFileStore path) rec).1.trans
          hp) h
      rw [w4] at b1
      exact ⟨b1, b2 _ w3⟩

theorem fileOf_append (M : LogRecord → Option (List Char)) (l1 l2 : List LogRecord) :
    fileOf M (l1 ++ l2) = fileOf M l1 ++ fileOf M l2 := by
  induction l1 with
  | nil => rfl
  | cons r rs ih => simp [fileOf, ih]

/-- A call of `Append` that returns nil had its file operations and its encoding succeed. -/
theorem Append_ok_inv (T : CaseTables) (M : LogRecord → Option (List Char)) (sys : SysOutcome)
    (disk : Disk) (fs : fileStore) (rec : LogRecord)
    (hok : (Append T M sys disk fs rec).1 = Outcome.ok) :
    sys.openFails = false ∧ (∃ b, M rec = some b) ∧ sys.writeFails = none := by
  unfold Append at hok
  cases ho : sys.openFails with
  | true => simp [ho] at hok
  | false =>
    cases hm : M rec with
    | none => simp [ho, hm] at hok
    | some b =>
      cases hw : sys.writeFails with
      | some k => simp [ho, hm, hw] at hok
      | none => exact ⟨rfl, ⟨b, rfl⟩, rfl⟩

/-- With both inner maps in place `Append` does not panic, and the maps stay in place. -/
theorem Append_no_panic (T : CaseTables) (M : LogRecord → Option (List Char)) (sys : SysOutcome)
    (disk : Disk) (fs : fileStore) (rec : LogRecord)
    (h1 : (countsGet fs.counts "event.category").isSome = true)
    (h2 : (countsGet fs.counts "severity").isSome = true) :
    (Append T M sys disk fs rec).1 ≠ Outcome.panicked ∧
    (countsGet (Append T M sys disk fs rec).2.1.counts "event.category").isSome = true ∧
    (countsGet (Append T M sys disk fs rec).2.1.counts "severity").isSome = true := by
  obtain ⟨mc, hmc⟩ := Option.isSome_iff_exists.mp h1
  obtain ⟨ms, hms⟩ := Option.isSome_iff_exists.mp h2
  have hne : ¬ ("event.category" = "severity") := by decide
  have hne2 : ¬ ("severity" = "event.category") := by decide
  unfold Append
  cases ho : sys.openFails with
  | true => simp [hmc, hms]
  | false =>
    cases hm : M rec with
    | none => simp [hmc, hms]
    | some b =>
      cases hw : sys.writeFails with
      | some k => simp [hmc, hms]
      | none => simp [hmc, hms, countsGet_countsSet, hne, hne2]

/-- The file after a run of `Append` calls that all returned nil. -/
theorem appendAll_ok_file (T : CaseTables) (M : LogRecord → Option (List Char))
    (steps : List (LogRecord × SysOutcome)) :
    ∀ (disk : Disk) (fs : fileStore),
      (∀ o ∈ (appendAll T M disk fs steps).1, o = Outcome.ok) →
      (appendAll T M disk fs steps).2.2 fs.path
        = (if steps = [] then disk fs.path
           else some ((disk fs.path).getD [] ++ fileOf M (steps.map Prod.fst))) := by
  induction steps with
  | nil => intro disk fs _; rfl
  | cons st rest ih =>
    obtain ⟨rec, sys⟩ := st
    intro disk fs hok
    simp only [appendAll, List.mem_cons, forall_eq_or_imp] at hok ⊢
    obtain ⟨hok1, hok2⟩ := hok
    obtain ⟨ho, ⟨b, hb⟩, hw⟩ := Append_ok_inv T M sys disk fs rec hok1
    obtain ⟨-, w2⟩ := Append_written T M sys disk fs rec b ho hb hw
    have hp := (Append_monotone T M sys disk fs rec).1
    have w3 : (Append T M sys disk fs rec).2.2 fs.path
        = some ((disk fs.path).getD [] ++ (b ++ ['\n'])) := by
      rw [w2]; simp [Disk.put]
    have h := ih _ _ hok2
    rw [hp] at h
    rw [h, w3]
    simp only [reduceCtorEq, if_false, List.map_cons, fileOf, hb, Option.getD_some]
    split_ifs with hrest
    · simp [hrest, fileOf]
    · simp

theorem drop_split (content ws b rest : List Char) (pos : Nat)
    (h : content.drop pos = ws ++ (b ++ rest)) (hrest : rest ≠ []) :
    pos + (ws.length + b.length) ≤ content.length ∧
    content.drop (pos + (ws.length + b.length)) = rest := by
  have hlen : (content.drop pos).length = ws.length + (b.length + rest.length) := by
    rw [h]; simp
  have hr : 0 < rest.length := List.length_pos.mpr hrest
  rw [List.length_drop] at hlen
  constructor
  · omega
  · have e : content.drop (pos + (ws.length + b.length))
        = (content.drop pos).drop (ws.length + b.length) := by
      rw [List.drop_drop, Nat.add_comm]
    rw [e, h, ← List.append_assoc]
    have : ws.length + b.length = (ws ++ b).length := by simp
    rw [this, List.drop_left]

/-- The replay loop does not come to an end while every `Append` succeeds: each record
that is read is written again at the end of the file, so unread records always remain. -/
theorem replay_diverges (T : CaseTables) (M : LogRecord → Option (List Char))
    (D : List Char → Option (LogRecord × Nat)) (path : String) (fuel : Nat) :
    ∀ (i pos : Nat) (disk : Disk) (fs : fileStore) (content ws : List Char)
      (pending : List LogRecord),
      fs.path = path →
      (countsGet fs.counts "event.category").isSome = true →
      (countsGet fs.counts "severity").isSome = true →
      disk path = some content →
      content.drop pos = ws ++ fileOf M pending →
      (∀ c ∈ ws, isJsonSpace c = true) →
      pending ≠ [] →
      (∀ r ∈ pending, ReadsBack M D r) →
      replay T M D allSucceed path fuel i pos disk fs = none := by
  induction fuel with
  | zero => intros; rfl
  | succ fuel ih =>
    intro i pos disk fs content ws pending hp h1 h2 hd hdrop hws hne hlaw
    cases pending with
    | nil => exact absurd rfl hne
    | cons r tail =>
      obtain ⟨b, hb, hrb⟩ := hlaw r (by simp)
      have hfile : fileOf M (r :: tail) = b ++ ('\n' :: fileOf M tail) := by
        simp [fileOf, hb]
      rw [hfile] at hdrop
      obtain ⟨hmore, hdec⟩ := hrb ws ('\n' :: fileOf M tail) hws
      obtain ⟨hle, hrest⟩ := drop_split content ws b ('\n' :: fileOf M tail) pos hdrop (by simp)
      obtain ⟨hnp, h1', h2'⟩ := Append_no_panic T M (allSucceed i) disk fs r h1 h2
      obtain ⟨-, w2⟩ := Append_written T M (allSucceed i) disk fs r b rfl hb rfl
      have hp' := (Append_monotone T M (allSucceed i) disk fs r).1
      have w3 : (Append T M (allSucceed i) disk fs r).2.2 path
          = some (content ++ (b ++ ['\n'])) := by
        rw [w2, hp, hd]; simp [Disk.put]
      unfold replay
      simp only [hd, Option.getD_some, hdrop, hmore, if_true, hdec, hnp, if_false]
      apply ih (i + 1) (pos + (ws.length + b.length)) _ _ (content ++ (b ++ ['\n'])) ['\n']
        (tail ++ [r]) (hp'.trans hp) h1' h2' w3
      · rw [List.drop_append_of_le_length hle, hrest, fileOf_append]
        simp [fileOf, hb]
      · intro c hc
        simp only [List.mem_singleton] at hc
        rw [hc]; decide
      · simp
      · intro x hx
        simp only [List.mem_append, List.mem_singleton] at hx
        rcases hx with hx | hx
        · exact hlaw x (by simp [hx])
        · rw [hx]; exact hlaw r (by simp)

/-- The sample decoder reads back the sample encoding of a record that holds a message
without quote characters and nothing else. -/
theorem sample_reads_back (msg : List Char) (hmsg : ∀ c ∈ msg, (c != '\"') = true) :
    ReadsBack sampleJsonMarshal sampleJsonDecode { zeroRecord with RawMessage := String.mk msg }
    := by
  refine ⟨lineOpen ++ (msg ++ lineClose), rfl, ?_⟩
  intro ws rest hws
  have hhead : ∀ c ∈ ((lineOpen ++ (msg ++ lineClose)) ++ rest).head?, isJsonSpace c = false := by
    intro c hc
    have : c = '\x7b' := by
      simp [lineOpen] at hc
      exact hc.symm
    rw [this]; decide
  have e1 : (ws ++ ((lineOpen ++ (msg ++ lineClose)) ++ rest)).dropWhile isJsonSpace
      = lineOpen ++ ((msg ++ lineClose) ++ rest) := by
    rw [List.dropWhile_append_of_pos hws, dropWhile_self_of_head _ hhead, List.append_assoc]
  have e2 : (ws ++ ((lineOpen ++ (msg ++ lineClose)) ++ rest)).takeWhile isJsonSpace = ws := by
    rw [List.takeWhile_append_of_pos hws, takeWhile_nil_of_head _ hhead, List.append_nil]
  have hq : ∀ c ∈ (lineClose ++ rest).head?, (fun c => c != '\"') c = false := by
    intro c hc
    have : c = '\"' := by
      simp [lineClose] at hc
      exact hc.symm
    rw [this]; decide
  have e3 : ((msg ++ lineClose) ++ rest).takeWhile (fun c => c != '\"') = msg := by
    rw [List.append_assoc, List.takeWhile_append_of_pos hmsg, takeWhile_nil_of_head _ hq,
      List.append_nil]
  have e4 : ((msg ++ lineClose) ++ rest).dropWhile (fun c => c != '\"') = lineClose ++ rest := by
    rw [List.append_assoc, List.dropWhile_append_of_pos hmsg, dropWhile_self_of_head _ hq]
  constructor
  · unfold More
    rw [e1]
    rfl
  · unfold sampleJsonDecode
    rw [e1, e2, dropLit_append]
    simp only [e3, e4, dropLit_append]
    simp [Nat.add_assoc]

theorem limitStep_zero (l : List LogRecord) : limitStep 0 l = l := by
  simp [limitStep]

theorem limitStep_pos (n : Nat) (l : List LogRecord) (hn : 0 < n) :
    limitStep (n : Int) l = l.take (min n l.length) := by
  unfold limitStep
  by_cases h : n < l.length
  · have h1 : (n : Int) < (l.length : Int) := by exact_mod_cast h
    have h2 : (n : Int) > 0 := by exact_mod_cast hn
    simp [h1, h2, Nat.min_eq_left (Nat.le_of_lt h)]
  · have h1 : ¬ (n : Int) < (l.length : Int) := by exact_mod_cast h
    simp [h1, Nat.min_eq_right (Nat.le_of_not_lt h)]

theorem queryLimit_none (s : String) (h : Atoi s.data = none) : queryLimit s = 0 := by
  unfold queryLimit
  split_ifs
  · rw [h]
  · rfl

theorem queryLimit_some (s : String) (v : Int) (hne : s.data ≠ []) (h : Atoi s.data = some v) :
    queryLimit s = if v > 0 then v else 0 := by
  have hs : s ≠ "" := fun e => hne (by rw [e])
  unfold queryLimit
  rw [if_pos hs, h]

theorem queryLimit_empty : queryLimit "" = 0 := by
  decide

/-- The limit computed from a text of digits, with or without a leading plus sign. -/
theorem queryLimit_digits (s : String) (ds : List Char)
    (hs : s.data = ds ∨ s.data = '+' :: ds) (hne : ds ≠ []) (hd : ∀ c ∈ ds, isDigit c = true) :
    queryLimit s = if decimalValue ds < 2 ^ 63 then (decimalValue ds : Int) else 0 := by
  have hA : Atoi s.data
      = if decimalValue ds < 2 ^ 63 then some (decimalValue ds : Int) else none := by
    rcases hs with hs | hs
    · rw [hs]; exact Atoi_digits ds hne hd
    · rw [hs]; exact Atoi_plus ds hne hd
  have hsne : s.data ≠ [] := by
    rcases hs with hs | hs <;> rw [hs]
    · exact hne
    · simp
  by_cases hv : decimalValue ds < 2 ^ 63
  · rw [if_pos hv] at hA
    rw [queryLimit_some s _ hsne hA, if_pos hv]
    by_cases h0 : (decimalValue ds : Int) > 0
    · rw [if_pos h0]
    · rw [if_neg h0]; omega
  · rw [if_neg hv] at hA
    rw [queryLimit_none s hA, if_neg hv]

/-- A message that holds `Security-Auditing` and whose lower-cased text has none of
`login`, `logout`, `session terminated` is classified as `windows.login` from `windows`. -/
theorem extract_windows_category (T : CaseTables) (now : Int) (pre rest : String)
    (h1 : Contains (ToLower T (pre ++ "Security-Auditing" ++ rest).data) "login".data = false)
    (h2 : Contains (ToLower T (pre ++ "Security-Auditing" ++ rest).data) "logout".data = false)
    (h3 : Contains (ToLower T (pre ++ "Security-Auditing" ++ rest).data)
      "session terminated".data = false) :
    (extract T now (pre ++ "Security-Auditing" ++ rest)).EventCategory = "windows.login" ∧
    (extract T now (pre ++ "Security-Auditing" ++ rest)).EventSource = "windows" := by
  have hkw : Contains (ToLower T (pre ++ "Security-Auditing" ++ rest).data)
      "security-auditing".data = true := by
    have e1 : (pre ++ "Security-Auditing" ++ rest).data
        = pre.data ++ ("Security-Auditing".data ++ rest.data) := by
      simp [String.data_append]
    have e2 : ToLower T "Security-Auditing".data = "security-auditing".data := by
      rw [ToLower_ascii T _ (by decide)]; decide
    rw [e1]
    simp only [ToLower, List.map_append] at e2 ⊢
    rw [e2]
    exact Contains_mid _ _ _
  have hcat := parseCategory_windows_login T _ h1 h2 h3 hkw
  exact ⟨by rw [(extract_category T now _).1, hcat], by rw [(extract_category T now _).2, hcat]⟩

/-- A message that ends in ` Account Name: Administrator`, in which the generic user
pattern has no match and no match of the `Account Name:` pattern starts earlier, gets the
username `Administrator` and is blacklisted. -/
theorem extract_windows_username (T : CaseTables) (now : Int) (front : String)
    (h4 : reUser (front ++ " Account Name: Administrator").data = none)
    (h5 : startsWithin reWinUserAt (front ++ " ").data "Account Name: Administrator".data
      = false) :
    (extract T now (front ++ " Account Name: Administrator")).Username = "Administrator" ∧
    (extract T now (front ++ " Account Name: Administrator")).IsBlacklisted = true := by
  have hwin : reWinUser (front ++ " Account Name: Administrator").data
      = some "Administrator".data := by
    have e1 : (front ++ " Account Name: Administrator").data
        = (front ++ " ").data ++ "Account Name: Administrator".data := by
      simp [String.data_append]
    rw [e1]
    unfold reWinUser
    rw [leftmost_skip _ _ _ h5]
    exact leftmost_head _ _ _ (by decide!)
  have hu : (extract T now (front ++ " Account Name: Administrator")).Username
      = "Administrator" := by
    rw [extract_Username, h4, hwin]
  exact ⟨hu, by rw [extract_IsBlacklisted, hu]; decide⟩

/-! ### The call `sort.Slice` returns a sorted rearrangement -/

theorem Less_iff (data : List LogRecord) (i j : Nat) :
    Less data i j = true ↔ key data i < key data j := by
  simp [Less, key]

theorem Less_false_iff (data : List LogRecord) (i j : Nat) :
    Less data i j = false ↔ key data j ≤ key data i := by
  simp [Less, key]

theorem Swap_length (data : List LogRecord) (i j : Nat) : (Swap data i j).length = data.length := by
  simp [Swap]

theorem recAt_Swap (data : List LogRecord) (i j k : Nat) (hi : i < data.length)
    (hj : j < data.length) :
    recAt (Swap data i j) k
      = if k = j then recAt data i else if k = i then recAt data j else recAt data k := by
  unfold Swap recAt
  simp only [List.getD_eq_getElem?_getD, List.getElem?_set]
  by_cases h1 : j = k
  · subst h1
    simp [hj]
  · have h1' : ¬ k = j := fun e => h1 e.symm
    by_cases h2 : i = k
    · subst h2
      simp [h1, hi, h1']
    · have h2' : ¬ k = i := fun e => h2 e.symm
      simp [h1, h2, h1', h2']

theorem count_set_add (l : List LogRecord) (n : Nat) (h : n < l.length) (b a : LogRecord) :
    List.count a (l.set n b) + (if recAt l n = a then 1 else 0)
      = List.count a l + (if b = a then 1 else 0) := by
  induction l generalizing n with
  | nil => simp at h
  | cons x xs ih =>
    cases n with
    | zero =>
      simp only [List.set_cons_zero, List.count_cons, recAt, List.getD_cons_zero, beq_iff_eq]
      omega
    | succ m =>
      have hm : m < xs.length := by simpa using h
      have := ih m hm
      simp only [List.set_cons_succ, List.count_cons, recAt, List.getD_cons_succ, beq_iff_eq] at this ⊢
      omega

theorem recAt_set_self (l : List LogRecord) (n : Nat) (h : n < l.length) (b : LogRecord) :
    recAt (l.set n b) n = b := by
  simp [recAt, h]

theorem recAt_set_ne (l : List LogRecord) (n k : Nat) (h : n ≠ k) (b : LogRecord) :
    recAt (l.set n b) k = recAt l k := by
  simp [recAt, List.getElem?_set, h]

theorem Swap_perm (data : List LogRecord) (i j : Nat) (hi : i < data.length)
    (hj : j < data.length) : (Swap data i j).Perm data := by
  rw [List.perm_iff_count]
  intro a
  have h1 := count_set_add data i hi (recAt data j) a
  have hj1 : j < (data.set i (recAt data j)).length := by simpa using hj
  have h2 := count_set_add (data.set i (recAt data j)) j hj1 (recAt data i) a
  have h3 : recAt (data.set i (recAt data j)) j = recAt data j := by
    by_cases e : i = j
    · subst e
      exact recAt_set_self data i hi _
    · exact recAt_set_ne data i j e _
  rw [h3] at h2
  unfold Swap
  omega

theorem Rearr_refl (data : List LogRecord) (a b : Nat) : Rearr data data a b :=
  ⟨rfl, List.Perm.refl _, fun _ _ => rfl, fun k h1 h2 => ⟨k, h1, h2, rfl⟩⟩

theorem Rearr_trans {d1 d2 d3 : List LogRecord} {a b : Nat} (h12 : Rearr d1 d2 a b)
    (h23 : Rearr d2 d3 a b) : Rearr d1 d3 a b := by
  obtain ⟨l1, p1, o1, f1⟩ := h12
  obtain ⟨l2, p2, o2, f2⟩ := h23
  refine ⟨l2.trans l1, p2.trans p1, fun k hk => (o2 k hk).trans (o1 k hk), ?_⟩
  intro k h1 h2
  obtain ⟨k1, a1, b1, e1⟩ := f2 k h1 h2
  obtain ⟨k2, a2, b2, e2⟩ := f1 k1 a1 b1
  exact ⟨k2, a2, b2, e1.trans e2⟩

theorem Rearr_mono {d1 d2 : List LogRecord} {a b a1 b1 : Nat} (h : Rearr d1 d2 a b)
    (ha : a1 ≤ a) (hb : b ≤ b1) : Rearr d1 d2 a1 b1 := by
  obtain ⟨l1, p1, o1, f1⟩ := h
  refine ⟨l1, p1, fun k hk => o1 k (by omega), ?_⟩
  intro k h1 h2
  by_cases hin : a ≤ k ∧ k < b
  · obtain ⟨k1, a2, b2, e2⟩ := f1 k hin.1 hin.2
    exact ⟨k1, by omega, by omega, e2⟩
  · exact ⟨k, h1, h2, o1 k (by omega)⟩

theorem Rearr_Swap (data : List LogRecord) (a b i j : Nat) (hb : b ≤ data.length)
    (hi1 : a ≤ i) (hi2 : i < b) (hj1 : a ≤ j) (hj2 : j < b) : Rearr data (Swap data i j) a b := by
  have hi : i < data.length := by omega
  have hj : j < data.length := by omega
  refine ⟨Swap_length _ _ _, Swap_perm _ _ _ hi hj, ?_, ?_⟩
  · intro k hk
    rw [recAt_Swap _ _ _ _ hi hj]
    have e1 : ¬ k = j := by omega
    have e2 : ¬ k = i := by omega
    simp [e1, e2]
  · intro k h1 h2
    rw [recAt_Swap _ _ _ _ hi hj]
    by_cases e1 : k = j
    · exact ⟨i, hi1, hi2, by rw [if_pos e1]⟩
    · by_cases e2 : k = i
      · exact ⟨j, hj1, hj2, by rw [if_neg e1, if_pos e2]⟩
      · exact ⟨k, h1, h2, by rw [if_neg e1, if_neg e2]⟩

theorem key_Swap (data : List LogRecord) (i j k : Nat) (hi : i < data.length)
    (hj : j < data.length) :
    key (Swap data i j) k
      = if k = j then key data i else if k = i then key data j else key data k := by
  unfold key
  rw [recAt_Swap _ _ _ _ hi hj]
  split
  · rfl
  · split <;> rfl

theorem Rearr_key_outside {d1 d2 : List LogRecord} {a b : Nat} (h : Rearr d1 d2 a b) (k : Nat)
    (hk : k < a ∨ b ≤ k) : key d2 k = key d1 k := by
  unfold key
  rw [h.2.2.1 k hk]

theorem Rearr_key_inside {d1 d2 : List LogRecord} {a b : Nat} (h : Rearr d1 d2 a b) (k : Nat)
    (h1 : a ≤ k) (h2 : k < b) : ∃ k1, a ≤ k1 ∧ k1 < b ∧ key d2 k = key d1 k1 := by
  obtain ⟨k1, a1, b1, e⟩ := h.2.2.2 k h1 h2
  exact ⟨k1, a1, b1, by unfold key; rw [e]⟩

theorem insertDown_spec (a i : Nat) : ∀ (j : Nat) (data : List LogRecord), a ≤ j → j ≤ i →
    i < data.length → SortedOn data a j → SortedOn data j (i + 1) →
    (∀ p q, a ≤ p → p < j → j < q → q ≤ i → key data p ≤ key data q) →
    SortedOn (insertDown a j data) a (i + 1) ∧ Rearr data (insertDown a j data) a (i + 1) := by
  intro j
  induction j with
  | zero =>
    intro data ha _ _ _ h2 _
    have : a = 0 := by omega
    subst this
    exact ⟨h2, Rearr_refl _ _ _⟩
  | succ j ih =>
    intro data ha hji hlen h1 h2 h3
    unfold insertDown
    by_cases hc : j + 1 > a ∧ Less data (j + 1) j = true
    · rw [if_pos hc]
      have hlt : key data (j + 1) < key data j := (Less_iff _ _ _).1 hc.2
      have hj1 : j + 1 < data.length := by omega
      have hj0 : j < data.length := by omega
      have hk : ∀ k, key (Swap data (j + 1) j) k
          = if k = j then key data (j + 1) else if k = j + 1 then key data j else key data k :=
        fun k => key_Swap data (j + 1) j k hj1 hj0
      have hl : i < (Swap data (j + 1) j).length := by rw [Swap_length]; exact hlen
      have r := ih (Swap data (j + 1) j) (by omega) (by omega) hl ?_ ?_ ?_
      · refine ⟨r.1, Rearr_trans (Rearr_Swap data a (i + 1) (j + 1) j (by omega) (by omega)
          (by omega) (by omega) (by omega)) r.2⟩
      · intro p q hp hpq hq
        rw [hk p, hk q, if_neg (by omega), if_neg (by omega), if_neg (by omega), if_neg (by omega)]
        exact h1 p q hp hpq (by omega)
      · intro p q hp hpq hq
        rw [hk p, hk q]
        by_cases e1 : p = j
        · rw [if_pos e1]
          by_cases e2 : q = j
          · rw [if_pos e2]
          · rw [if_neg e2]
            by_cases e3 : q = j + 1
            · rw [if_pos e3]; exact le_of_lt hlt
            · rw [if_neg e3]; exact h2 (j + 1) q (by omega) (by omega) hq
        · rw [if_neg e1]
          by_cases e4 : p = j + 1
          · rw [if_pos e4, if_neg (by omega)]
            by_cases e3 : q = j + 1
            · rw [if_pos e3]
            · rw [if_neg e3]; exact h3 j q (by omega) (by omega) (by omega) (by omega)
          · rw [if_neg e4, if_neg (by omega), if_neg (by omega)]
            exact h2 p q (by omega) hpq hq
      · intro p q hp hpj hjq hqi
        rw [hk p, hk q, if_neg (by omega), if_neg (by omega), if_neg (by omega)]
        by_cases e3 : q = j + 1
        · rw [if_pos e3]; exact h1 p j hp (by omega) (by omega)
        · rw [if_neg e3]; exact h3 p q hp (by omega) (by omega) hqi
    · rw [if_neg hc]
      refine ⟨?_, Rearr_refl _ _ _⟩
      by_cases ha1 : j + 1 > a
      · have hle : key data j ≤ key data (j + 1) := by
          rw [← Less_false_iff]
          by_contra hne
          exact hc ⟨ha1, by simpa using hne⟩
        intro p q hp hpq hq
        by_cases c1 : q < j + 1
        · exact h1 p q hp hpq c1
        · by_cases c2 : j + 1 ≤ p
          · exact h2 p q c2 hpq hq
          · exact le_trans (h1 p j hp (by omega) (by omega))
              (le_trans hle (h2 (j + 1) q (by omega) (by omega) hq))
      · have : a = j + 1 := by omega
        rw [this]
        exact h2

theorem insertFrom_spec (a : Nat) : ∀ (n i : Nat) (data : List LogRecord), a < i →
    i + n ≤ data.length → SortedOn data a i →
    SortedOn (insertFrom a n i data) a (i + n) ∧ Rearr data (insertFrom a n i data) a (i + n) := by
  intro n
  induction n with
  | zero =>
    intro i data _ _ h
    exact ⟨h, Rearr_refl _ _ _⟩
  | succ n ih =>
    intro i data hai hlen h
    unfold insertFrom
    have r1 := insertDown_spec a i i data (by omega) (le_refl _) (by omega) h
      (fun p q hp hpq hq => by
        have e1 : p = i := by omega
        have e2 : q = i := by omega
        rw [e1, e2])
      (fun p q _ _ h3 h4 => by omega)
    have hl : (insertDown a i data).length = data.length := r1.2.1
    have r2 := ih (i + 1) (insertDown a i data) (by omega) (by rw [hl]; omega) r1.1
    have e : i + 1 + n = i + (n + 1) := by omega
    rw [e] at r2
    exact ⟨r2.1, Rearr_trans (Rearr_mono r1.2 (le_refl _) (by omega)) r2.2⟩

theorem insertionSort_func_spec (data : List LogRecord) (a b : Nat) (hb : b ≤ data.length) :
    SortedOn (insertionSort_func data a b) a b ∧ Rearr data (insertionSort_func data a b) a b := by
  unfold insertionSort_func
  by_cases h : a < b
  · have r := insertFrom_spec a (b - (a + 1)) (a + 1) data (by omega) (by omega)
      (fun p q hp hpq hq => by
        have e1 : p = a := by omega
        have e2 : q = a := by omega
        rw [e1, e2])
    have e : a + 1 + (b - (a + 1)) = b := by omega
    rw [e] at r
    exact r
  · have e : b - (a + 1) = 0 := by omega
    rw [e]
    exact ⟨fun p q hp hpq hq => by omega, Rearr_refl _ _ _⟩

theorem scanLess_spec (data : List LogRecord) (a j : Nat) : ∀ (n i : Nat), j + 1 - i ≤ n →
    i ≤ j + 1 →
    i ≤ scanLess data a j n i ∧ scanLess data a j n i ≤ j + 1 ∧
    (∀ k, i ≤ k → k < scanLess data a j n i → key data k < key data a) ∧
    (scanLess data a j n i ≤ j → key data a ≤ key data (scanLess data a j n i)) := by
  intro n
  induction n with
  | zero =>
    intro i hn hi
    unfold scanLess
    exact ⟨le_refl _, hi, fun k h1 h2 => by omega, fun h => by omega⟩
  | succ n ih =>
    intro i hn hi
    unfold scanLess
    by_cases hc : i ≤ j ∧ Less data i a = true
    · rw [if_pos hc]
      have r := ih (i + 1) (by omega) (by omega)
      refine ⟨by omega, r.2.1, ?_, r.2.2.2⟩
      intro k h1 h2
      by_cases e : k = i
      · rw [e]; exact (Less_iff _ _ _).1 hc.2
      · exact r.2.2.1 k (by omega) h2
    · rw [if_neg hc]
      refine ⟨le_refl _, hi, fun k h1 h2 => by omega, ?_⟩
      intro h
      rw [← Less_false_iff]
      by_contra hne
      exact hc ⟨h, by simpa using hne⟩

theorem scanNotLess_spec (data : List LogRecord) (a i : Nat) : ∀ (n j : Nat), j + 1 - i ≤ n →
    i ≤ j + 1 → 1 ≤ i →
    scanNotLess data a i n j ≤ j ∧ i ≤ scanNotLess data a i n j + 1 ∧
    (∀ k, scanNotLess data a i n j < k → k ≤ j → key data a ≤ key data k) ∧
    (i ≤ scanNotLess data a i n j → key data (scanNotLess data a i n j) < key data a) := by
  intro n
  induction n with
  | zero =>
    intro j hn hi h1
    unfold scanNotLess
    exact ⟨le_refl _, hi, fun k h1 h2 => by omega, fun h => by omega⟩
  | succ n ih =>
    intro j hn hi h1
    unfold scanNotLess
    by_cases hc : i ≤ j ∧ Less data j a = false
    · rw [if_pos hc]
      have r := ih (j - 1) (by omega) (by omega) h1
      refine ⟨by omega, r.2.1, ?_, r.2.2.2⟩
      intro k h2 h3
      by_cases e : k = j
      · rw [e]; exact (Less_false_iff _ _ _).1 hc.2
      · exact r.2.2.1 k h2 (by omega)
    · rw [if_neg hc]
      refine ⟨le_refl _, hi, fun k h1 h2 => by omega, ?_⟩
      intro h
      rw [← Less_iff]
      by_contra hne
      exact hc ⟨h, by simpa using hne⟩

theorem partitionLoop_spec (d0 : List LogRecord) (a b : Nat) : ∀ (n i j : Nat)
    (data : List LogRecord), j + 1 - i ≤ n → PartInv d0 data a b i j →
    PartInv d0 (partitionLoop a n i j data).1 a b ((partitionLoop a n i j data).2 + 1)
      (partitionLoop a n i j data).2 := by
  intro n
  induction n with
  | zero =>
    intro i j data hn h
    unfold partitionLoop
    obtain ⟨h1, h2, h3, h4, h5, h6, h7⟩ := h
    have e : i = j + 1 := by omega
    subst e
    exact ⟨h1, le_refl _, h3, h4, h5, h6, h7⟩
  | succ n ih =>
    intro i j data hn h
    obtain ⟨h1, h2, h3, h4, h5, h6, h7⟩ := h
    unfold partitionLoop
    simp only []
    have s1 := scanLess_spec data a j (j + 1 - i) i (le_refl _) h2
    generalize scanLess data a j (j + 1 - i) i = i1 at s1 ⊢
    have s2 := scanNotLess_spec data a i1 (j + 1 - i1) j (le_refl _) s1.2.1 (by omega)
    generalize scanNotLess data a i1 (j + 1 - i1) j = j1 at s2 ⊢
    have hlow : ∀ k, a + 1 ≤ k → k < i1 → key data k < key data a := by
      intro k hk1 hk2
      by_cases c : k < i
      · exact h5 k hk1 c
      · exact s1.2.2.1 k (by omega) hk2
    have hhigh : ∀ k, j1 < k → k < b → key data a ≤ key data k := by
      intro k hk1 hk2
      by_cases c : j < k
      · exact h6 k c hk2
      · exact s2.2.2.1 k hk1 (by omega)
    by_cases hc : i1 > j1
    · rw [if_pos hc]
      have e : i1 = j1 + 1 := by omega
      exact ⟨by omega, le_refl _, by omega, h4, by rw [← e]; exact hlow, hhigh, h7⟩
    · rw [if_neg hc]
      have hle : i1 ≤ j1 := by omega
      have k1 := s1.2.2.2 (by omega)
      have k2 := s2.2.2.2 hle
      have hne : i1 ≠ j1 := by
        intro e
        rw [e] at k1
        omega
      have hi1 : i1 < data.length := by omega
      have hj1 : j1 < data.length := by omega
      have hk : ∀ k, key (Swap data i1 j1) k
          = if k = j1 then key data i1 else if k = i1 then key data j1 else key data k :=
        fun k => key_Swap data i1 j1 k hi1 hj1
      have hka : key (Swap data i1 j1) a = key data a := by
        rw [hk a, if_neg (by omega), if_neg (by omega)]
      apply ih (i1 + 1) (j1 - 1) (Swap data i1 j1) (by omega)
      refine ⟨by omega, by omega, by omega, by rw [Swap_length]; exact h4, ?_, ?_, ?_⟩
      · intro k hk1 hk2
        rw [hka, hk k, if_neg (show ¬ k = j1 by omega)]
        by_cases e : k = i1
        · rw [if_pos e]; exact k2
        · rw [if_neg e]; exact hlow k hk1 (by omega)
      · intro k hk1 hk2
        rw [hka, hk k]
        by_cases e : k = j1
        · rw [if_pos e]; exact k1
        · rw [if_neg e, if_neg (show ¬ k = i1 by omega)]; exact hhigh k (by omega) hk2
      · exact Rearr_trans h7 (Rearr_Swap data (a + 1) b i1 j1 h4 (by omega) (by omega)
          (by omega) (by omega))

theorem partition_func_eq (data : List LogRecord) (a b pivot : Nat) :
    (partition_func data a b pivot).1
      = Swap (partitionLoop a (b - a + 1) (a + 1) (b - 1) (Swap data a pivot)).1
          (partitionLoop a (b - a + 1) (a + 1) (b - 1) (Swap data a pivot)).2 a ∧
    (partition_func data a b pivot).2.1
      = (partitionLoop a (b - a + 1) (a + 1) (b - 1) (Swap data a pivot)).2 := by
  unfold partition_func
  rw [partitionLoop]
  simp only []
  split <;> exact ⟨rfl, rfl⟩

/-- What `partition_func` promises: the new pivot index is in the part, the elements before
it are smaller than the pivot and the elements after it are not. -/
theorem partition_func_spec (data : List LogRecord) (a b pivot : Nat) (hab : a < b)
    (hb : b ≤ data.length) (hp1 : a ≤ pivot) (hp2 : pivot < b) :
    a ≤ (partition_func data a b pivot).2.1 ∧ (partition_func data a b pivot).2.1 < b ∧
    Rearr data (partition_func data a b pivot).1 a b ∧
    (∀ k, a ≤ k → k < (partition_func data a b pivot).2.1 →
      key (partition_func data a b pivot).1 k
        ≤ key (partition_func data a b pivot).1 (partition_func data a b pivot).2.1) ∧
    (∀ k, (partition_func data a b pivot).2.1 < k → k < b →
      key (partition_func data a b pivot).1 (partition_func data a b pivot).2.1
        ≤ key (partition_func data a b pivot).1 k) := by
  obtain ⟨e1, e2⟩ := partition_func_eq data a b pivot
  rw [e1, e2]
  have hl0 : (Swap data a pivot).length = data.length := Swap_length _ _ _
  have inv0 : PartInv (Swap data a pivot) (Swap data a pivot) a b (a + 1) (b - 1) :=
    ⟨le_refl _, by omega, by omega, by rw [hl0]; exact hb, fun k h1 h2 => by omega,
      fun k h1 h2 => by omega, Rearr_refl _ _ _⟩
  have r := partitionLoop_spec (Swap data a pivot) a b (b - a + 1) (a + 1) (b - 1)
    (Swap data a pivot) (by omega) inv0
  generalize partitionLoop a (b - a + 1) (a + 1) (b - 1) (Swap data a pivot) = res at r
  obtain ⟨h1, h2, h3, h4, h5, h6, h7⟩ := r
  have hm : res.2 < res.1.length := by omega
  have ha : a < res.1.length := by omega
  have hk : ∀ k, key (Swap res.1 res.2 a) k
      = if k = a then key res.1 res.2 else if k = res.2 then key res.1 a else key res.1 k :=
    fun k => key_Swap res.1 res.2 a k hm ha
  have hkm : key (Swap res.1 res.2 a) res.2 = key res.1 a := by
    rw [hk res.2]
    by_cases e : res.2 = a
    · rw [if_pos e, e]
    · rw [if_neg e, if_pos rfl]
  refine ⟨by omega, by omega, ?_, ?_, ?_⟩
  · exact Rearr_trans (Rearr_Swap data a b a pivot hb (le_refl _) hab hp1 hp2)
      (Rearr_trans (Rearr_mono h7 (by omega) (le_refl _))
        (Rearr_Swap res.1 a b res.2 a h4 (by omega) (by omega) (le_refl _) hab))
  · intro k hk1 hk2
    rw [hkm, hk k]
    by_cases e : k = a
    · rw [if_pos e]
      exact le_of_lt (h5 res.2 (by omega) (by omega))
    · rw [if_neg e, if_neg (show ¬ k = res.2 by omega)]
      exact le_of_lt (h5 k (by omega) (by omega))
  · intro k hk1 hk2
    rw [hkm, hk k, if_neg (show ¬ k = a by omega), if_neg (show ¬ k = res.2 by omega)]
    exact h6 k hk1 hk2

theorem scanNotGreater_spec (data : List LogRecord) (a j : Nat) : ∀ (n i : Nat),
    j + 1 - i ≤ n → i ≤ j + 1 →
    i ≤ scanNotGreater data a j n i ∧ scanNotGreater data a j n i ≤ j + 1 ∧
    (∀ k, i ≤ k → k < scanNotGreater data a j n i → key data k ≤ key data a) ∧
    (scanNotGreater data a j n i ≤ j → key data a < key data (scanNotGreater data a j n i)) := by
  intro n
  induction n with
  | zero =>
    intro i hn hi
    unfold scanNotGreater
    exact ⟨le_refl _, hi, fun k h1 h2 => by omega, fun h => by omega⟩
  | succ n ih =>
    intro i hn hi
    unfold scanNotGreater
    by_cases hc : i ≤ j ∧ Less data a i = false
    · rw [if_pos hc]
      have r := ih (i + 1) (by omega) (by omega)
      refine ⟨by omega, r.2.1, ?_, r.2.2.2⟩
      intro k h1 h2
      by_cases e : k = i
      · rw [e]; exact (Less_false_iff _ _ _).1 hc.2
      · exact r.2.2.1 k (by omega) h2
    · rw [if_neg hc]
      refine ⟨le_refl _, hi, fun k h1 h2 => by omega, ?_⟩
      intro h
      rw [← Less_iff]
      by_contra hne
      exact hc ⟨h, by simpa using hne⟩

theorem scanGreater_spec (data : List LogRecord) (a i : Nat) : ∀ (n j : Nat), j + 1 - i ≤ n →
    i ≤ j + 1 → 1 ≤ i →
    scanGreater data a i n j ≤ j ∧ i ≤ scanGreater data a i n j + 1 ∧
    (∀ k, scanGreater data a i n j < k → k ≤ j → key data a < key data k) ∧
    (i ≤ scanGreater data a i n j → key data (scanGreater data a i n j) ≤ key data a) := by
  intro n
  induction n with
  | zero =>
    intro j hn hi h1
    unfold scanGreater
    exact ⟨le_refl _, hi, fun k h1 h2 => by omega, fun h => by omega⟩
  | succ n ih =>
    intro j hn hi h1
    unfold scanGreater
    by_cases hc : i ≤ j ∧ Less data a j = true
    · rw [if_pos hc]
      have r := ih (j - 1) (by omega) (by omega) h1
      refine ⟨by omega, r.2.1, ?_, r.2.2.2⟩
      intro k h2 h3
      by_cases e : k = j
      · rw [e]; exact (Less_iff _ _ _).1 hc.2
      · exact r.2.2.1 k h2 (by omega)
    · rw [if_neg hc]
      refine ⟨le_refl _, hi, fun k h1 h2 => by omega, ?_⟩
      intro h
      rw [← Less_false_iff]
      by_contra hne
      exact hc ⟨h, by simpa using hne⟩

theorem partitionEqualLoop_spec (d0 : List LogRecord) (a b : Nat) : ∀ (n i j : Nat)
    (data : List LogRecord), j + 1 - i ≤ n → PartEqInv d0 data a b i j →
    a + 1 ≤ (partitionEqualLoop a n i j data).2 ∧ (partitionEqualLoop a n i j data).2 ≤ b ∧
    b ≤ (partitionEqualLoop a n i j data).1.length ∧
    (∀ k, a + 1 ≤ k → k < (partitionEqualLoop a n i j data).2 →
      key (partitionEqualLoop a n i j data).1 k ≤ key (partitionEqualLoop a n i j data).1 a) ∧
    (∀ k, (partitionEqualLoop a n i j data).2 ≤ k → k < b →
      key (partitionEqualLoop a n i j data).1 a < key (partitionEqualLoop a n i j data).1 k) ∧
    Rearr d0 (partitionEqualLoop a n i j data).1 (a + 1) b := by
  intro n
  induction n with
  | zero =>
    intro i j data hn h
    unfold partitionEqualLoop
    obtain ⟨h1, h2, h3, h4, h5, h6, h7⟩ := h
    have e : i = j + 1 := by omega
    subst e
    exact ⟨h1, h3, h4, h5, fun k hk1 hk2 => h6 k (by omega) hk2, h7⟩
  | succ n ih =>
    intro i j data hn h
    obtain ⟨h1, h2, h3, h4, h5, h6, h7⟩ := h
    unfold partitionEqualLoop
    simp only []
    have s1 := scanNotGreater_spec data a j (j + 1 - i) i (le_refl _) h2
    generalize scanNotGreater data a j (j + 1 - i) i = i1 at s1 ⊢
    have s2 := scanGreater_spec data a i1 (j + 1 - i1) j (le_refl _) s1.2.1 (by omega)
    generalize scanGreater data a i1 (j + 1 - i1) j = j1 at s2 ⊢
    have hlow : ∀ k, a + 1 ≤ k → k < i1 → key data k ≤ key data a := by
      intro k hk1 hk2
      by_cases c : k < i
      · exact h5 k hk1 c
      · exact s1.2.2.1 k (by omega) hk2
    have hhigh : ∀ k, j1 < k → k < b → key data a < key data k := by
      intro k hk1 hk2
      by_cases c : j < k
      · exact h6 k c hk2
      · exact s2.2.2.1 k hk1 (by omega)
    by_cases hc : i1 > j1
    · rw [if_pos hc]
      exact ⟨by omega, by omega, h4, hlow, fun k hk1 hk2 => hhigh k (by omega) hk2, h7⟩
    · rw [if_neg hc]
      have hle : i1 ≤ j1 := by omega
      have k1 := s1.2.2.2 (by omega)
      have k2 := s2.2.2.2 hle
      have hne : i1 ≠ j1 := by
        intro e
        rw [e] at k1
        omega
      have hi1 : i1 < data.length := by omega
      have hj1 : j1 < data.length := by omega
      have hk : ∀ k, key (Swap data i1 j1) k
          = if k = j1 then key data i1 else if k = i1 then key data j1 else key data k :=
        fun k => key_Swap data i1 j1 k hi1 hj1
      have hka : key (Swap data i1 j1) a = key data a := by
        rw [hk a, if_neg (by omega), if_neg (by omega)]
      apply ih (i1 + 1) (j1 - 1) (Swap data i1 j1) (by omega)
      refine ⟨by omega, by omega, by omega, by rw [Swap_length]; exact h4, ?_, ?_, ?_⟩
      · intro k hk1 hk2
        rw [hka, hk k, if_neg (show ¬ k = j1 by omega)]
        by_cases e : k = i1
        · rw [if_pos e]; exact k2
        · rw [if_neg e]; exact hlow k hk1 (by omega)
      · intro k hk1 hk2
        rw [hka, hk k]
        by_cases e : k = j1
        · rw [if_pos e]; exact k1
        · rw [if_neg e, if_neg (show ¬ k = i1 by omega)]; exact hhigh k (by omega) hk2
      · exact Rearr_trans h7 (Rearr_Swap data (a + 1) b i1 j1 h4 (by omega) (by omega)
          (by omega) (by omega))

/-- What `partitionEqual_func` promises: the elements before the new start are not greater
than the pivot and the elements from it on are greater. -/
theorem partitionEqual_func_spec (data : List LogRecord) (a b pivot : Nat) (hab : a < b)
    (hb : b ≤ data.length) (hp1 : a ≤ pivot) (hp2 : pivot < b) :
    a < (partitionEqual_func data a b pivot).2 ∧ (partitionEqual_func data a b pivot).2 ≤ b ∧
    Rearr data (partitionEqual_func data a b pivot).1 a b ∧
    (∀ k, a ≤ k → k < (partitionEqual_func data a b pivot).2 →
      key (partitionEqual_func data a b pivot).1 k ≤ key data pivot) ∧
    (∀ k, (partitionEqual_func data a b pivot).2 ≤ k → k < b →
      key data pivot < key (partitionEqual_func data a b pivot).1 k) := by
  unfold partitionEqual_func
  have hl0 : (Swap data a pivot).length = data.length := Swap_length _ _ _
  have inv0 : PartEqInv (Swap data a pivot) (Swap data a pivot) a b (a + 1) (b - 1) :=
    ⟨le_refl _, by omega, by omega, by rw [hl0]; exact hb, fun k h1 h2 => by omega,
      fun k h1 h2 => by omega, Rearr_refl _ _ _⟩
  have r := partitionEqualLoop_spec (Swap data a pivot) a b (b - a + 1) (a + 1) (b - 1)
    (Swap data a pivot) (by omega) inv0
  generalize partitionEqualLoop a (b - a + 1) (a + 1) (b - 1) (Swap data a pivot) = res at r ⊢
  obtain ⟨h1, h2, h4, h5, h6, h7⟩ := r
  have hpa : key res.1 a = key data pivot := by
    rw [Rearr_key_outside h7 a (by omega), key_Swap data a pivot a (by omega) (by omega)]
    by_cases e : a = pivot
    · rw [if_pos e, e]
    · rw [if_neg e, if_pos rfl]
  refine ⟨by omega, h2, ?_, ?_, ?_⟩
  · exact Rearr_trans (Rearr_Swap data a b a pivot hb (le_refl _) hab hp1 hp2)
      (Rearr_mono h7 (by omega) (le_refl _))
  · intro k hk1 hk2
    rw [← hpa]
    by_cases e : k = a
    · rw [e]
    · exact h5 k (by omega) hk2
  · intro k hk1 hk2
    rw [← hpa]
    exact h6 k hk1 hk2

theorem order2_func_mem (data : List LogRecord) (x y s : Nat) :
    ((order2_func data x y s).1 = x ∧ (order2_func data x y s).2.1 = y) ∨
    ((order2_func data x y s).1 = y ∧ (order2_func data x y s).2.1 = x) := by
  unfold order2_func
  split
  · exact Or.inr ⟨rfl, rfl⟩
  · exact Or.inl ⟨rfl, rfl⟩

theorem median_func_mem (data : List LogRecord) (x y z s : Nat) :
    (median_func data x y z s).1 = x ∨ (median_func data x y z s).1 = y ∨
      (median_func data x y z s).1 = z := by
  unfold median_func
  simp only []
  rcases order2_func_mem data x y s with ⟨e1, e2⟩ | ⟨e1, e2⟩ <;>
    rw [e1, e2] <;>
    generalize (order2_func data x y s).2.2 = s1 <;>
    [rcases order2_func_mem data y z s1 with ⟨e3, e4⟩ | ⟨e3, e4⟩;
     rcases order2_func_mem data x z s1 with ⟨e3, e4⟩ | ⟨e3, e4⟩] <;>
    rw [e3] <;>
    [generalize (order2_func data y z s1).2.2 = s2;
     generalize (order2_func data y z s1).2.2 = s2;
     generalize (order2_func data x z s1).2.2 = s2;
     generalize (order2_func data x z s1).2.2 = s2] <;>
    [rcases order2_func_mem data x y s2 with ⟨e5, e6⟩ | ⟨e5, e6⟩;
     rcases order2_func_mem data x z s2 with ⟨e5, e6⟩ | ⟨e5, e6⟩;
     rcases order2_func_mem data y x s2 with ⟨e5, e6⟩ | ⟨e5, e6⟩;
     rcases order2_func_mem data y z s2 with ⟨e5, e6⟩ | ⟨e5, e6⟩] <;>
    rw [e6] <;> simp

theorem choosePivot_func_bounds (data : List LogRecord) (a b : Nat) (hab : a < b) :
    a ≤ (choosePivot_func data a b).1 ∧ (choosePivot_func data a b).1 < b := by
  have hr : ∀ r : Nat × Nat, a ≤ r.1 ∧ r.1 < b →
      a ≤ (if r.2 = 0 then (r.1, sortedHint.increasingHint)
        else if r.2 = 12 then (r.1, sortedHint.decreasingHint)
        else (r.1, sortedHint.unknownHint)).1 ∧
      (if r.2 = 0 then (r.1, sortedHint.increasingHint)
        else if r.2 = 12 then (r.1, sortedHint.decreasingHint)
        else (r.1, sortedHint.unknownHint)).1 < b := by
    intro r h
    split
    · exact h
    · split <;> exact h
  unfold choosePivot_func
  simp only []
  apply hr
  by_cases h8 : b - a ≥ 8
  · rw [if_pos h8]
    by_cases h50 : b - a ≥ 50
    · rw [if_pos h50]
      unfold medianAdjacent_func
      generalize hs0 : (0 : Nat) = s0
      have m1 := median_func_mem data (a + (b - a) / 4 * 1 - 1) (a + (b - a) / 4 * 1)
        (a + (b - a) / 4 * 1 + 1) s0
      generalize median_func data (a + (b - a) / 4 * 1 - 1) (a + (b - a) / 4 * 1)
        (a + (b - a) / 4 * 1 + 1) s0 = ri at m1 ⊢
      have m2 := median_func_mem data (a + (b - a) / 4 * 2 - 1) (a + (b - a) / 4 * 2)
        (a + (b - a) / 4 * 2 + 1) ri.2
      generalize median_func data (a + (b - a) / 4 * 2 - 1) (a + (b - a) / 4 * 2)
        (a + (b - a) / 4 * 2 + 1) ri.2 = rj at m2 ⊢
      have m3 := median_func_mem data (a + (b - a) / 4 * 3 - 1) (a + (b - a) / 4 * 3)
        (a + (b - a) / 4 * 3 + 1) rj.2
      generalize median_func data (a + (b - a) / 4 * 3 - 1) (a + (b - a) / 4 * 3)
        (a + (b - a) / 4 * 3 + 1) rj.2 = rk at m3 ⊢
      have m4 := median_func_mem data ri.1 rj.1 rk.1 rk.2
      generalize median_func data ri.1 rj.1 rk.1 rk.2 = r at m4 ⊢
      omega
    · rw [if_neg h50]
      have m := median_func_mem data (a + (b - a) / 4 * 1) (a + (b - a) / 4 * 2)
        (a + (b - a) / 4 * 3) 0
      generalize median_func data (a + (b - a) / 4 * 1) (a + (b - a) / 4 * 2)
        (a + (b - a) / 4 * 3) 0 = r at m ⊢
      omega
  · rw [if_neg h8]
    simp only []
    omega

theorem reverseLoop_Rearr (a b : Nat) : ∀ (n i j : Nat) (data : List LogRecord), a ≤ i →
    j < b → b ≤ data.length → Rearr data (reverseLoop n i j data) a b := by
  intro n
  induction n with
  | zero =>
    intro i j data _ _ _
    exact Rearr_refl _ _ _
  | succ n ih =>
    intro i j data hi hj hb
    unfold reverseLoop
    by_cases hc : i < j
    · rw [if_pos hc]
      exact Rearr_trans (Rearr_Swap data a b i j hb hi (by omega) (by omega) hj)
        (ih (i + 1) (j - 1) (Swap data i j) (by omega) (by omega) (by rw [Swap_length]; exact hb))
    · rw [if_neg hc]
      exact Rearr_refl _ _ _

theorem reverseRange_func_Rearr (data : List LogRecord) (a b : Nat) (hab : a < b)
    (hb : b ≤ data.length) : Rearr data (reverseRange_func data a b) a b :=
  reverseLoop_Rearr a b (b - a) a (b - 1) data (le_refl _) (by omega) hb

theorem bitsLen_le : ∀ (f n : Nat), n ≤ f → 1 ≤ n → 2 ^ bitsLen f n ≤ 2 * n := by
  intro f
  induction f with
  | zero => intro n h1 h2; omega
  | succ f ih =>
    intro n h1 h2
    unfold bitsLen
    rw [if_neg (by omega)]
    by_cases h : n / 2 = 0
    · rw [h]
      have : bitsLen f 0 = 0 := by
        cases f <;> simp [bitsLen]
      rw [this]
      simp
      omega
    · have r := ih (n / 2) (by omega) (by omega)
      rw [pow_succ]
      omega

theorem breakLoop_Rearr (Next : Nat → Nat) (a b length modulus idx : Nat)
    (hl : a + length = b) (hm : modulus ≤ 2 * length) (hm0 : 0 < modulus)
    (hidx1 : a + 1 ≤ idx) :
    ∀ (n i random : Nat) (data : List LogRecord), idx - 1 + i + n ≤ b → b ≤ data.length →
      Rearr data (breakLoop Next a length modulus idx n i random data) a b := by
  intro n
  induction n with
  | zero =>
    intro i random data _ _
    exact Rearr_refl _ _ _
  | succ n ih =>
    intro i random data hi hb
    unfold breakLoop
    simp only []
    have hmod : Next random % modulus < modulus := Nat.mod_lt _ hm0
    generalize Next random % modulus = o at hmod ⊢
    have ho : (if o ≥ length then o - length else o) < length := by
      split <;> omega
    generalize (if o ≥ length then o - length else o) = other at ho ⊢
    exact Rearr_trans
      (Rearr_Swap data a b (idx - 1 + i) (a + other) hb (by omega) (by omega) (by omega)
        (by omega))
      (ih (i + 1) (Next random) _ (by omega) (by rw [Swap_length]; exact hb))

theorem breakPatterns_func_Rearr (Next : Nat → Nat) (data : List LogRecord) (a b : Nat)
    (hab : a ≤ b) (hb : b ≤ data.length) :
    Rearr data (breakPatterns_func Next data a b) a b := by
  unfold breakPatterns_func
  simp only []
  by_cases h8 : b - a ≥ 8
  · rw [if_pos h8]
    have hp := bitsLen_le (b - a) (b - a) (le_refl _) (by omega)
    have hpos : 0 < 2 ^ bitsLen (b - a) (b - a) := by positivity
    exact breakLoop_Rearr Next a b (b - a) (nextPowerOfTwo (b - a)) (a + (b - a) / 4 * 2 - 1)
      (by omega) hp hpos (by omega) 3 0 (b - a) data (by omega) hb
  · rw [if_neg h8]
    exact Rearr_refl _ _ _

theorem LowerB_Rearr {d1 d2 : List LogRecord} {a b : Nat} (h : LowerB d1 a b)
    (r : Rearr d1 d2 a b) : LowerB d2 a b := by
  intro ha k hk1 hk2
  obtain ⟨k1, a1, b1, e⟩ := Rearr_key_inside r k hk1 hk2
  rw [e, Rearr_key_outside r (a - 1) (by omega)]
  exact h ha k1 a1 b1

theorem SortedOn_congr {d1 d2 : List LogRecord} {a b : Nat}
    (h : ∀ k, a ≤ k → k < b → key d2 k = key d1 k) (s : SortedOn d1 a b) : SortedOn d2 a b := by
  intro p q hp hpq hq
  rw [h p hp (by omega), h q (by omega) hq]
  exact s p q hp hpq hq

theorem SortedOn_extend {data : List LogRecord} {a i i1 : Nat} (s : SortedOn data a i)
    (h : ∀ k, i ≤ k → k < i1 → key data (k - 1) ≤ key data k) :
    SortedOn data a i1 := by
  intro p q
  induction q with
  | zero =>
    intro hp hpq hq
    have : p = 0 := by omega
    rw [this]
  | succ q ih =>
    intro hp hpq hq
    by_cases c : q + 1 < i
    · exact s p (q + 1) hp hpq c
    · by_cases e : p = q + 1
      · rw [e]
      · exact le_trans (ih hp (by omega) (by omega)) (h (q + 1) (by omega) hq)

theorem scanSorted_spec (data : List LogRecord) (b : Nat) : ∀ (n i : Nat), b - i ≤ n → i ≤ b →
    i ≤ scanSorted data b n i ∧ scanSorted data b n i ≤ b ∧
    (∀ k, i ≤ k → k < scanSorted data b n i → key data (k - 1) ≤ key data k) := by
  intro n
  induction n with
  | zero =>
    intro i hn hi
    unfold scanSorted
    exact ⟨le_refl _, hi, fun k h1 h2 => by omega⟩
  | succ n ih =>
    intro i hn hi
    unfold scanSorted
    by_cases hc : i < b ∧ Less data i (i - 1) = false
    · rw [if_pos hc]
      have r := ih (i + 1) (by omega) (by omega)
      refine ⟨by omega, r.2.1, ?_⟩
      intro k h1 h2
      by_cases e : k = i
      · rw [e]; exact (Less_false_iff _ _ _).1 hc.2
      · exact r.2.2 k (by omega) h2
    · rw [if_neg hc]
      exact ⟨le_refl _, hi, fun k h1 h2 => by omega⟩

theorem shiftLeft_eq : ∀ (j : Nat) (data : List LogRecord),
    shiftLeft j data = insertDown 0 j data := by
  intro j
  induction j with
  | zero => intro data; rfl
  | succ j ih =>
    intro data
    unfold shiftLeft insertDown
    by_cases h : Less data (j + 1) j = true
    · rw [if_neg (by simp [h]), if_pos ⟨by omega, h⟩, ih]
    · rw [if_pos (by simpa using h), if_neg (fun c => h c.2)]

theorem insertDown_lower (a : Nat) (ha : 0 < a) : ∀ (j : Nat) (data : List LogRecord), a ≤ j →
    j < data.length → (∀ k, a ≤ k → k ≤ j → key data (a - 1) ≤ key data k) →
    insertDown 0 j data = insertDown a j data := by
  intro j
  induction j with
  | zero => intro data h; omega
  | succ j ih =>
    intro data haj hlen hlow
    unfold insertDown
    by_cases hc : j + 1 > a
    · by_cases hl : Less data (j + 1) j = true
      · rw [if_pos ⟨by omega, hl⟩, if_pos ⟨hc, hl⟩]
        apply ih _ (by omega) (by rw [Swap_length]; omega)
        intro k hk1 hk2
        have hk : ∀ k, key (Swap data (j + 1) j) k
            = if k = j then key data (j + 1) else if k = j + 1 then key data j
              else key data k :=
          fun k => key_Swap data (j + 1) j k hlen (by omega)
        rw [hk k, hk (a - 1), if_neg (show ¬ a - 1 = j by omega),
          if_neg (show ¬ a - 1 = j + 1 by omega)]
        by_cases e : k = j
        · rw [if_pos e]; exact hlow (j + 1) (by omega) (le_refl _)
        · rw [if_neg e, if_neg (show ¬ k = j + 1 by omega)]
          exact hlow k hk1 (by omega)
      · rw [if_neg (fun c => hl c.2), if_neg (fun c => hl c.2)]
    · have e : a = j + 1 := by omega
      have hle := hlow a (le_refl _) haj
      have hf : Less data (j + 1) j = false := by
        rw [Less_false_iff]
        have e2 : a - 1 = j := by omega
        rw [e2, e] at hle
        exact hle
      rw [if_neg (fun c => by rw [hf] at c; exact Bool.noConfusion c.2),
        if_neg (fun c => hc c.1)]

theorem shiftRight_Rearr (lo b : Nat) : ∀ (n j : Nat) (data : List LogRecord), lo + 1 ≤ j →
    b ≤ data.length → Rearr data (shiftRight b n j data) lo b := by
  intro n
  induction n with
  | zero =>
    intro j data _ _
    exact Rearr_refl _ _ _
  | succ n ih =>
    intro j data hj hb
    unfold shiftRight
    by_cases hc : j < b
    · rw [if_pos hc]
      by_cases hl : Less data j (j - 1) = false
      · rw [if_pos hl]
        exact Rearr_refl _ _ _
      · rw [if_neg hl]
        exact Rearr_trans (Rearr_Swap data lo b j (j - 1) hb (by omega) hc (by omega) (by omega))
          (ih (j + 1) _ (by omega) (by rw [Swap_length]; exact hb))
    · rw [if_neg hc]
      exact Rearr_refl _ _ _

theorem partialSteps_spec (a b : Nat) : ∀ (s i : Nat) (data : List LogRecord), a + 1 ≤ i →
    i ≤ b → b ≤ data.length → SortedOn data a i → LowerB data a b →
    Rearr data (partialSteps a b s i data).2 a b ∧
    ((partialSteps a b s i data).1 = true → SortedOn (partialSteps a b s i data).2 a b) := by
  intro s
  induction s with
  | zero =>
    intro i data _ _ _ _ _
    unfold partialSteps
    exact ⟨Rearr_refl _ _ _, fun h => Bool.noConfusion h⟩
  | succ s ih =>
    intro i data hai hib hb hs hlow
    unfold partialSteps
    simp only []
    have sc := scanSorted_spec data b (b - i) i (le_refl _) hib
    generalize scanSorted data b (b - i) i = i1 at sc ⊢
    have hs1 : SortedOn data a i1 := SortedOn_extend hs sc.2.2
    by_cases e : i1 = b
    · rw [if_pos e]
      exact ⟨Rearr_refl _ _ _, fun _ => by rw [← e]; exact hs1⟩
    · rw [if_neg e]
      by_cases h50 : b - a < 50
      · rw [if_pos h50]
        exact ⟨Rearr_refl _ _ _, fun h => Bool.noConfusion h⟩
      · rw [if_neg h50]
        have hi1 : i1 < data.length := by omega
        have r1 : Rearr data (Swap data i1 (i1 - 1)) a b :=
          Rearr_Swap data a b i1 (i1 - 1) hb (by omega) (by omega) (by omega) (by omega)
        generalize hd1 : Swap data i1 (i1 - 1) = d1 at r1 ⊢
        have hl1 : d1.length = data.length := r1.1
        have hk1 : ∀ k, k < i1 - 1 → key d1 k = key data k := by
          intro k hk
          rw [← hd1, key_Swap data i1 (i1 - 1) k hi1 (by omega), if_neg (by omega),
            if_neg (by omega)]
        have hs2 : SortedOn d1 a (i1 - 1) :=
          SortedOn_congr (fun k _ h2 => hk1 k h2)
            (fun p q hp hpq hq => hs1 p q hp hpq (by omega))
        have hlow1 : LowerB d1 a b := LowerB_Rearr hlow r1
        have r2 : Rearr d1 (if i1 - a ≥ 2 then shiftLeft (i1 - 1) d1 else d1) a b ∧
            SortedOn (if i1 - a ≥ 2 then shiftLeft (i1 - 1) d1 else d1) a i1 := by
          by_cases c : i1 - a ≥ 2
          · rw [if_pos c, shiftLeft_eq]
            have e0 : insertDown 0 (i1 - 1) d1 = insertDown a (i1 - 1) d1 := by
              by_cases a0 : a = 0
              · rw [a0]
              · exact insertDown_lower a (by omega) (i1 - 1) d1 (by omega) (by omega)
                  (fun k h1 h2 => hlow1 (by omega) k h1 (by omega))
            rw [e0]
            have r := insertDown_spec a (i1 - 1) (i1 - 1) d1 (by omega) (le_refl _) (by omega)
              hs2
              (fun p q hp hpq hq => by
                have e1 : p = i1 - 1 := by omega
                have e2 : q = i1 - 1 := by omega
                rw [e1, e2])
              (fun p q _ _ h3 h4 => by omega)
            have e1 : i1 - 1 + 1 = i1 := by omega
            rw [e1] at r
            exact ⟨Rearr_mono r.2 (le_refl _) (by omega), r.1⟩
          · rw [if_neg c]
            refine ⟨Rearr_refl _ _ _, ?_⟩
            intro p q hp hpq hq
            have e1 : p = q := by omega
            rw [e1]
        generalize (if i1 - a ≥ 2 then shiftLeft (i1 - 1) d1 else d1) = d2 at r2 ⊢
        have hl2 : d2.length = data.length := r2.1.1.trans hl1
        have r3 : Rearr d2 (if b - i1 ≥ 2 then shiftRight b (b - (i1 + 1)) (i1 + 1) d2
            else d2) i1 b := by
          by_cases c : b - i1 ≥ 2
          · rw [if_pos c]
            exact shiftRight_Rearr i1 b _ _ d2 (le_refl _) (by omega)
          · rw [if_neg c]
            exact Rearr_refl _ _ _
        generalize (if b - i1 ≥ 2 then shiftRight b (b - (i1 + 1)) (i1 + 1) d2 else d2) = d3
          at r3 ⊢
        have r13 : Rearr data d3 a b :=
          Rearr_trans r1 (Rearr_trans r2.1 (Rearr_mono r3 (by omega) (le_refl _)))
        have hs3 : SortedOn d3 a i1 :=
          SortedOn_congr (fun k _ h2 => Rearr_key_outside r3 k (Or.inl h2)) r2.2
        have r := ih i1 d3 (by omega) (by omega) (by rw [r13.1]; exact hb) hs3
          (LowerB_Rearr hlow r13)
        exact ⟨Rearr_trans r13 r.1, r.2⟩

theorem partialInsertionSort_func_spec (data : List LogRecord) (a b : Nat) (hab : a < b)
    (hb : b ≤ data.length) (hlow : LowerB data a b) :
    Rearr data (partialInsertionSort_func data a b).2 a b ∧
    ((partialInsertionSort_func data a b).1 = true →
      SortedOn (partialInsertionSort_func data a b).2 a b) :=
  partialSteps_spec a b 5 (a + 1) data (le_refl _) (by omega) hb
    (fun p q hp hpq hq => by
      have e1 : p = a := by omega
      have e2 : q = a := by omega
      rw [e1, e2])
    hlow

theorem siftLoop_spec (first hi lo0 : Nat) : ∀ (n root : Nat) (data : List LogRecord),
    hi - root ≤ n → lo0 ≤ root → first + hi ≤ data.length →
    (∀ c, 0 < c → c < hi → lo0 ≤ (c - 1) / 2 → (c - 1) / 2 ≠ root →
      key data (first + c) ≤ key data (first + (c - 1) / 2)) →
    (0 < root → lo0 ≤ (root - 1) / 2 → ∀ c, 0 < c → c < hi → (c - 1) / 2 = root →
      key data (first + c) ≤ key data (first + (root - 1) / 2)) →
    HeapOn (siftLoop hi first n root data) first lo0 hi ∧
    Rearr data (siftLoop hi first n root data) (first + root) (first + hi) := by
  intro n
  induction n with
  | zero =>
    intro root data hn hlo hlen h1 h2
    unfold siftLoop
    refine ⟨?_, Rearr_refl _ _ _⟩
    intro c hc0 hc hp
    exact h1 c hc0 hc hp (by omega)
  | succ n ih =>
    intro root data hn hlo hlen h1 h2
    unfold siftLoop
    by_cases hleaf : 2 * root + 1 ≥ hi
    · rw [if_pos hleaf]
      refine ⟨?_, Rearr_refl _ _ _⟩
      intro c hc0 hc hp
      exact h1 c hc0 hc hp (by omega)
    · rw [if_neg hleaf]
      simp only []
      have hch : ∃ child, (if 2 * root + 2 < hi ∧
            Less data (first + (2 * root + 1)) (first + (2 * root + 2)) = true
          then 2 * root + 2 else 2 * root + 1) = child ∧
          (child = 2 * root + 1 ∨ child = 2 * root + 2) ∧ child < hi ∧
          (∀ c, 0 < c → c < hi → (c - 1) / 2 = root →
            key data (first + c) ≤ key data (first + child)) := by
        by_cases hc : 2 * root + 2 < hi ∧
            Less data (first + (2 * root + 1)) (first + (2 * root + 2)) = true
        · refine ⟨2 * root + 2, if_pos hc, Or.inr rfl, hc.1, ?_⟩
          intro c hc0 hchi hpar
          have : c = 2 * root + 1 ∨ c = 2 * root + 2 := by omega
          rcases this with e | e
          · rw [e]; exact le_of_lt ((Less_iff _ _ _).1 hc.2)
          · rw [e]
        · refine ⟨2 * root + 1, if_neg hc, Or.inl rfl, by omega, ?_⟩
          intro c hc0 hchi hpar
          have : c = 2 * root + 1 ∨ c = 2 * root + 2 := by omega
          rcases this with e | e
          · rw [e]
          · rw [e]
            rw [← Less_false_iff]
            by_contra hne
            exact hc ⟨by omega, by simpa using hne⟩
      obtain ⟨child, echild, hchild, hchi, hmax⟩ := hch
      rw [echild]
      by_cases hl : Less data (first + root) (first + child) = true
      · rw [if_pos hl]
        have hlt : key data (first + root) < key data (first + child) := (Less_iff _ _ _).1 hl
        have hr : first + root < data.length := by omega
        have hc : first + child < data.length := by omega
        have hk : ∀ k, key (Swap data (first + root) (first + child)) k
            = if k = first + child then key data (first + root)
              else if k = first + root then key data (first + child) else key data k :=
          fun k => key_Swap data (first + root) (first + child) k hr hc
        have r := ih child (Swap data (first + root) (first + child)) (by omega) (by omega)
          (by rw [Swap_length]; exact hlen) ?_ ?_
        · refine ⟨r.1, ?_⟩
          exact Rearr_trans (Rearr_Swap data (first + root) (first + hi) (first + root)
            (first + child) hlen (le_refl _) (by omega) (by omega) (by omega))
            (Rearr_mono r.2 (by omega) (le_refl _))
        · intro c hc0 hchi2 hp hne
          rw [hk (first + c), hk (first + (c - 1) / 2),
            if_neg (show ¬ first + (c - 1) / 2 = first + child by omega)]
          by_cases ep : (c - 1) / 2 = root
          · rw [if_pos (show first + (c - 1) / 2 = first + root by omega)]
            by_cases ec : c = child
            · rw [if_pos (show first + c = first + child by omega)]; exact le_of_lt hlt
            · rw [if_neg (show ¬ first + c = first + child by omega),
                if_neg (show ¬ first + c = first + root by omega)]
              exact hmax c hc0 hchi2 ep
          · rw [if_neg (show ¬ first + (c - 1) / 2 = first + root by omega),
              if_neg (show ¬ first + c = first + child by omega)]
            by_cases ec : c = root
            · rw [if_pos (show first + c = first + root by omega)]
              have := h2 (by omega) (by omega) child (by omega) hchi (by omega)
              rw [ec]
              exact this
            · rw [if_neg (show ¬ first + c = first + root by omega)]
              exact h1 c hc0 hchi2 hp ep
        · intro _ _ c hc0 hchi2 hpar
          have e1 : (child - 1) / 2 = root := by omega
          rw [e1, hk (first + c), hk (first + root),
            if_neg (show ¬ first + c = first + child by omega),
            if_neg (show ¬ first + c = first + root by omega),
            if_neg (show ¬ first + root = first + child by omega), if_pos rfl]
          have h := h1 c hc0 hchi2 (by omega) (by omega)
          rw [hpar] at h
          exact h
      · rw [if_neg hl]
        refine ⟨?_, Rearr_refl _ _ _⟩
        have hle : key data (first + child) ≤ key data (first + root) := by
          rw [← Less_false_iff]
          simpa using hl
        intro c hc0 hc hp
        by_cases ep : (c - 1) / 2 = root
        · rw [ep]
          exact le_trans (hmax c hc0 hc ep) hle
        · exact h1 c hc0 hc hp ep

theorem HeapOn_max {data : List LogRecord} {first hi : Nat} (h : HeapOn data first 0 hi) :
    ∀ c, c < hi → key data (first + c) ≤ key data (first + 0) := by
  intro c
  induction c using Nat.strong_induction_on with
  | _ c ih =>
    intro hc
    by_cases e : c = 0
    · rw [e]
    · exact le_trans (h c (by omega) hc (by omega)) (ih ((c - 1) / 2) (by omega) (by omega))

theorem heapBuild_spec (first hi : Nat) : ∀ (i : Nat) (data : List LogRecord),
    first + hi ≤ data.length → HeapOn data first i hi →
    HeapOn (heapBuild hi first i data) first 0 hi ∧
    Rearr data (heapBuild hi first i data) first (first + hi) := by
  intro i
  induction i with
  | zero =>
    intro data _ h
    exact ⟨h, Rearr_refl _ _ _⟩
  | succ i ih =>
    intro data hlen h
    unfold heapBuild siftDown_func
    have r := siftLoop_spec first hi i (hi - i) i data (le_refl _) (le_refl _) hlen
      (fun c hc0 hc hp hne => h c hc0 hc (by omega))
      (fun h0 hp => by omega)
    have r2 := ih (siftLoop hi first (hi - i) i data) (by rw [r.2.1]; exact hlen) r.1
    exact ⟨r2.1, Rearr_trans (Rearr_mono r.2 (by omega) (le_refl _)) r2.2⟩

theorem heapPop_spec (first n : Nat) : ∀ (i : Nat) (data : List LogRecord), i ≤ n →
    first + n ≤ data.length → HeapOn data first 0 i →
    SortedOn data (first + i) (first + n) →
    (∀ p q, p < i → i ≤ q → q < n → key data (first + p) ≤ key data (first + q)) →
    SortedOn (heapPop first i data) first (first + n) ∧
    Rearr data (heapPop first i data) first (first + n) := by
  intro i
  induction i with
  | zero =>
    intro data _ _ _ hs _
    exact ⟨hs, Rearr_refl _ _ _⟩
  | succ i ih =>
    intro data hin hlen hheap hs hsep
    unfold heapPop siftDown_func
    have hmax := HeapOn_max hheap
    have hf : first < data.length := by omega
    have hi : first + i < data.length := by omega
    have hk : ∀ k, key (Swap data first (first + i)) k
        = if k = first + i then key data first
          else if k = first then key data (first + i) else key data k :=
      fun k => key_Swap data first (first + i) k hf hi
    have r1 : Rearr data (Swap data first (first + i)) first (first + n) :=
      Rearr_Swap data first (first + n) first (first + i) hlen (le_refl _) (by omega) (by omega)
        (by omega)
    generalize Swap data first (first + i) = d1 at hk r1 ⊢
    have hl1 : d1.length = data.length := r1.1
    have r := siftLoop_spec first i 0 (i - 0) 0 d1 (le_refl _) (le_refl _) (by omega)
      (fun c hc0 hc hp hne => by
        rw [hk (first + c), hk (first + (c - 1) / 2),
          if_neg (show ¬ first + c = first + i by omega),
          if_neg (show ¬ first + c = first by omega),
          if_neg (show ¬ first + (c - 1) / 2 = first + i by omega),
          if_neg (show ¬ first + (c - 1) / 2 = first by omega)]
        exact hheap c hc0 (by omega) (by omega))
      (fun h0 => by omega)
    generalize siftLoop i first (i - 0) 0 d1 = d2 at r ⊢
    obtain ⟨rh, rr⟩ := r
    have rr2 : Rearr d1 d2 first (first + i) := by
      have e : first + 0 = first := by omega
      rw [e] at rr
      exact rr
    have hout : ∀ q, i ≤ q → key d2 (first + q) = key d1 (first + q) :=
      fun q hq => Rearr_key_outside rr2 (first + q) (Or.inr (by omega))
    have hin2 : ∀ p, p < i → key d2 (first + p) ≤ key data (first + 0) := by
      intro p hp
      obtain ⟨k1, a1, b1, e⟩ := Rearr_key_inside rr2 (first + p) (by omega) (by omega)
      rw [e, hk k1, if_neg (show ¬ k1 = first + i by omega)]
      by_cases e0 : k1 = first
      · rw [if_pos e0]
        exact hmax i (by omega)
      · rw [if_neg e0]
        have := hmax (k1 - first) (by omega)
        have e2 : first + (k1 - first) = k1 := by omega
        rw [e2] at this
        exact this
    have hin3 : ∀ p q, p < i → i + 1 ≤ q → q < n → key d2 (first + p) ≤ key data (first + q) := by
      intro p q hp hq1 hq2
      obtain ⟨k1, a1, b1, e⟩ := Rearr_key_inside rr2 (first + p) (by omega) (by omega)
      rw [e, hk k1, if_neg (show ¬ k1 = first + i by omega)]
      by_cases e0 : k1 = first
      · rw [if_pos e0]
        exact hsep i q (by omega) hq1 hq2
      · rw [if_neg e0]
        have := hsep (k1 - first) q (by omega) hq1 hq2
        have e2 : first + (k1 - first) = k1 := by omega
        rw [e2] at this
        exact this
    have hd1 : ∀ q, i + 1 ≤ q → key d1 (first + q) = key data (first + q) := by
      intro q hq
      rw [hk (first + q), if_neg (show ¬ first + q = first + i by omega),
        if_neg (show ¬ first + q = first by omega)]
    have hd1i : key d1 (first + i) = key data (first + 0) := by
      rw [hk (first + i), if_pos rfl]
      rfl
    have r3 := ih d2 (by omega) (by rw [rr2.1, hl1]; exact hlen) rh ?_ ?_
    · exact ⟨r3.1, Rearr_trans r1 (Rearr_trans (Rearr_mono rr2 (le_refl _) (by omega)) r3.2)⟩
    · intro p q hp hpq hq
      have ep : first + (p - first) = p := by omega
      have eq : first + (q - first) = q := by omega
      rw [← ep, ← eq, hout (p - first) (by omega), hout (q - first) (by omega)]
      by_cases c : p - first = i
      · rw [c, hd1i]
        by_cases c2 : q - first = i
        · rw [c2, hd1i]
        · rw [hd1 (q - first) (by omega)]
          exact hsep 0 (q - first) (by omega) (by omega) (by omega)
      · rw [hd1 (p - first) (by omega), hd1 (q - first) (by omega), ep, eq]
        exact hs p q (by omega) hpq hq
    · intro p q hp hq1 hq2
      rw [hout q hq1]
      by_cases c : q = i
      · rw [c, hd1i]
        exact hin2 p hp
      · rw [hd1 q (by omega)]
        exact hin3 p q hp (by omega) hq2

theorem heapSort_func_spec (data : List LogRecord) (a b : Nat) (hab : a ≤ b)
    (hb : b ≤ data.length) :
    SortedOn (heapSort_func data a b) a b ∧ Rearr data (heapSort_func data a b) a b := by
  unfold heapSort_func
  have hlen : a + (b - a) ≤ data.length := by omega
  have r1 := heapBuild_spec a (b - a) ((b - a - 1) / 2 + 1) data hlen
    (fun c hc0 hc hp => by omega)
  generalize heapBuild (b - a) a ((b - a - 1) / 2 + 1) data = d1 at r1 ⊢
  have r2 := heapPop_spec a (b - a) (b - a) d1 (le_refl _) (by rw [r1.2.1]; exact hlen) r1.1
    (fun p q hp hpq hq => by omega) (fun p q hp hq1 hq2 => by omega)
  have e : a + (b - a) = b := by omega
  rw [e] at r1 r2
  exact ⟨r2.1, Rearr_trans r1.2 r2.2⟩

theorem PivotAt_Rearr_left {d1 d2 : List LogRecord} {a mid b : Nat} (h : PivotAt d1 a mid b)
    (r : Rearr d1 d2 a mid) : PivotAt d2 a mid b := by
  refine ⟨?_, ?_⟩
  · intro k hk1 hk2
    obtain ⟨k1, a1, b1, e⟩ := Rearr_key_inside r k hk1 hk2
    rw [e, Rearr_key_outside r mid (Or.inr (le_refl _))]
    exact h.1 k1 a1 b1
  · intro k hk1 hk2
    rw [Rearr_key_outside r mid (Or.inr (le_refl _)), Rearr_key_outside r k (Or.inr (by omega))]
    exact h.2 k hk1 hk2

theorem PivotAt_Rearr_right {d1 d2 : List LogRecord} {a mid b : Nat} (h : PivotAt d1 a mid b)
    (r : Rearr d1 d2 (mid + 1) b) : PivotAt d2 a mid b := by
  refine ⟨?_, ?_⟩
  · intro k hk1 hk2
    rw [Rearr_key_outside r mid (Or.inl (by omega)), Rearr_key_outside r k (Or.inl (by omega))]
    exact h.1 k hk1 hk2
  · intro k hk1 hk2
    obtain ⟨k1, a1, b1, e⟩ := Rearr_key_inside r k (by omega) hk2
    rw [e, Rearr_key_outside r mid (Or.inl (by omega))]
    exact h.2 k1 (by omega) b1

theorem SortedOn_join {data : List LogRecord} {a mid b : Nat} (hl : SortedOn data a mid)
    (hr : SortedOn data (mid + 1) b) (hp : PivotAt data a mid b) : SortedOn data a b := by
  intro p q hp1 hpq hq
  by_cases c1 : q < mid
  · exact hl p q hp1 hpq c1
  · by_cases c2 : mid < p
    · exact hr p q (by omega) hpq hq
    · have e1 : key data p ≤ key data mid := by
        by_cases e : p = mid
        · rw [e]
        · exact hp.1 p hp1 (by omega)
      have e2 : key data mid ≤ key data q := by
        by_cases e : q = mid
        · rw [e]
        · exact hp.2 q (by omega) hq
      exact le_trans e1 e2

theorem LowerB_mono {data : List LogRecord} {a b b1 : Nat} (h : LowerB data a b) (hb : b1 ≤ b) :
    LowerB data a b1 :=
  fun ha k hk1 hk2 => h ha k hk1 (by omega)

/-- Function `pdqsort_func` returns when the fuel exceeds the length of the part, and then
`data[a:b]` is in ascending order and is a rearrangement of what it was, the rest of the
slice being untouched. -/
theorem pdqsort_func_spec (Next : Nat → Nat) : ∀ (fuel : Nat) (data : List LogRecord)
    (a b limit : Nat) (wasBalanced wasPartitioned : Bool), b - a < fuel → a ≤ b →
    b ≤ data.length → LowerB data a b →
    ∃ out, pdqsort_func Next fuel data a b limit wasBalanced wasPartitioned = some out ∧
      SortedOn out a b ∧ Rearr data out a b := by
  intro fuel
  induction fuel with
  | zero => intro data a b limit wb wp h; omega
  | succ fuel ih =>
    intro data a b limit wb wp hfuel hab hb hlow
    unfold pdqsort_func
    by_cases h12 : b - a ≤ 12
    · rw [if_pos h12]
      exact ⟨_, rfl, insertionSort_func_spec data a b hb⟩
    rw [if_neg h12]
    by_cases hlim : limit = 0
    · rw [if_pos hlim]
      exact ⟨_, rfl, heapSort_func_spec data a b hab hb⟩
    rw [if_neg hlim]
    simp only []
    have hlt : a < b := by omega
    have r1 : Rearr data (if wb = true then data else breakPatterns_func Next data a b) a b := by
      split
      · exact Rearr_refl _ _ _
      · exact breakPatterns_func_Rearr Next data a b hab hb
    generalize (if wb = true then data else breakPatterns_func Next data a b) = data1 at r1 ⊢
    generalize (if wb = true then limit else limit - 1) = limit1
    have hph := choosePivot_func_bounds data1 a b hlt
    generalize choosePivot_func data1 a b = ph at hph ⊢
    have hb1 : b ≤ data1.length := by rw [r1.1]; exact hb
    have r2 : Rearr data1 (if ph.2 = sortedHint.decreasingHint then reverseRange_func data1 a b
        else data1) a b := by
      split
      · exact reverseRange_func_Rearr data1 a b hlt hb1
      · exact Rearr_refl _ _ _
    generalize (if ph.2 = sortedHint.decreasingHint then reverseRange_func data1 a b
        else data1) = data2 at r2 ⊢
    have hpiv : a ≤ (if ph.2 = sortedHint.decreasingHint then (b - 1) - (ph.1 - a) else ph.1) ∧
        (if ph.2 = sortedHint.decreasingHint then (b - 1) - (ph.1 - a) else ph.1) < b := by
      split <;> omega
    generalize (if ph.2 = sortedHint.decreasingHint then (b - 1) - (ph.1 - a) else ph.1) = pivot
      at hpiv ⊢
    generalize (if ph.2 = sortedHint.decreasingHint then sortedHint.increasingHint else ph.2)
      = hint
    have r02 : Rearr data data2 a b := Rearr_trans r1 r2
    have hb2 : b ≤ data2.length := by rw [r02.1]; exact hb
    have hlow2 : LowerB data2 a b := LowerB_Rearr hlow r02
    have r3 : Rearr data2 (if wb = true ∧ wp = true ∧ hint = sortedHint.increasingHint then
          partialInsertionSort_func data2 a b else (false, data2)).2 a b ∧
        ((if wb = true ∧ wp = true ∧ hint = sortedHint.increasingHint then
          partialInsertionSort_func data2 a b else (false, data2)).1 = true →
          SortedOn (if wb = true ∧ wp = true ∧ hint = sortedHint.increasingHint then
            partialInsertionSort_func data2 a b else (false, data2)).2 a b) := by
      split
      · exact partialInsertionSort_func_spec data2 a b hlt hb2 hlow2
      · exact ⟨Rearr_refl _ _ _, fun h => Bool.noConfusion h⟩
    generalize (if wb = true ∧ wp = true ∧ hint = sortedHint.increasingHint then
          partialInsertionSort_func data2 a b else (false, data2)) = pr at r3 ⊢
    have r03 : Rearr data pr.2 a b := Rearr_trans r02 r3.1
    have hb3 : b ≤ pr.2.length := by rw [r03.1]; exact hb
    have hlow3 : LowerB pr.2 a b := LowerB_Rearr hlow r03
    by_cases hdone : pr.1 = true
    · rw [if_pos hdone]
      exact ⟨_, rfl, r3.2 hdone, r03⟩
    rw [if_neg hdone]
    by_cases heq : a > 0 ∧ Less pr.2 (a - 1) pivot = false
    · rw [if_pos heq]
      have hle : key pr.2 pivot ≤ key pr.2 (a - 1) := (Less_false_iff _ _ _).1 heq.2
      have pe := partitionEqual_func_spec pr.2 a b pivot hlt hb3 hpiv.1 hpiv.2
      generalize partitionEqual_func pr.2 a b pivot = res at pe ⊢
      obtain ⟨m1, m2, rr, klow, khigh⟩ := pe
      have r04 : Rearr data res.1 a b := Rearr_trans r03 rr
      have hlow4 : LowerB res.1 a b := LowerB_Rearr hlow r04
      have hK : ∀ k, a ≤ k → k < res.2 → key res.1 k = key pr.2 pivot := by
        intro k hk1 hk2
        have u1 := klow k hk1 hk2
        have u2 := hlow4 heq.1 k hk1 (by omega)
        rw [Rearr_key_outside rr (a - 1) (Or.inl (by omega))] at u2
        omega
      obtain ⟨out, eo, so, ro⟩ := ih res.1 res.2 b limit1 wb wp (by omega) m2
        (by rw [r04.1]; exact hb)
        (fun _ k hk1 hk2 => by
          rw [hK (res.2 - 1) (by omega) (by omega)]
          exact le_of_lt (khigh k hk1 hk2))
      refine ⟨out, eo, ?_, Rearr_trans r04 (Rearr_mono ro (by omega) (le_refl _))⟩
      intro p q hp hpq hq
      by_cases c1 : res.2 ≤ p
      · exact so p q c1 hpq hq
      · rw [Rearr_key_outside ro p (Or.inl (by omega)), hK p hp (by omega)]
        by_cases c2 : q < res.2
        · rw [Rearr_key_outside ro q (Or.inl c2), hK q (by omega) c2]
        · obtain ⟨k1, a1, b1, e⟩ := Rearr_key_inside ro q (by omega) hq
          rw [e]
          exact le_of_lt (khigh k1 a1 b1)
    rw [if_neg heq]
    have pt := partition_func_spec pr.2 a b pivot hlt hb3 hpiv.1 hpiv.2
    generalize partition_func pr.2 a b pivot = res at pt ⊢
    obtain ⟨m1, m2, rr, klow, khigh⟩ := pt
    have r04 : Rearr data res.1 a b := Rearr_trans r03 rr
    have hlow4 : LowerB res.1 a b := LowerB_Rearr hlow r04
    have hb4 : b ≤ res.1.length := by rw [r04.1]; exact hb
    have hpv : PivotAt res.1 a res.2.1 b := ⟨klow, khigh⟩
    by_cases hside : res.2.1 - a < b - res.2.1
    · rw [if_pos hside]
      obtain ⟨d5, e5, s5, r5⟩ := ih res.1 a res.2.1 limit1 true true (by omega) m1 (by omega)
        (LowerB_mono hlow4 (by omega))
      rw [e5]
      simp only []
      have hpv5 : PivotAt d5 a res.2.1 b := PivotAt_Rearr_left hpv r5
      obtain ⟨out, eo, so, ro⟩ := ih d5 (res.2.1 + 1) b limit1
        (decide (res.2.1 - a ≥ (b - a) / 8)) res.2.2 (by omega) (by omega)
        (by rw [r5.1]; exact hb4)
        (fun _ k hk1 hk2 => hpv5.2 k (by omega) hk2)
      refine ⟨out, eo, ?_, ?_⟩
      · exact SortedOn_join
          (SortedOn_congr (fun k _ h2 => Rearr_key_outside ro k (Or.inl (by omega))) s5) so
          (PivotAt_Rearr_right hpv5 ro)
      · exact Rearr_trans r04 (Rearr_trans (Rearr_mono r5 (le_refl _) (by omega))
          (Rearr_mono ro (by omega) (le_refl _)))
    · rw [if_neg hside]
      obtain ⟨d5, e5, s5, r5⟩ := ih res.1 (res.2.1 + 1) b limit1 true true (by omega) (by omega)
        hb4 (fun _ k hk1 hk2 => hpv.2 k (by omega) hk2)
      rw [e5]
      simp only []
      have hpv5 : PivotAt d5 a res.2.1 b := PivotAt_Rearr_right hpv r5
      obtain ⟨out, eo, so, ro⟩ := ih d5 a res.2.1 limit1
        (decide (b - res.2.1 ≥ (b - a) / 8)) res.2.2 (by omega) m1
        (by rw [r5.1]; omega)
        (LowerB_mono (LowerB_Rearr hlow4 (Rearr_mono r5 (by omega) (le_refl _))) (by omega))
      refine ⟨out, eo, ?_, ?_⟩
      · exact SortedOn_join so
          (SortedOn_congr (fun k h1 _ => Rearr_key_outside ro k (Or.inr (by omega))) s5)
          (PivotAt_Rearr_left hpv5 ro)
      · exact Rearr_trans r04 (Rearr_trans (Rearr_mono r5 (by omega) (le_refl _))
          (Rearr_mono ro (le_refl _) (by omega)))

theorem SortedOn_pairwise {data : List LogRecord} (h : SortedOn data 0 data.length) :
    data.Pairwise (fun x y => x.Timestamp ≤ y.Timestamp) := by
  rw [List.pairwise_iff_getElem]
  intro i j hi hj hij
  have := h i j (Nat.zero_le _) (le_of_lt hij) hj
  unfold key recAt at this
  rw [List.getD_eq_getElem _ _ hi, List.getD_eq_getElem _ _ hj] at this
  exact this

/-- The call `sort.Slice` returns, and leaves the slice a rearrangement of what it was, in
ascending timestamp order. -/
theorem sortSlice_spec (Next : Nat → Nat) (data : List LogRecord) :
    ∃ out, sortSlice Next data = some out ∧ out.Perm data ∧
      out.Pairwise (fun x y => x.Timestamp ≤ y.Timestamp) := by
  obtain ⟨out, e, s, r⟩ := pdqsort_func_spec Next (data.length + 1) data 0 data.length
    (bitsLen data.length data.length) true true (by omega) (Nat.zero_le _) (le_refl _)
    (fun h => by omega)
  refine ⟨out, e, r.2.1, ?_⟩
  apply SortedOn_pairwise
  rw [r.1]
  exact s

theorem Swap_cons_succ (x : LogRecord) (xs : List LogRecord) (i j : Nat) :
    Swap (x :: xs) (i + 1) (j + 1) = x :: Swap xs i j := by
  simp [Swap, recAt]

theorem key_cons_succ (x : LogRecord) (xs : List LogRecord) (i : Nat) :
    key (x :: xs) (i + 1) = key xs i := by
  simp [key, recAt]

theorem filter_Swap_adjacent (t : Int) : ∀ (data : List LogRecord) (j : Nat),
    j + 1 < data.length → key data (j + 1) ≠ key data j →
    (Swap data (j + 1) j).filter (fun r => decide (r.Timestamp = t))
      = data.filter (fun r => decide (r.Timestamp = t)) := by
  intro data
  induction data with
  | nil => intro j h; simp at h
  | cons x xs ih =>
    intro j hlen hne
    cases j with
    | zero =>
      cases xs with
      | nil => simp at hlen
      | cons y ys =>
        have hxy : y.Timestamp ≠ x.Timestamp := by
          simpa [key, recAt] using hne
        have : Swap (x :: y :: ys) 1 0 = y :: x :: ys := by
          simp [Swap, recAt]
        rw [this]
        simp only [List.filter_cons]
        by_cases hx : x.Timestamp = t
        · have hy : ¬ y.Timestamp = t := fun e => hxy (e.trans hx.symm)
          simp [hx, hy]
        · simp [hx]
    | succ j =>
      rw [Swap_cons_succ]
      simp only [List.filter_cons]
      rw [ih j (by simpa using hlen) (by rw [key_cons_succ, key_cons_succ] at hne; exact hne)]

theorem TiesInOrder_refl (data : List LogRecord) : TiesInOrder data data := fun _ => rfl

theorem TiesInOrder_trans {d1 d2 d3 : List LogRecord} (h12 : TiesInOrder d1 d2)
    (h23 : TiesInOrder d2 d3) : TiesInOrder d1 d3 := fun t => (h23 t).trans (h12 t)

theorem insertDown_ties (a : Nat) : ∀ (j : Nat) (data : List LogRecord), j < data.length →
    TiesInOrder data (insertDown a j data) := by
  intro j
  induction j with
  | zero => intro data _; exact TiesInOrder_refl _
  | succ j ih =>
    intro data hlen
    unfold insertDown
    by_cases hc : j + 1 > a ∧ Less data (j + 1) j = true
    · rw [if_pos hc]
      have hlt : key data (j + 1) < key data j := (Less_iff _ _ _).1 hc.2
      exact TiesInOrder_trans
        (fun t => filter_Swap_adjacent t data j hlen (ne_of_lt hlt))
        (ih (Swap data (j + 1) j) (by rw [Swap_length]; omega))
    · rw [if_neg hc]
      exact TiesInOrder_refl _

theorem insertDown_length (a : Nat) : ∀ (j : Nat) (data : List LogRecord),
    (insertDown a j data).length = data.length := by
  intro j
  induction j with
  | zero => intro data; rfl
  | succ j ih =>
    intro data
    unfold insertDown
    split
    · rw [ih, Swap_length]
    · rfl

theorem insertFrom_ties (a : Nat) : ∀ (n i : Nat) (data : List LogRecord),
    i + n ≤ data.length → TiesInOrder data (insertFrom a n i data) := by
  intro n
  induction n with
  | zero => intro i data _; exact TiesInOrder_refl _
  | succ n ih =>
    intro i data hlen
    unfold insertFrom
    exact TiesInOrder_trans (insertDown_ties a i data (by omega))
      (ih (i + 1) (insertDown a i data) (by rw [insertDown_length]; omega))

theorem insertionSort_func_ties (data : List LogRecord) (a b : Nat) (hb : b ≤ data.length) :
    TiesInOrder data (insertionSort_func data a b) := by
  unfold insertionSort_func
  by_cases h : a < b
  · exact insertFrom_ties a (b - (a + 1)) (a + 1) data (by omega)
  · have e : b - (a + 1) = 0 := by omega
    rw [e]
    exact TiesInOrder_refl _

/-- Up to twelve elements `sort.Slice` is the insertion sort. -/
theorem sortSlice_small (Next : Nat → Nat) (data : List LogRecord) (h : data.length ≤ 12) :
    sortSlice Next data = some (insertionSort_func data 0 data.length) := by
  unfold sortSlice pdqsort_func
  rw [if_pos (by omega)]

/-- The first round of `pdqsort_func` on a part that starts the slice, when the pivot comes
with the increasing hint, the partial insertion sort gives up and both sides of the new
pivot have at most twelve elements, the left one being the shorter. -/
theorem pdqsort_func_round (Next : Nat → Nat) (fuel : Nat) (data : List LogRecord)
    (b limit : Nat) (h12 : ¬ b - 0 ≤ 12) (hlim : ¬ limit = 0)
    (hhint : (choosePivot_func data 0 b).2 = sortedHint.increasingHint)
    (hpart : (partialInsertionSort_func data 0 b).1 = false)
    (hside : (partition_func (partialInsertionSort_func data 0 b).2 0 b
        (choosePivot_func data 0 b).1).2.1 - 0
      < b - (partition_func (partialInsertionSort_func data 0 b).2 0 b
        (choosePivot_func data 0 b).1).2.1)
    (hleft : (partition_func (partialInsertionSort_func data 0 b).2 0 b
        (choosePivot_func data 0 b).1).2.1 - 0 ≤ 12)
    (hright : b - ((partition_func (partialInsertionSort_func data 0 b).2 0 b
        (choosePivot_func data 0 b).1).2.1 + 1) ≤ 12) :
    pdqsort_func Next (fuel + 2) data 0 b limit true true
      = some (insertionSort_func
          (insertionSort_func
            (partition_func (partialInsertionSort_func data 0 b).2 0 b
              (choosePivot_func data 0 b).1).1 0
            (partition_func (partialInsertionSort_func data 0 b).2 0 b
              (choosePivot_func data 0 b).1).2.1)
          ((partition_func (partialInsertionSort_func data 0 b).2 0 b
              (choosePivot_func data 0 b).1).2.1 + 1) b) := by
  rw [pdqsort_func]
  have hd : ¬ sortedHint.increasingHint = sortedHint.decreasingHint := by decide
  simp only [if_neg h12, if_neg hlim, if_true, hhint, if_neg hd, true_and, hpart,
    Bool.false_eq_true, if_false, gt_iff_lt, lt_irrefl, false_and, if_pos hside]
  rw [pdqsort_func, if_pos hleft]
  simp only []
  rw [pdqsort_func, if_pos hright]

theorem logs_goSort (T : CaseTables) (Next : Nat → Nat)
    (h : ∀ l, ∃ out, sortSlice Next l = some out ∧ out.Perm l ∧
      out.Pairwise (fun a b => a.Timestamp ≤ b.Timestamp))
    (fs : fileStore) (q : Query) (out : List LogRecord)
    (hflag : (parseBoolQuery q.isBlacklisted).2 = false) (hsort : q.sort = "timestamp")
    (hout : sortSlice Next ((All fs).filter (keepRecord T (TrimSpace (ToUpper T q.level.data))
      (TrimSpace q.service.data) (TrimSpace q.username.data)
      (parseBoolQuery q.isBlacklisted).1)) = some out) :
    logs T (goSort Next h) fs q = LogsReply.records (limitStep (queryLimit q.limit) out) := by
  rw [logs_eq, hflag]
  simp only [Bool.false_eq_true, if_false, beforeLimit, sortStep, hsort, if_true, goSort, hout,
    Option.getD_some]

theorem sortSlice_thirteenRecords (Next : Nat → Nat) :
    sortSlice Next thirteenRecords
      = some [{ zeroRecord with Timestamp := 0, RawMessage := "early" }, tied "r6", tied "r2",
          tied "r3", tied "r4", tied "r5", tied "r0", tied "r7", tied "r8", tied "r9",
          tied "r10", tied "r11", tied "r1"] :=
  (pdqsort_func_round Next 12 thirteenRecords 13 (bitsLen 13 13) (by decide) (by decide)
    (by decide!) (by decide!) (by decide!) (by decide!) (by decide!)).trans (by decide!)

/-! ## Claims -/

/-- C1: `severityCodeToLevel n` is ERROR for `0 ≤ n < 30`, WARN for `30 ≤ n < 60` and INFO
for `n ≥ 60`, for every integer `n`; the boundary values 29, 30, 59, 60 map to ERROR, WARN,
WARN, INFO. -/
theorem severityCodeToLevel_buckets (n : Int) :
    (0 ≤ n → n < 30 → severityCodeToLevel n = "ERROR") ∧
    (30 ≤ n → n < 60 → severityCodeToLevel n = "WARN") ∧
    (60 ≤ n → severityCodeToLevel n = "INFO") ∧
    severityCodeToLevel 29 = "ERROR" ∧ severityCodeToLevel 30 = "WARN" ∧
    severityCodeToLevel 59 = "WARN" ∧ severityCodeToLevel 60 = "INFO" := by
  refine ⟨?_, ?_, ?_, by decide, by decide, by decide, by decide⟩
  · intro h0 h1
    simp [severityCodeToLevel, h0, h1]
  · intro h0 h1
    have h2 : ¬ n < 30 := by omega
    simp [severityCodeToLevel, h0, h1, h2]
  · intro h0
    have h1 : ¬ n < 30 := by omega
    have h2 : ¬ n < 60 := by omega
    simp [severityCodeToLevel, h1, h2]

/-- Witness of C1: the three codes of the test `TestSeverityMap`. -/
theorem severityCodeToLevel_buckets_witness :
    severityCodeToLevel 10 = "ERROR" ∧ severityCodeToLevel 40 = "WARN" ∧
    severityCodeToLevel 90 = "INFO" :=
  ⟨(severityCodeToLevel_buckets 10).1 (by decide) (by decide),
   (severityCodeToLevel_buckets 40).2.1 (by decide) (by decide),
   (severityCodeToLevel_buckets 90).2.2.1 (by decide)⟩

/-- C2 (the code at the failing input): the message `<18446744073709551616> h x` carries
the marker of the number `2 ^ 64`, which is at least 60, yet `atoiSafe` wraps it to 0 and
`extract` reports the severity ERROR. -/
theorem extract_severity_wraps :
    reSeverity "<18446744073709551616> h x".data = some "18446744073709551616".data ∧
    decimalValue "18446744073709551616".data = 2 ^ 64 ∧
    atoiSafe "18446744073709551616".data = 0 ∧
    (extract asciiTables 0 "<18446744073709551616> h x").Severity = "ERROR" := by
  decide!

/-- C3: the (category, source, service) triple of `extract m` is the value of the ordered
first-match chain on the lower-cased message; hence it is one of the six triples of the
chain, and the service is unset exactly when the source is unknown. -/
theorem extract_triple_is_chain (T : CaseTables) (now : Int) (m : String) :
    ((extract T now m).EventCategory, (extract T now m).EventSource, (extract T now m).Service)
        = categoryChain (ToLower T m.data) ∧
    (((extract T now m).EventCategory, (extract T now m).EventSource, (extract T now m).Service)
        ∈ [("login.audit", "linux", "linux_login"), ("logout.audit", "linux", "linux_logout"),
           ("windows.login", "windows", "windows_login"),
           ("windows.event", "windows", "windows_event"),
           ("syslog", "linux", "linux_syslog"), ("unknown", "unknown", "")]) ∧
    ((extract T now m).Service = "" ↔ (extract T now m).EventSource = "unknown") := by
  have h := extract_triple T now m
  have hc := categoryChain_cases (ToLower T m.data)
  rw [← h] at hc
  refine ⟨h, ?_, ?_⟩
  · simp only [List.mem_cons, List.mem_singleton, List.not_mem_nil, or_false]
    exact hc
  · rcases hc with hc | hc | hc | hc | hc | hc <;>
    · simp only [Prod.mk.injEq] at hc
      obtain ⟨-, h2, h3⟩ := hc
      rw [h2, h3]
      decide

/-- C4 (counterexample): two messages that contain `user alice` and whose extracted
username is not `alice`: the token runs on after `alice`, or an earlier match wins. -/
theorem user_alice_counterexample :
    Contains "user alice2 logged in".data "user alice".data = true ∧
    (extract asciiTables 0 "user alice2 logged in").Username = "alice2" ∧
    Contains "user bob met user alice".data "user alice".data = true ∧
    (extract asciiTables 0 "user bob met user alice").Username = "bob" := by
  decide!

/-- C4 (amended): when no match of the generic pattern starts before `user alice` and the
text after it is empty or begins with a character outside the token set, the extracted
username is `alice`. -/
theorem extract_user_alice (T : CaseTables) (now : Int) (p r : String)
    (hp : startsWithin reUserAt p.data ("user alice".data ++ r.data) = false)
    (hr : ∀ c ∈ r.data.head?, isTokenChar c = false) :
    (extract T now (p ++ "user alice" ++ r)).Username = "alice" := by
  have hd : (p ++ "user alice" ++ r).data = p.data ++ ("user alice".data ++ r.data) := by
    simp [String.data_append]
  have hat : reUserAt ("user alice".data ++ r.data) = some "alice".data := by
    have h := reUserAt_occ [' '] "alice".data r.data (by simp) (by decide) (by decide) (by decide)
    rw [takeWhile_nil_of_head _ hr] at h
    exact h
  rw [extract_Username, hd]
  unfold reUser
  rw [leftmost_skip _ _ _ hp, leftmost_head _ _ _ hat]

/-- Witness of C4: a login event of the Linux simulator for the user `alice`. -/
theorem extract_user_alice_witness :
    (extract asciiTables 0
      ("<86> web-01 sudo: pam_unix(sudo:session): session opened for " ++ "user alice" ++
        "(uid=0)")).Username = "alice" :=
  extract_user_alice asciiTables 0 "<86> web-01 sudo: pam_unix(sudo:session): session opened for "
    "(uid=0)" (by decide!) (by decide!)

/-- C5 (the code at the failing input): a logon event that the Windows simulator emits for
`Administrator` has the claimed shape, and `extract` classifies it as `windows.login` from
`windows`; but the generic pattern matches `user account` in its text, so the username is
`account` and the record is not blacklisted. -/
theorem extract_windows_simulator_event :
    ("<134> WIN-LAB-01 Microsoft-Windows-" ++ "Security-Auditing: " ++
        "A user account was successfully logged on." ++ " Account Name: Administrator")
      = "<134> WIN-LAB-01 Microsoft-Windows-Security-Auditing: A user account was successfully logged on. Account Name: Administrator" ∧
    (extract asciiTables 0 "<134> WIN-LAB-01 Microsoft-Windows-Security-Auditing: A user account was successfully logged on. Account Name: Administrator").EventCategory
      = "windows.login" ∧
    (extract asciiTables 0 "<134> WIN-LAB-01 Microsoft-Windows-Security-Auditing: A user account was successfully logged on. Account Name: Administrator").EventSource
      = "windows" ∧
    reUser "<134> WIN-LAB-01 Microsoft-Windows-Security-Auditing: A user account was successfully logged on. Account Name: Administrator".data
      = some "account".data ∧
    (extract asciiTables 0 "<134> WIN-LAB-01 Microsoft-Windows-Security-Auditing: A user account was successfully logged on. Account Name: Administrator").Username
      = "account" ∧
    (extract asciiTables 0 "<134> WIN-LAB-01 Microsoft-Windows-Security-Auditing: A user account was successfully logged on. Account Name: Administrator").IsBlacklisted
      = false := by
  decide!

/-- C6: username extraction is first-match over the two patterns. If the message has an
occurrence of `user`, whitespace (one or more) and a token, then it has a leftmost one and
the username is the maximal token of every leftmost occurrence, whatever `Account Name:`
occurrences there are; otherwise, if it has an occurrence of `Account Name:`, optional
whitespace and a token, the username is the maximal token of its leftmost occurrence;
otherwise the username is empty. -/
theorem username_first_match (T : CaseTables) (now : Int) (m : String) :
    (HasOccurrence "user".data 1 m.data →
      (∃ p ws tok rest, IsLeftmostMaximal "user".data 1 m.data p ws tok rest) ∧
      ∀ p ws tok rest, IsLeftmostMaximal "user".data 1 m.data p ws tok rest →
        (extract T now m).Username = String.mk tok) ∧
    (¬ HasOccurrence "user".data 1 m.data → HasOccurrence "Account Name:".data 0 m.data →
      (∃ p ws tok rest, IsLeftmostMaximal "Account Name:".data 0 m.data p ws tok rest) ∧
      ∀ p ws tok rest, IsLeftmostMaximal "Account Name:".data 0 m.data p ws tok rest →
        (extract T now m).Username = String.mk tok) ∧
    (¬ HasOccurrence "user".data 1 m.data → ¬ HasOccurrence "Account Name:".data 0 m.data →
      (extract T now m).Username = "") := by
  refine ⟨?_, ?_, ?_⟩
  · intro hocc
    obtain ⟨p, ws, tok, rest, hl, -⟩ :=
      leftmost_spec reUserAt _ 1 reUserAt_occ reUserAt_some _ hocc
    refine ⟨⟨p, ws, tok, rest, hl⟩, ?_⟩
    intro p ws tok rest h
    have hu : reUser m.data = some tok :=
      leftmost_of_occurrence reUserAt _ 1 reUserAt_occ reUserAt_some _ p ws tok rest h
    rw [extract_Username, hu]
  · intro hno hocc
    obtain ⟨p, ws, tok, rest, hl, -⟩ :=
      leftmost_spec reWinUserAt _ 0 reWinUserAt_occ reWinUserAt_some _ hocc
    refine ⟨⟨p, ws, tok, rest, hl⟩, ?_⟩
    intro p ws tok rest h
    have hu : reUser m.data = none :=
      leftmost_of_no_occurrence reUserAt _ 1 reUserAt_some _ hno
    have hw : reWinUser m.data = some tok :=
      leftmost_of_occurrence reWinUserAt _ 0 reWinUserAt_occ reWinUserAt_some _ p ws tok rest h
    rw [extract_Username, hu, hw]
  · intro hno hno2
    have hu : reUser m.data = none :=
      leftmost_of_no_occurrence reUserAt _ 1 reUserAt_some _ hno
    have hw : reWinUser m.data = none :=
      leftmost_of_no_occurrence reWinUserAt _ 0 reWinUserAt_some _ hno2
    rw [extract_Username, hu, hw]

/-- Witness of C6: the generic pattern wins over an earlier `Account Name:`; the alternate
pattern is used without it; no pattern leaves the username empty. -/
theorem username_first_match_witness :
    (extract asciiTables 0 "Account Name: Bob, user alice(uid=0)").Username = "alice" ∧
    (extract asciiTables 0 "logon of Account Name: Bob (admin)").Username = "Bob" ∧
    (extract asciiTables 0 "CRON[123]: (root) CMD").Username = "" :=
  ⟨((username_first_match asciiTables 0 "Account Name: Bob, user alice(uid=0)").1
      ⟨"Account Name: Bob, ".data, " ".data, "alice".data, "(uid=0)".data,
        by decide!, by decide, by decide, by decide, by decide⟩).2
      "Account Name: Bob, ".data " ".data "alice".data "(uid=0)".data
      (isLeftmostMaximal_of_search reUserAt _ 1 reUserAt_occ _ _ _ _ _
        ⟨by decide!, by decide, by decide, by decide, by decide⟩ (by decide) (by decide!)),
   ((username_first_match asciiTables 0 "logon of Account Name: Bob (admin)").2.1
      (fun h => absurd (leftmost_isSome_of_occurrence reUserAt _ 1 reUserAt_occ _ h)
        (by decide!))
      ⟨"logon of ".data, " ".data, "Bob".data, " (admin)".data,
        by decide!, by decide, by decide, by decide, by decide⟩).2
      "logon of ".data " ".data "Bob".data " (admin)".data
      (isLeftmostMaximal_of_search reWinUserAt _ 0 reWinUserAt_occ _ _ _ _ _
        ⟨by decide!, by decide, by decide, by decide, by decide⟩ (by decide) (by decide!)),
   (username_first_match asciiTables 0 "CRON[123]: (root) CMD").2.2
      (fun h => absurd (leftmost_isSome_of_occurrence reUserAt _ 1 reUserAt_occ _ h)
        (by decide!))
      (fun h => absurd (leftmost_isSome_of_occurrence reWinUserAt _ 0 reWinUserAt_occ _ h)
        (by decide!))⟩

/-- C7: `extract` sets `IsBlacklisted` exactly when the extracted username is `root`,
`Administrator` or `baduser`; a record without a username is not blacklisted, and the
message of the test (`... session opened for user root(uid=0)`) is. -/
theorem blacklisted_iff_username (T : CaseTables) (now : Int) (m : String) :
    ((extract T now m).IsBlacklisted = true ↔
      (extract T now m).Username = "root" ∨ (extract T now m).Username = "Administrator" ∨
        (extract T now m).Username = "baduser") ∧
    ((extract T now m).Username = "" → (extract T now m).IsBlacklisted = false) ∧
    (extract T now
      "<86> aiops9242 sudo: pam_unix(sudo:session): session opened for user root(uid=0)"
      ).IsBlacklisted = true := by
  refine ⟨?_, ?_, ?_⟩
  · rw [extract_IsBlacklisted]
    exact blacklisted_iff _
  · intro h
    rw [extract_IsBlacklisted, h]
    decide
  · have hu : (extract T now
        "<86> aiops9242 sudo: pam_unix(sudo:session): session opened for user root(uid=0)"
        ).Username = "root" := by
      rw [extract_Username]
      have h : reUser
          "<86> aiops9242 sudo: pam_unix(sudo:session): session opened for user root(uid=0)".data
          = some "root".data := by decide!
      rw [h]
    rw [extract_IsBlacklisted, hu]
    decide

/-- Witness of C7: a cron event has no username and is not blacklisted. -/
theorem blacklisted_iff_username_witness :
    (extract asciiTables 0 "<45> web-01 CRON[123]: (root) CMD (run-parts /etc/cron.hourly)"
      ).IsBlacklisted = false :=
  (blacklisted_iff_username asciiTables 0
    "<45> web-01 CRON[123]: (root) CMD (run-parts /etc/cron.hourly)").2.1 (by decide!)

/-- C8: for a non-empty digit string `d`, a non-empty token `h` and any text `r`, the
hostname extracted from `"<" ++ d ++ "> " ++ h ++ " " ++ r` is `h`. -/
theorem extract_hostname (T : CaseTables) (now : Int) (d h r : String)
    (_hd0 : d.data ≠ []) (hd : ∀ c ∈ d.data, isDigit c = true)
    (hh0 : h.data ≠ []) (hh : ∀ c ∈ h.data, isTokenChar c = true) :
    (extract T now ("<" ++ d ++ "> " ++ h ++ " " ++ r)).Hostname = h := by
  have e : ("<" ++ d ++ "> " ++ h ++ " " ++ r).data
      = ('<' :: d.data) ++ ('>' :: ([' '] ++ (h.data ++ ' ' :: r.data))) := by
    simp [String.data_append]
  have hsw : startsWithin reHostAt ('<' :: d.data)
      ('>' :: ([' '] ++ (h.data ++ ' ' :: r.data))) = false := by
    simp only [startsWithin, List.cons_append, reHostAt_ne '<' _ (by decide), Option.isSome_none,
      Bool.false_or]
    exact startsWithin_reHostAt_digits _ _ hd
  obtain ⟨-, e2, e3, e4⟩ := split_ws_token [' '] h.data (' ' :: r.data) (by decide) hh0 hh
  have hat : reHostAt ('>' :: ([' '] ++ (h.data ++ ' ' :: r.data))) = some h.data := by
    have hsp : isSpace ' ' = true := by decide
    have htk : isTokenChar ' ' = false := by decide
    unfold reHostAt
    simp only [dropLit, if_true, e2, e3, e4, List.takeWhile_cons, List.dropWhile_cons, htk,
      Bool.false_eq_true, if_false, List.append_nil]
    cases hcase : h.data with
    | nil => exact absurd hcase hh0
    | cons a as => simp [hsp]
  have hres : reHost ("<" ++ d ++ "> " ++ h ++ " " ++ r).data = some h.data := by
    rw [e]
    unfold reHost
    rw [leftmost_skip _ _ _ hsw]
    exact leftmost_head _ _ _ hat
  show (match reHost ("<" ++ d ++ "> " ++ h ++ " " ++ r).data with
    | some x => String.mk x
    | none => "") = h
  rw [hres]

/-- Witness of C8: the message of the test `TestExtractBasic`. -/
theorem extract_hostname_witness :
    (extract asciiTables 0 ("<" ++ "86" ++ "> " ++ "aiops9242" ++ " " ++
      "sudo: pam_unix(sudo:session): session opened for user root(uid=0)")).Hostname
      = "aiops9242" :=
  extract_hostname asciiTables 0 "86" "aiops9242"
    "sudo: pam_unix(sudo:session): session opened for user root(uid=0)"
    (by decide) (by decide) (by decide) (by decide)

/-- C9: after a run of `Append` calls on a fresh store that all returned a nil error,
`Count` is the number of calls, `All` is the appended records in order, each count index
gives for every key the number of cached records with that key (category, upper-cased
severity), and the values of each index sum to the number of records. -/
theorem appendAll_consistent (T : CaseTables) (M : LogRecord → Option (List Char))
    (path : String) (disk : Disk) (steps : List (LogRecord × SysOutcome))
    (hok : ∀ o ∈ (appendAll T M disk (newFileStore path) steps).1, o = Outcome.ok) :
    Count (appendAll T M disk (newFileStore path) steps).2.1 = steps.length ∧
    All (appendAll T M disk (newFileStore path) steps).2.1 = steps.map Prod.fst ∧
    (∀ k, mapGet (GroupBy (appendAll T M disk (newFileStore path) steps).2.1 "event.category") k
      = (steps.map Prod.fst).countP (fun r => decide (r.EventCategory = k))) ∧
    (∀ k, mapGet (GroupBy (appendAll T M disk (newFileStore path) steps).2.1 "severity") k
      = (steps.map Prod.fst).countP
          (fun r => decide (String.mk (ToUpper T r.Severity.data) = k))) ∧
    mapTotal (GroupBy (appendAll T M disk (newFileStore path) steps).2.1 "event.category")
      = steps.length ∧
    mapTotal (GroupBy (appendAll T M disk (newFileStore path) steps).2.1 "severity")
      = steps.length ∧
    ((GroupBy (appendAll T M disk (newFileStore path) steps).2.1 "event.category").map
      Prod.fst).Nodup ∧
    ((GroupBy (appendAll T M disk (newFileStore path) steps).2.1 "severity").map
      Prod.fst).Nodup := by
  obtain ⟨b1, mc1, ms1, b2, b3, b4, b5, b6, b7, b8, b9⟩ :=
    appendAll_ok_state T M steps disk (newFileStore path) [] [] rfl rfl hok
  have g1 : GroupBy (appendAll T M disk (newFileStore path) steps).2.1 "event.category" = mc1 := by
    simp [GroupBy, b2]
  have g2 : GroupBy (appendAll T M disk (newFileStore path) steps).2.1 "severity" = ms1 := by
    simp [GroupBy, b3]
  rw [g1, g2]
  refine ⟨?_, ?_, ?_, ?_, ?_, ?_, b8 (by simp), b9 (by simp)⟩
  · rw [Count, b1]; simp [newFileStore]
  · rw [All, b1]; simp [newFileStore]
  · intro k; rw [b4 k]; simp [mapGet]
  · intro k; rw [b5 k]; simp [mapGet]
  · rw [b6]; simp [mapTotal]
  · rw [b7]; simp [mapTotal]

/-- Witness of C9: three successful appends to a fresh store on an empty disk. -/
theorem appendAll_consistent_witness :
    Count (appendAll asciiTables sampleMarshal emptyDisk (newFileStore "data/logs.jsonl")
      (sampleRecords.map fun r => (r, SysOutcome.mk false none))).2.1 = 3 ∧
    mapGet (GroupBy (appendAll asciiTables sampleMarshal emptyDisk
      (newFileStore "data/logs.jsonl")
      (sampleRecords.map fun r => (r, SysOutcome.mk false none))).2.1 "event.category")
      "login.audit" = 2 ∧
    mapGet (GroupBy (appendAll asciiTables sampleMarshal emptyDisk
      (newFileStore "data/logs.jsonl")
      (sampleRecords.map fun r => (r, SysOutcome.mk false none))).2.1 "severity") "INFO" = 2 ∧
    mapTotal (GroupBy (appendAll asciiTables sampleMarshal emptyDisk
      (newFileStore "data/logs.jsonl")
      (sampleRecords.map fun r => (r, SysOutcome.mk false none))).2.1 "severity") = 3 := by
  have h := appendAll_consistent asciiTables sampleMarshal "data/logs.jsonl" emptyDisk
    (sampleRecords.map fun r => (r, SysOutcome.mk false none)) (by decide!)
  refine ⟨h.1, ?_, ?_, ?_⟩
  · rw [h.2.2.1]; decide!
  · rw [h.2.2.2.1]; decide!
  · rw [h.2.2.2.2.2.1]; decide!

/-- C10: when the durable write of `Append` cannot be completed (the file cannot be opened,
the record cannot be encoded, or the write fails), `Append` returns a non-nil error and
leaves the cache and both count indexes as they were. -/
theorem Append_failure_keeps_state (T : CaseTables) (M : LogRecord → Option (List Char))
    (sys : SysOutcome) (disk : Disk) (fs : fileStore) (rec : LogRecord)
    (h : sys.openFails = true ∨ M rec = none ∨ sys.writeFails ≠ none) :
    (∃ e, (Append T M sys disk fs rec).1 = Outcome.error e) ∧
    (Append T M sys disk fs rec).2.1.cache = fs.cache ∧
    (Append T M sys disk fs rec).2.1.counts = fs.counts := by
  unfold Append
  cases ho : sys.openFails with
  | true => simp
  | false =>
    cases hm : M rec with
    | none => simp
    | some b =>
      cases hw : sys.writeFails with
      | some k => simp
      | none => simp [ho, hm, hw] at h

/-- Witness of C10: a write that fails after one byte leaves the fresh store as it was. -/
theorem Append_failure_keeps_state_witness :
    (∃ e, (Append asciiTables sampleMarshal (SysOutcome.mk false (some 1)) emptyDisk
      (newFileStore "data/logs.jsonl") sampleRecord).1 = Outcome.error e) ∧
    (Append asciiTables sampleMarshal (SysOutcome.mk false (some 1)) emptyDisk
      (newFileStore "data/logs.jsonl") sampleRecord).2.1.cache = [] ∧
    (Append asciiTables sampleMarshal (SysOutcome.mk false (some 1)) emptyDisk
      (newFileStore "data/logs.jsonl") sampleRecord).2.1.counts
      = [("event.category", []), ("severity", [])] :=
  Append_failure_keeps_state asciiTables sampleMarshal (SysOutcome.mk false (some 1)) emptyDisk
    (newFileStore "data/logs.jsonl") sampleRecord (Or.inr (Or.inr (by decide)))

/-- C11 (the code at the failing input): after one or more records have been appended with
success to a fresh store whose file did not exist, recovery into a new store of the same
path does not terminate while the calls of `Append` succeed: for every amount of fuel
`loadExisting` has not returned. The codec is any one that reads back what it writes. -/
theorem loadExisting_never_returns (T : CaseTables) (M : LogRecord → Option (List Char))
    (D : List Char → Option (LogRecord × Nat)) (path : String) (disk0 : Disk)
    (steps : List (LogRecord × SysOutcome)) (hfresh : disk0 path = none) (hne : steps ≠ [])
    (hok : ∀ o ∈ (appendAll T M disk0 (newFileStore path) steps).1, o = Outcome.ok)
    (hlaw : ∀ r ∈ steps.map Prod.fst, ReadsBack M D r) (fuel : Nat) :
    loadExisting T M D false allSucceed fuel path
      (appendAll T M disk0 (newFileStore path) steps).2.2 (newFileStore path) = none := by
  have hfile : (appendAll T M disk0 (newFileStore path) steps).2.2 path
      = some (fileOf M (steps.map Prod.fst)) := by
    have h := appendAll_ok_file T M steps disk0 (newFileStore path) hok
    have hp : (newFileStore path).path = path := rfl
    rw [hp, if_neg hne, hfresh] at h
    simpa using h
  unfold loadExisting
  rw [hfile]
  simp only [Bool.false_eq_true, if_false]
  exact replay_diverges T M D path fuel 0 0 _ (newFileStore path) _ [] (steps.map Prod.fst)
    rfl rfl rfl hfile (by simp) (by simp) (by simpa using hne) hlaw

/-- Witness of C11: one record appended to a fresh store on an empty disk; the recovery
has not returned after a thousand rounds. -/
theorem loadExisting_never_returns_witness :
    (appendAll asciiTables sampleJsonMarshal emptyDisk (newFileStore "data/logs.jsonl")
      [({ zeroRecord with RawMessage := "x" }, SysOutcome.mk false none)]).2.1.cache
      = [{ zeroRecord with RawMessage := "x" }] ∧
    loadExisting asciiTables sampleJsonMarshal sampleJsonDecode false allSucceed 1000
      "data/logs.jsonl"
      (appendAll asciiTables sampleJsonMarshal emptyDisk (newFileStore "data/logs.jsonl")
        [({ zeroRecord with RawMessage := "x" }, SysOutcome.mk false none)]).2.2
      (newFileStore "data/logs.jsonl") = none :=
  ⟨by decide!, loadExisting_never_returns asciiTables sampleJsonMarshal sampleJsonDecode
    "data/logs.jsonl" emptyDisk [({ zeroRecord with RawMessage := "x" }, SysOutcome.mk false none)]
    rfl (by simp) (by decide!)
    (by
      intro r hr
      simp only [List.map_cons, List.map_nil, List.mem_singleton] at hr
      rw [hr]
      exact sample_reads_back "x".data (by decide)) 1000⟩

/-- C12 (the code at the failing input): when the backing file begins with a closing
brace or a closing bracket, a line that does not decode, `loadExisting` returns the nil
error without reading anything: the store and the file are as before. -/
theorem loadExisting_silent_on_closing_brace (T : CaseTables)
    (M : LogRecord → Option (List Char)) (D : List Char → Option (LogRecord × Nat))
    (sysAt : Nat → SysOutcome) (fuel : Nat) (path : String) (fs : fileStore) (c : Char)
    (rest : List Char) (hc : c = '\x7d' ∨ c = ']') (_hbad : D (c :: rest) = none) :
    loadExisting T M D false sysAt (fuel + 1) path (diskWith path (c :: rest)) fs
      = some (LoadOutcome.ok, fs, diskWith path (c :: rest)) := by
  have hd : diskWith path (c :: rest) path = some (c :: rest) := by
    simp [diskWith, Disk.put]
  have hm : More (c :: rest) = false := by
    rcases hc with hc | hc <;> subst hc
    · have hsp : isJsonSpace '\x7d' = false := by decide
      simp [More, List.dropWhile_cons, hsp]
    · have hsp : isJsonSpace ']' = false := by decide
      simp [More, List.dropWhile_cons, hsp]
  unfold loadExisting
  rw [hd]
  simp only [Bool.false_eq_true, if_false]
  unfold replay
  simp only [hd, Option.getD_some, List.drop_zero, hm, Bool.false_eq_true, if_false]

/-- Witness of C12: the file that holds a closing brace and a newline. -/
theorem loadExisting_silent_on_closing_brace_witness :
    sampleJsonDecode "\x7d\n".data = none ∧
    loadExisting asciiTables sampleJsonMarshal sampleJsonDecode false allSucceed 1
        "data/logs.jsonl" (diskWith "data/logs.jsonl" "\x7d\n".data)
        (newFileStore "data/logs.jsonl")
      = some (LoadOutcome.ok, newFileStore "data/logs.jsonl",
          diskWith "data/logs.jsonl" "\x7d\n".data) :=
  ⟨by decide!, loadExisting_silent_on_closing_brace asciiTables sampleJsonMarshal
    sampleJsonDecode allSucceed 0 "data/logs.jsonl" (newFileStore "data/logs.jsonl") '\x7d'
    "\n".data (Or.inl rfl) (by decide!)⟩

/-- C13: a payload that decodes with an empty `raw.message` gets the reply 400 and the
store and the disk stay as they were (`Append` is not called); a payload that decodes with
a non-empty `raw.message` is passed to `Append` with the timestamp replaced by the clock
exactly when it is zero, and the reply is 202 when `Append` returns nil. -/
theorem ingest_requires_raw_message (T : CaseTables) (M : LogRecord → Option (List Char))
    (D : List Char → Option (LogRecord × Nat)) (sys : SysOutcome) (now : Int) (disk : Disk)
    (fs : fileStore) (body : List Char) (p : LogRecord) (n : Nat) (hdec : D body = some (p, n)) :
    (p.RawMessage = "" → ingest T M D sys now disk fs body = (Reply.status 400, fs, disk)) ∧
    (p.RawMessage ≠ "" →
      (ingest T M D sys now disk fs body).2 =
        (Append T M sys disk fs (if p.Timestamp = 0 then { p with Timestamp := now } else p)).2 ∧
      ((Append T M sys disk fs (if p.Timestamp = 0 then { p with Timestamp := now } else p)).1
          = Outcome.ok → (ingest T M D sys now disk fs body).1 = Reply.status 202) ∧
      (∀ e, (Append T M sys disk fs (if p.Timestamp = 0 then { p with Timestamp := now }
          else p)).1 = Outcome.error e → (ingest T M D sys now disk fs body).1 = Reply.status 500))
    := by
  by_cases ht : p.Timestamp = 0
  · constructor
    · intro h
      simp [ingest, hdec, ht, h]
    · intro h
      simp only [ingest, hdec, ht, if_true, h, if_false]
      cases hA : (Append T M sys disk fs { p with Timestamp := now }).1 with
      | ok => simp
      | error e => simp
      | panicked => simp
  · constructor
    · intro h
      simp [ingest, hdec, ht, h]
    · intro h
      simp only [ingest, hdec, ht, if_false, h]
      cases hA : (Append T M sys disk fs p).1 with
      | ok => simp
      | error e => simp
      | panicked => simp

/-- Witness of C13: a body without message is refused and a body with a message is stored. -/
theorem ingest_requires_raw_message_witness :
    ingest asciiTables sampleJsonMarshal sampleJsonDecode (SysOutcome.mk false none) 5 emptyDisk
      (newFileStore "data/logs.jsonl") (lineOpen ++ lineClose)
      = (Reply.status 400, newFileStore "data/logs.jsonl", emptyDisk) ∧
    (ingest asciiTables sampleJsonMarshal sampleJsonDecode (SysOutcome.mk false none) 5 emptyDisk
      (newFileStore "data/logs.jsonl") (lineOpen ++ ("x".data ++ lineClose))).1
      = Reply.status 202 :=
  ⟨(ingest_requires_raw_message asciiTables sampleJsonMarshal sampleJsonDecode
      (SysOutcome.mk false none) 5 emptyDisk (newFileStore "data/logs.jsonl")
      (lineOpen ++ lineClose) zeroRecord 18 (by decide!)).1 (by decide),
   ((ingest_requires_raw_message asciiTables sampleJsonMarshal sampleJsonDecode
      (SysOutcome.mk false none) 5 emptyDisk (newFileStore "data/logs.jsonl")
      (lineOpen ++ ("x".data ++ lineClose)) { zeroRecord with RawMessage := "x" } 19
      (by decide!)).2 (by decide)).2.1 (by decide!)⟩

/-- C14 (counterexample): on the three sample records, the service value ` linux_login`
(with a leading space) returns the record whose service is `linux_login`, though no record
has the service ` linux_login`; a service value of one space returns all three records;
and the flag value `yes` is answered with status 400. -/
theorem logs_filter_counterexample :
    logs asciiTables stableSort (storeWith sampleRecords)
        { emptyQuery with service := " linux_login" }
      = LogsReply.records (sampleRecords.drop 2) ∧
    (All (storeWith sampleRecords)).filter (fun r => decide (satisfiesQuery asciiTables
        { emptyQuery with service := " linux_login" } none r)) = [] ∧
    logs asciiTables stableSort (storeWith sampleRecords) { emptyQuery with service := " " }
      = LogsReply.records sampleRecords ∧
    (All (storeWith sampleRecords)).filter (fun r => decide (satisfiesQuery asciiTables
        { emptyQuery with service := " " } none r)) = [] ∧
    logs asciiTables stableSort (storeWith sampleRecords) { emptyQuery with isBlacklisted := "yes" }
      = LogsReply.badRequest := by
  decide!

/-- C14 (amended): for a query without sort and limit whose flag is absent or a boolean,
the handler returns, in append order, exactly the records that satisfy every constraint
after the query values have been trimmed of surrounding whitespace (the level also
upper-cased), where a value that is empty after trimming restricts nothing; so it returns
all records when no constraint is left, and none when no record satisfies them. -/
theorem logs_filter (T : CaseTables) (S : SliceSort) (fs : fileStore) (q : Query)
    (flag : Option Bool) (hflag : parseBoolQuery q.isBlacklisted = (flag, false))
    (hsort : q.sort = "") (hlimit : q.limit = "") :
    logs T S fs q = LogsReply.records
      ((All fs).filter (fun r => decide (satisfiesTrimmed T q flag r))) ∧
    (TrimSpace (ToUpper T q.level.data) = [] → TrimSpace q.service.data = [] →
      TrimSpace q.username.data = [] → flag = none →
      logs T S fs q = LogsReply.records (All fs)) ∧
    ((∀ r ∈ All fs, ¬ satisfiesTrimmed T q flag r) → logs T S fs q = LogsReply.records []) := by
  have hmain : logs T S fs q = LogsReply.records
      ((All fs).filter (fun r => decide (satisfiesTrimmed T q flag r))) := by
    rw [logs_eq, hflag, hlimit, queryLimit_empty, limitStep_zero]
    simp only [Bool.false_eq_true, if_false, beforeLimit, sortStep, hsort, hflag]
    rw [if_neg (by decide)]
    congr 1
    apply List.filter_congr
    intro r _
    rw [Bool.eq_iff_iff, keepRecord_iff, decide_eq_true_iff]
    rfl
  refine ⟨hmain, ?_, ?_⟩
  · intro h1 h2 h3 h4
    rw [hmain]
    congr 1
    rw [List.filter_eq_self]
    intro r _
    rw [decide_eq_true_iff]
    exact ⟨Or.inl h1, Or.inl h2, Or.inl h3, Or.inl h4⟩
  · intro h
    rw [hmain]
    congr 1
    rw [List.filter_eq_nil_iff]
    intro r hr
    rw [decide_eq_true_iff]
    exact h r hr

/-- Witness of C14: the service value `linux_login` selects the third sample record. -/
theorem logs_filter_witness :
    logs asciiTables stableSort (storeWith sampleRecords)
        { emptyQuery with service := "linux_login" }
      = LogsReply.records (sampleRecords.drop 2) :=
  ((logs_filter asciiTables stableSort (storeWith sampleRecords)
      { emptyQuery with service := "linux_login" } none (by decide!) rfl rfl).1).trans
    (by decide!)

/-- C15 (counterexample): thirteen records are appended, twelve with the same timestamp and
then an earlier one. With `sort=timestamp` the handler returns, whatever the generator of
`breakPatterns_func`, the list below. It is in ascending order, but the records of equal
timestamp are not in their append order: `r6` comes before `r2`, and `r1` comes last. -/
theorem logs_sort_counterexample :
    All (storeWith thirteenRecords) = thirteenRecords ∧
    (∀ Next : Nat → Nat,
      logs asciiTables (goSort Next (sortSlice_spec Next)) (storeWith thirteenRecords)
          { emptyQuery with sort := "timestamp" }
        = LogsReply.records
            [{ zeroRecord with Timestamp := 0, RawMessage := "early" }, tied "r6", tied "r2",
              tied "r3", tied "r4", tied "r5", tied "r0", tied "r7", tied "r8", tied "r9",
              tied "r10", tied "r11", tied "r1"]) ∧
    ¬ TiesInOrder thirteenRecords
        [{ zeroRecord with Timestamp := 0, RawMessage := "early" }, tied "r6", tied "r2",
          tied "r3", tied "r4", tied "r5", tied "r0", tied "r7", tied "r8", tied "r9",
          tied "r10", tied "r11", tied "r1"] := by
  refine ⟨by decide!, ?_, fun h => absurd (h 5) (by decide!)⟩
  intro Next
  have hf : (All (storeWith thirteenRecords)).filter (keepRecord asciiTables
      (TrimSpace (ToUpper asciiTables ({ emptyQuery with sort := "timestamp" } : Query).level.data))
      (TrimSpace ({ emptyQuery with sort := "timestamp" } : Query).service.data)
      (TrimSpace ({ emptyQuery with sort := "timestamp" } : Query).username.data)
      (parseBoolQuery ({ emptyQuery with sort := "timestamp" } : Query).isBlacklisted).1)
      = thirteenRecords := by decide!
  have hl : limitStep (queryLimit ({ emptyQuery with sort := "timestamp" } : Query).limit)
      [{ zeroRecord with Timestamp := 0, RawMessage := "early" }, tied "r6", tied "r2",
        tied "r3", tied "r4", tied "r5", tied "r0", tied "r7", tied "r8", tied "r9",
        tied "r10", tied "r11", tied "r1"]
      = [{ zeroRecord with Timestamp := 0, RawMessage := "early" }, tied "r6", tied "r2",
        tied "r3", tied "r4", tied "r5", tied "r0", tied "r7", tied "r8", tied "r9",
        tied "r10", tied "r11", tied "r1"] := by decide!
  rw [logs_goSort asciiTables Next (sortSlice_spec Next) (storeWith thirteenRecords) _ _
    (by decide!) rfl (by rw [hf]; exact sortSlice_thirteenRecords Next), hl]

/-- C15 (amended): when `sort=timestamp` is requested, the call `sort.Slice` returns, and
the handler answers with its result `out` truncated by the limit; `out` is a rearrangement
of the records that pass the filter, in ascending timestamp order, and so is what is
answered; when at most twelve records pass the filter, records of equal timestamp are in
`out` in their append order. -/
theorem logs_sorted (T : CaseTables) (Next : Nat → Nat) (fs : fileStore) (q : Query)
    (hflag : (parseBoolQuery q.isBlacklisted).2 = false) (hsort : q.sort = "timestamp") :
    ∃ out, sortSlice Next ((All fs).filter (keepRecord T (TrimSpace (ToUpper T q.level.data))
        (TrimSpace q.service.data) (TrimSpace q.username.data)
        (parseBoolQuery q.isBlacklisted).1)) = some out ∧
      logs T (goSort Next (sortSlice_spec Next)) fs q
        = LogsReply.records (limitStep (queryLimit q.limit) out) ∧
      out.Perm ((All fs).filter (keepRecord T (TrimSpace (ToUpper T q.level.data))
        (TrimSpace q.service.data) (TrimSpace q.username.data)
        (parseBoolQuery q.isBlacklisted).1)) ∧
      out.Pairwise (fun a b => a.Timestamp ≤ b.Timestamp) ∧
      (limitStep (queryLimit q.limit) out).Pairwise (fun a b => a.Timestamp ≤ b.Timestamp) ∧
      (((All fs).filter (keepRecord T (TrimSpace (ToUpper T q.level.data))
        (TrimSpace q.service.data) (TrimSpace q.username.data)
        (parseBoolQuery q.isBlacklisted).1)).length ≤ 12 →
        TiesInOrder ((All fs).filter (keepRecord T (TrimSpace (ToUpper T q.level.data))
          (TrimSpace q.service.data) (TrimSpace q.username.data)
          (parseBoolQuery q.isBlacklisted).1)) out) := by
  obtain ⟨out, e, p, s⟩ := sortSlice_spec Next ((All fs).filter (keepRecord T
    (TrimSpace (ToUpper T q.level.data)) (TrimSpace q.service.data) (TrimSpace q.username.data)
    (parseBoolQuery q.isBlacklisted).1))
  refine ⟨out, e, logs_goSort T Next _ fs q out hflag hsort e, p, s,
    List.Pairwise.sublist (limitStep_sublist _ _) s, ?_⟩
  intro hlen
  rw [sortSlice_small Next _ hlen] at e
  injection e with e
  rw [← e]
  exact insertionSort_func_ties _ 0 _ (le_refl _)

/-- Witness of C15: the three sample records, appended in reverse, come back in timestamp
order, whatever the generator. -/
theorem logs_sorted_witness :
    (parseBoolQuery ({ emptyQuery with sort := "timestamp" } : Query).isBlacklisted).2 = false ∧
    ({ emptyQuery with sort := "timestamp" } : Query).sort = "timestamp" ∧
    ∀ Next : Nat → Nat,
      logs asciiTables (goSort Next (sortSlice_spec Next)) (storeWith sampleRecords.reverse)
          { emptyQuery with sort := "timestamp" }
        = LogsReply.records sampleRecords := by
  refine ⟨by decide!, rfl, ?_⟩
  intro Next
  obtain ⟨out, e, hl, _⟩ := logs_sorted asciiTables Next (storeWith sampleRecords.reverse)
    { emptyQuery with sort := "timestamp" } (by decide!) rfl
  have hf : (All (storeWith sampleRecords.reverse)).filter (keepRecord asciiTables
      (TrimSpace (ToUpper asciiTables ({ emptyQuery with sort := "timestamp" } : Query).level.data))
      (TrimSpace ({ emptyQuery with sort := "timestamp" } : Query).service.data)
      (TrimSpace ({ emptyQuery with sort := "timestamp" } : Query).username.data)
      (parseBoolQuery ({ emptyQuery with sort := "timestamp" } : Query).isBlacklisted).1)
      = sampleRecords.reverse := by decide!
  rw [hf, sortSlice_small Next _ (by decide)] at e
  injection e with e
  have ho : out = sampleRecords := by
    rw [← e]
    decide!
  rw [hl, ho]
  decide!

/-- C16: with `L` the filtered and, if requested, sorted list: when the limit is a positive
integer `n` (decimal digits, with or without a plus sign) the handler returns the first
`min n (len L)` elements of `L`; when the limit is absent, zero, negative or not a number it
returns all of `L`. The length of a Go slice is below `2 ^ 63`. -/
theorem logs_limit (T : CaseTables) (S : SliceSort) (fs : fileStore) (q : Query)
    (hflag : (parseBoolQuery q.isBlacklisted).2 = false) :
    (∀ ds, (q.limit.data = ds ∨ q.limit.data = '+' :: ds) → ds ≠ [] →
      (∀ c ∈ ds, isDigit c = true) → 0 < decimalValue ds →
      (beforeLimit T S fs q).length < 2 ^ 63 →
      logs T S fs q = LogsReply.records
        ((beforeLimit T S fs q).take (min (decimalValue ds) (beforeLimit T S fs q).length))) ∧
    ((q.limit = "" ∨
      (∃ ds, (q.limit.data = ds ∨ q.limit.data = '+' :: ds) ∧ ds ≠ [] ∧
        (∀ c ∈ ds, isDigit c = true) ∧ decimalValue ds = 0) ∨
      (∃ ds, q.limit.data = '-' :: ds) ∨ isNumeral q.limit.data = false) →
      logs T S fs q = LogsReply.records (beforeLimit T S fs q)) := by
  have hl : logs T S fs q
      = LogsReply.records (limitStep (queryLimit q.limit) (beforeLimit T S fs q)) := by
    rw [logs_eq, hflag]; rfl
  constructor
  · intro ds hs hne hd hpos hlen
    rw [hl, queryLimit_digits q.limit ds hs hne hd]
    by_cases hv : decimalValue ds < 2 ^ 63
    · rw [if_pos hv, limitStep_pos _ _ hpos]
    · rw [if_neg hv, limitStep_zero, Nat.min_eq_right (by omega), List.take_length]
  · intro h
    rw [hl]
    have h0 : queryLimit q.limit = 0 := by
      rcases h with h | ⟨ds, hs, hne, hd, hz⟩ | ⟨ds, hs⟩ | h
      · rw [h]; exact queryLimit_empty
      · rw [queryLimit_digits q.limit ds hs hne hd, hz]; simp
      · cases hA : Atoi q.limit.data with
        | none => exact queryLimit_none _ hA
        | some v =>
          have hv : v ≤ 0 := Atoi_minus ds v (by rw [← hs]; exact hA)
          rw [queryLimit_some _ v (by rw [hs]; simp) hA, if_neg (by omega)]
      · exact queryLimit_none _ (Atoi_not_numeral _ h)
    rw [h0, limitStep_zero]

/-- Witness of C16: a limit of 2 on the three sample records, sorted by timestamp. -/
theorem logs_limit_witness :
    logs asciiTables stableSort (storeWith sampleRecords)
      { emptyQuery with limit := "2", sort := "timestamp" }
      = LogsReply.records (sampleRecords.take 2) :=
  ((logs_limit asciiTables stableSort (storeWith sampleRecords)
      { emptyQuery with limit := "2", sort := "timestamp" } (by decide!)).1 "2".data
      (Or.inl rfl) (by decide) (by decide) (by decide) (by decide!)).trans (by decide!)

/-- C17 (the code at the failing input): when the backing file begins with a value that
decodes to a record with an empty `RawMessage` and the first `Append` of the replay
succeeds, every state in which `loadExisting` returns has a record with an empty
`RawMessage` in the cache: recovery appends what it decodes without the test that
`ingest` makes. -/
theorem loadExisting_caches_empty_message (T : CaseTables) (M : LogRecord → Option (List Char))
    (D : List Char → Option (LogRecord × Nat)) (sysAt : Nat → SysOutcome) (path : String)
    (content : List Char) (rec : LogRecord) (n : Nat) (b : List Char)
    (hmore : More content = true) (hdec : D content = some (rec, n))
    (hempty : rec.RawMessage = "") (hM : M rec = some b)
    (h0 : sysAt 0 = SysOutcome.mk false none) (fuel : Nat)
    (res : LoadOutcome × fileStore × Disk)
    (h : loadExisting T M D false sysAt fuel path (diskWith path content) (newFileStore path)
      = some res) :
    ∃ r ∈ res.2.1.cache, r.RawMessage = "" := by
  obtain ⟨h1, -⟩ := loadExisting_first_step T M D sysAt path content rec n b hmore hdec hM h0
    fuel res h
  exact ⟨rec, h1.subset (by simp), hempty⟩

/-- Witness of C17: the file holds one object with an empty message; the first write
succeeds and the next one fails, so that the replay comes to an end. -/
theorem loadExisting_caches_empty_message_witness :
    ∃ res, loadExisting asciiTables sampleJsonMarshal sampleJsonDecode false firstSucceeds 3
        "data/logs.jsonl" (diskWith "data/logs.jsonl" (lineOpen ++ lineClose ++ ['\n']))
        (newFileStore "data/logs.jsonl") = some res ∧
      res.1 = LoadOutcome.ok ∧ ∃ r ∈ res.2.1.cache, r.RawMessage = "" := by
  have hs : (loadExisting asciiTables sampleJsonMarshal sampleJsonDecode false firstSucceeds 3
      "data/logs.jsonl" (diskWith "data/logs.jsonl" (lineOpen ++ lineClose ++ ['\n']))
      (newFileStore "data/logs.jsonl")).isSome = true := by decide!
  have ho : (loadExisting asciiTables sampleJsonMarshal sampleJsonDecode false firstSucceeds 3
      "data/logs.jsonl" (diskWith "data/logs.jsonl" (lineOpen ++ lineClose ++ ['\n']))
      (newFileStore "data/logs.jsonl")).map (fun r => r.1) = some LoadOutcome.ok := by decide!
  obtain ⟨res, hres⟩ := Option.isSome_iff_exists.mp hs
  refine ⟨res, hres, ?_, ?_⟩
  · rw [hres] at ho
    simpa using ho
  · exact loadExisting_caches_empty_message asciiTables sampleJsonMarshal sampleJsonDecode
      firstSucceeds "data/logs.jsonl" (lineOpen ++ lineClose ++ ['\n']) zeroRecord 18
      (lineOpen ++ ([] ++ lineClose)) (by decide!) (by decide!) rfl rfl rfl 3 res hres

/-- C19 (the code at the failing input): when the backing file begins with a value that
decodes and the first `Append` of the replay succeeds, every state in which
`loadExisting` returns has a longer file than before: the replay has written the line of
the record once more. -/
theorem loadExisting_rewrites_file (T : CaseTables) (M : LogRecord → Option (List Char))
    (D : List Char → Option (LogRecord × Nat)) (sysAt : Nat → SysOutcome) (path : String)
    (content : List Char) (rec : LogRecord) (n : Nat) (b : List Char)
    (hmore : More content = true) (hdec : D content = some (rec, n)) (hM : M rec = some b)
    (h0 : sysAt 0 = SysOutcome.mk false none) (fuel : Nat)
    (res : LoadOutcome × fileStore × Disk)
    (h : loadExisting T M D false sysAt fuel path (diskWith path content) (newFileStore path)
      = some res) :
    ∃ extra, extra ≠ [] ∧ res.2.2 path = some (content ++ extra) := by
  obtain ⟨-, e, he⟩ := loadExisting_first_step T M D sysAt path content rec n b hmore hdec hM h0
    fuel res h
  exact ⟨(b ++ ['\n']) ++ e, by simp, by rw [he, List.append_assoc]⟩

/-- Witness of C19: the file holds the line of one record; after the recovery it holds
that line twice. -/
theorem loadExisting_rewrites_file_witness :
    ∃ res, loadExisting asciiTables sampleJsonMarshal sampleJsonDecode false firstSucceeds 3
        "data/logs.jsonl"
        (diskWith "data/logs.jsonl" (lineOpen ++ ("x".data ++ lineClose) ++ ['\n']))
        (newFileStore "data/logs.jsonl") = some res ∧
      ∃ extra, extra ≠ [] ∧ res.2.2 "data/logs.jsonl"
        = some (lineOpen ++ ("x".data ++ lineClose) ++ ['\n'] ++ extra) := by
  have hs : (loadExisting asciiTables sampleJsonMarshal sampleJsonDecode false firstSucceeds 3
      "data/logs.jsonl"
      (diskWith "data/logs.jsonl" (lineOpen ++ ("x".data ++ lineClose) ++ ['\n']))
      (newFileStore "data/logs.jsonl")).isSome = true := by decide!
  obtain ⟨res, hres⟩ := Option.isSome_iff_exists.mp hs
  exact ⟨res, hres, loadExisting_rewrites_file asciiTables sampleJsonMarshal sampleJsonDecode
    firstSucceeds "data/logs.jsonl" (lineOpen ++ ("x".data ++ lineClose) ++ ['\n'])
    { zeroRecord with RawMessage := "x" } 19 (lineOpen ++ ("x".data ++ lineClose))
    (by decide!) (by decide!) rfl rfl 3 res hres⟩

/-- C20 (the code at the failing input): whatever status code the server answers with,
`forward` returns the nil error; so a reply 400 or 500 of the ingest endpoint is not
reported. -/
theorem forward_returns_nil_on_any_status (serverURL : String) (rec : outgoing)
    (StatusCode : Int) :
    forward serverURL rec (Exchange.response StatusCode) = none ∧
    forward serverURL rec (Exchange.response 400) = none ∧
    forward serverURL rec (Exchange.response 500) = none := by
  refine ⟨?_, ?_, ?_⟩ <;> simp [forward]

end LogSys
